import Mathlib

/-!
# BARCH codec: a shallow embedding of `BarchLib` and its verified properties

The definitions below follow `src/BarchLib/barchlib.hpp` and
`src/BarchLib/barchlib.cpp` function by function.

* `std::size_t` / `Word` values are natural numbers; every arithmetic step that
  can leave the range of the machine word is reduced modulo `2 ^ W`.
* The two `if constexpr` / `#if` build parameters of the library (the width of
  `std::size_t` and the host byte order) are collected in `Target`.
* `std::vector<Word>` and `std::span<Pixel>` are lists.
* Exceptions are values of `Except Error`.
* The allocations of `std::vector` are taken to succeed. The allocation that the code
  guards itself, in the constructor of `Bitmap` (`catch (std::bad_alloc &)`), has its
  outcome as a parameter: `Bitmap.createWith` and its caller `uncompressWith` take the
  allocator of the host; `Bitmap.create` and `uncompress` are the runs in which the
  allocator serves the request.
-/

namespace BarchLib

/-! ## Build parameters -/

/-- Width of `std::size_t` on the build target (`sizeof(Word) == sizeof(std::uint64_t)` or not). -/
inductive WordSize where
  | w32
  | w64
deriving DecidableEq, Repr

/-- Host byte order (`__BYTE_ORDER__`). -/
inductive ByteOrder where
  | little
  | big
deriving DecidableEq, Repr

/-- Build target: the word size and the byte order the library is compiled for. -/
structure Target where
  wordSize : WordSize
  byteOrder : ByteOrder
deriving DecidableEq, Repr

/-- The value `bitsPer<Word>`, that is `sizeof(Word) * 8`. -/
def WordSize.bits : WordSize → Nat
  | .w32 => 32
  | .w64 => 64

/-- The value `bitsPer<Word>` on target `t`. -/
def bitsPerWord (t : Target) : Nat := t.wordSize.bits

/-- Number of values of a machine word, `2 ^ W`. -/
def wordModulus (t : Target) : Nat := 2 ^ bitsPerWord t

/-- The value `std::numeric_limits<std::size_t>::max()`. -/
def maxUSize (t : Target) : Nat := wordModulus t - 1

/-- Reduction of an arithmetic result to a machine word. -/
def wrapWord (t : Target) (n : Nat) : Nat := n % wordModulus t

/-- Bitwise complement `~w` of a machine word. -/
def wordNot (t : Target) (w : Nat) : Nat := w ^^^ maxUSize t

/-! ## Pixels and errors -/

/-- The constant `White = 0xFFU`. -/
def White : Nat := 0xFF

/-- The constant `Black = 0x00U`. -/
def Black : Nat := 0x00

/-- The enum `InvalidSize::Reason`. -/
inductive Reason where
  | TooSmall
  | TooLarge
deriving DecidableEq, Repr

/-- The enum `InvalidCoordinate::Kind`. -/
inductive Kind where
  | X
  | Y
deriving DecidableEq, Repr

/-- Exceptions thrown by the library, and the failure of a `Reader`. -/
inductive Error where
  | invalidSize (width height : Nat) (reason : Reason)
  | invalidCoordinate (kind : Kind) (value : Nat)
  | readFailed
deriving DecidableEq, Repr

/-! ## BitSet -/

/-- The struct `BitSet`: the vector `m_words`. -/
structure BitSet where
  words : List Nat
deriving DecidableEq, Repr

/-- The call `std::vector<Word>::resize(n)`: truncate, or pad with zero words. -/
def resizeWords (ws : List Nat) (n : Nat) : List Nat :=
  ws.take n ++ List.replicate (n - ws.length) 0

namespace BitSet

/-- The constructor `BitSet::BitSet(bitCount)`. -/
def create (t : Target) (bitCount : Nat) : BitSet :=
  let maxPadding := bitsPerWord t - 1
  let alignedBitCount := wrapWord t (bitCount + maxPadding) &&& wordNot t maxPadding
  let wordCount := alignedBitCount / bitsPerWord t
  ⟨resizeWords [] wordCount⟩

/-- The function `BitSet::toWord`: word index and bit mask of a bit index. -/
def toWord (t : Target) (bitIndex : Nat) : Nat × Nat :=
  match t.wordSize with
  | .w64 => (bitIndex / WordSize.w64.bits, 0x8000000000000000 >>> (bitIndex % WordSize.w64.bits))
  | .w32 => (bitIndex / WordSize.w32.bits, 0x80000000 >>> (bitIndex % WordSize.w32.bits))

/-- The method `BitSet::test`. -/
def test (t : Target) (b : BitSet) (bitIndex : Nat) : Bool :=
  let wordIndex := (toWord t bitIndex).1
  let bitMask := (toWord t bitIndex).2
  if wordIndex ≥ b.words.length then false
  else (b.words.getD wordIndex 0 &&& bitMask) != 0

/-- The method `BitSet::set`. -/
def set (t : Target) (b : BitSet) (bitIndex : Nat) : BitSet :=
  let wordIndex := (toWord t bitIndex).1
  let bitMask := (toWord t bitIndex).2
  let words := if wordIndex ≥ b.words.length then resizeWords b.words (wordIndex + 1) else b.words
  ⟨words.set wordIndex (words.getD wordIndex 0 ||| bitMask)⟩

/-- The method `BitSet::clear`. -/
def clear (t : Target) (b : BitSet) (bitIndex : Nat) : BitSet :=
  let wordIndex := (toWord t bitIndex).1
  let bitMask := (toWord t bitIndex).2
  if wordIndex ≥ b.words.length then b
  else ⟨b.words.set wordIndex (b.words.getD wordIndex 0 &&& wordNot t bitMask)⟩

/-- The method `BitSet::wordCount`. -/
def wordCount (b : BitSet) : Nat := b.words.length

/-- The method `BitSet::unsafeResize`. -/
def unsafeResize (b : BitSet) (wordCount : Nat) : BitSet := ⟨resizeWords b.words wordCount⟩

end BitSet

/-! ## PixelBlock primitives -/

/-- Reduction of an arithmetic result to a `PixelBlock` (`std::uint32_t`). -/
def wrap32 (n : Nat) : Nat := n % 2 ^ 32

/-- Conversion `static_cast<Pixel>(n)` to `std::uint8_t`. -/
def toPixel (n : Nat) : Nat := n % 2 ^ 8

/-- The function `combineLittleEndian`. -/
def combineLittleEndian (p0 p1 p2 p3 : Nat) : Nat :=
  let result := p0
  let result := wrap32 (result <<< 8) ||| p1
  let result := wrap32 (result <<< 8) ||| p2
  let result := wrap32 (result <<< 8) ||| p3
  result

/-- The function `splitLittleEndian`; the array is the tuple of its four entries. -/
def splitLittleEndian (block : Nat) : Nat × Nat × Nat × Nat :=
  let r3 := toPixel block
  let r2 := toPixel (block >>> 8)
  let r1 := toPixel (block >>> 16)
  let r0 := toPixel (block >>> 24)
  (r0, r1, r2, r3)

/-- The function `combineBigEndian`. -/
def combineBigEndian (p0 p1 p2 p3 : Nat) : Nat :=
  let result := p3
  let result := wrap32 (result <<< 8) ||| p2
  let result := wrap32 (result <<< 8) ||| p1
  let result := wrap32 (result <<< 8) ||| p0
  result

/-- The function `splitBigEndian`; the array is the tuple of its four entries. -/
def splitBigEndian (block : Nat) : Nat × Nat × Nat × Nat :=
  let r0 := toPixel block
  let r1 := toPixel (block >>> 8)
  let r2 := toPixel (block >>> 16)
  let r3 := toPixel (block >>> 24)
  (r0, r1, r2, r3)

/-- The function `combine` selected by `__BYTE_ORDER__`. -/
def combine (t : Target) (p0 p1 p2 p3 : Nat) : Nat :=
  match t.byteOrder with
  | .big => combineBigEndian p0 p1 p2 p3
  | .little => combineLittleEndian p0 p1 p2 p3

/-- The function `split` selected by `__BYTE_ORDER__`. -/
def split (t : Target) (block : Nat) : Nat × Nat × Nat × Nat :=
  match t.byteOrder with
  | .big => splitBigEndian block
  | .little => splitLittleEndian block

/-- The function `isEmpty`: no pixel different from `White` is found. -/
def isEmpty (pixels : List Nat) : Bool :=
  (pixels.find? (fun pixel => pixel != White)).isNone

/-- The constant `WhiteBlock`. -/
def WhiteBlock (t : Target) : Nat := combine t White White White White

/-- The constant `BlackBlock`. -/
def BlackBlock (t : Target) : Nat := combine t Black Black Black Black

/-! ## Encoder -/

/-- The struct `Encoder`: the BitSet behind `m_output` and the cursor `m_index`. -/
structure Encoder where
  output : BitSet
  index : Nat
deriving DecidableEq, Repr

namespace Encoder

/-- The method `Encoder::write0`: `m_output->clear(m_index++)`. -/
def write0 (t : Target) (e : Encoder) : Encoder :=
  ⟨e.output.clear t e.index, wrapWord t (e.index + 1)⟩

/-- The method `Encoder::write1`: `m_output->set(m_index++)`. -/
def write1 (t : Target) (e : Encoder) : Encoder :=
  ⟨e.output.set t e.index, wrapWord t (e.index + 1)⟩

/-- The `for (bitMask = 0x80000000; bitMask; bitMask >>= 1)` loop of `Encoder::write`.
The first argument bounds the number of iterations; the loop itself stops when
`bitMask` is zero. -/
def writeLoop (t : Target) (block : Nat) : Nat → Nat → Encoder → Encoder
  | 0, _, e => e
  | fuel + 1, bitMask, e =>
    if bitMask = 0 then e
    else
      writeLoop t block fuel (bitMask >>> 1)
        (if block &&& bitMask ≠ 0 then e.write1 t else e.write0 t)

/-- The method `Encoder::write`. -/
def write (t : Target) (e : Encoder) (block : Nat) : Encoder :=
  if block = WhiteBlock t then e.write0 t
  else if block = BlackBlock t then (e.write1 t).write0 t
  else writeLoop t block 33 0x80000000 ((e.write1 t).write1 t)

/-- The method `Encoder::encode`: whole groups of four pixels, then the padded tail. -/
def encode (t : Target) : Encoder → List Nat → Encoder
  | e, p0 :: p1 :: p2 :: p3 :: rest => encode t (e.write t (combine t p0 p1 p2 p3)) rest
  | e, [p0, p1, p2] => e.write t (combine t p0 p1 p2 Black)
  | e, [p0, p1] => e.write t (combine t p0 p1 Black Black)
  | e, [p0] => e.write t (combine t p0 Black Black Black)
  | e, [] => e

end Encoder

/-! ## Decoder -/

/-- The struct `Decoder`: the BitSet behind `m_input` and the cursor `m_index`. -/
structure Decoder where
  input : BitSet
  index : Nat
deriving DecidableEq, Repr

namespace Decoder

/-- The method `Decoder::readBit`: `m_input->test(m_index++)`. -/
def readBit (t : Target) (d : Decoder) : Bool × Decoder :=
  (d.input.test t d.index, ⟨d.input, wrapWord t (d.index + 1)⟩)

/-- The `for (bitMask = 0x80000000; bitMask; bitMask >>= 1)` loop of `Decoder::read`.
The first argument bounds the number of iterations; the loop itself stops when
`bitMask` is zero. -/
def readLoop (t : Target) : Nat → Nat → Nat → Decoder → Nat × Decoder
  | 0, _, result, d => (result, d)
  | fuel + 1, bitMask, result, d =>
    if bitMask = 0 then (result, d)
    else
      let r := d.readBit t
      readLoop t fuel (bitMask >>> 1) (if r.1 then result ||| bitMask else result) r.2

/-- The method `Decoder::read`. -/
def read (t : Target) (d : Decoder) : Nat × Decoder :=
  let r1 := d.readBit t
  if !r1.1 then (WhiteBlock t, r1.2)
  else
    let r2 := r1.2.readBit t
    if !r2.1 then (BlackBlock t, r2.2)
    else readLoop t 33 0x80000000 0 r2.2

/-- The method `Decoder::decode`. The list argument is the span to fill (only its
length matters, every element is overwritten); the result is the filled span. -/
def decode (t : Target) : Decoder → List Nat → List Nat × Decoder
  | d, _ :: _ :: _ :: _ :: rest =>
    let r := d.read t
    let block := split t r.1
    let out := decode t r.2 rest
    (block.1 :: block.2.1 :: block.2.2.1 :: block.2.2.2 :: out.1, out.2)
  | d, [_, _, _] =>
    let r := d.read t
    let block := split t r.1
    ([block.1, block.2.1, block.2.2.1], r.2)
  | d, [_, _] =>
    let r := d.read t
    let block := split t r.1
    ([block.1, block.2.1], r.2)
  | d, [_] =>
    let r := d.read t
    let block := split t r.1
    ([block.1], r.2)
  | d, [] => ([], d)

end Decoder

/-! ## BitmapSize and Bitmap -/

/-- The struct `BitmapSize`. -/
structure BitmapSize where
  width : Nat
  height : Nat
deriving DecidableEq, Repr

namespace BitmapSize

/-- The constructor `BitmapSize::BitmapSize(width, height)`. -/
def create (t : Target) (width height : Nat) : Except Error BitmapSize :=
  if width = 0 ∨ height = 0 then .error (.invalidSize width height .TooSmall)
  else if height > maxUSize t / width then .error (.invalidSize width height .TooLarge)
  else .ok ⟨width, height⟩

/-- The method `BitmapSize::pixelCount`. -/
def pixelCount (t : Target) (s : BitmapSize) : Nat := wrapWord t (s.width * s.height)

end BitmapSize

/-- The struct `Bitmap`: `m_size` and the pixel array behind `m_data`. -/
structure Bitmap where
  size : BitmapSize
  data : List Nat
deriving DecidableEq, Repr

namespace Bitmap

/-- The constructor `Bitmap::Bitmap(width, height, background)`. The allocator of the host
is a parameter: `allocates n` tells whether `std::make_unique<Pixel[]>(n)` returns; when
it throws `std::bad_alloc` the constructor throws `InvalidSize` with `TooLarge`. -/
def createWith (allocates : Nat → Bool) (t : Target) (width height background : Nat) :
    Except Error Bitmap :=
  match BitmapSize.create t width height with
  | .error err => .error err
  | .ok size =>
    let dataSize := wrapWord t (width * height)
    if allocates dataSize then .ok ⟨size, List.replicate dataSize background⟩
    else .error (.invalidSize width height .TooLarge)

/-- The constructor of `Bitmap` in a run in which the allocator serves the request:
`createWith` with an allocator that never refuses. -/
def create (t : Target) (width height background : Nat) : Except Error Bitmap :=
  createWith (fun _ => true) t width height background

/-- The method `Bitmap::width`. -/
def width (b : Bitmap) : Nat := b.size.width

/-- The method `Bitmap::height`. -/
def height (b : Bitmap) : Nat := b.size.height

/-- The method `Bitmap::pixelCount`. -/
def pixelCount (t : Target) (b : Bitmap) : Nat := b.size.pixelCount t

/-- The method `Bitmap::rowAt`: the span `{data() + y * width(), width()}`. -/
def rowAt (t : Target) (b : Bitmap) (y : Nat) : Except Error (List Nat) :=
  if y ≥ b.height then .error (.invalidCoordinate .Y y)
  else .ok ((b.data.drop (wrapWord t (y * b.width))).take b.width)

/-- The effect of storing `pixels` through the mutable span returned by `rowAt y`. -/
def storeRow (t : Target) (b : Bitmap) (y : Nat) (pixels : List Nat) : Bitmap :=
  let offset := wrapWord t (y * b.width)
  ⟨b.size, b.data.take offset ++ pixels ++ b.data.drop (offset + pixels.length)⟩

/-- The method `Bitmap::pixelAt` (read access): `data()[y * width() + x]`. -/
def pixelAt (t : Target) (b : Bitmap) (x y : Nat) : Except Error Nat :=
  if x ≥ b.width then .error (.invalidCoordinate .X x)
  else if y ≥ b.height then .error (.invalidCoordinate .Y y)
  else .ok (b.data.getD (wrapWord t (wrapWord t (y * b.width) + x)) 0)

end Bitmap

/-! ## CompressedBitmap, compress and uncompress -/

/-- The struct `CompressedBitmap`. -/
structure CompressedBitmap where
  size : BitmapSize
  rowLookupTable : BitSet
  pixelData : BitSet
deriving DecidableEq, Repr

namespace CompressedBitmap

/-- The constructor `CompressedBitmap::CompressedBitmap(width, height)`. -/
def create (t : Target) (width height : Nat) : Except Error CompressedBitmap :=
  match BitmapSize.create t width height with
  | .error err => .error err
  | .ok size => .ok ⟨size, BitSet.create t height, BitSet.create t 0⟩

/-- The method `CompressedBitmap::width`. -/
def width (c : CompressedBitmap) : Nat := c.size.width

/-- The method `CompressedBitmap::height`. -/
def height (c : CompressedBitmap) : Nat := c.size.height

/-- The method `CompressedBitmap::isEmptyRowAt`. -/
def isEmptyRowAt (t : Target) (c : CompressedBitmap) (y : Nat) : Except Error Bool :=
  if y ≥ c.height then .error (.invalidCoordinate .Y y)
  else .ok (!c.rowLookupTable.test t y)

end CompressedBitmap

/-- The calls made to the `ProgressHandler`, in order: `(currentStep, totalSteps)`. -/
abbrev ProgressLog := List (Nat × Nat)

/-- Local state of `compress` inside its loop: the lookup table of `result`, the
encoder over the pixel data of `result`, and the progress calls made so far. -/
structure CompressState where
  rowLookupTable : BitSet
  rowEncoder : Encoder
  progress : ProgressLog
deriving DecidableEq, Repr

/-- The loop `for (y = 0; y < height; ++y)` of `compress`; the first argument is the
number `height - y` of iterations left. -/
def compressLoop (t : Target) (sourceBitmap : Bitmap) :
    Nat → Nat → CompressState → Except Error CompressState
  | 0, _, s => .ok s
  | n + 1, y, s =>
    let progress := s.progress ++ [(y, sourceBitmap.height)]
    match sourceBitmap.rowAt t y with
    | .error err => .error err
    | .ok currentRow =>
      if isEmpty currentRow then
        compressLoop t sourceBitmap n (y + 1) ⟨s.rowLookupTable, s.rowEncoder, progress⟩
      else
        compressLoop t sourceBitmap n (y + 1)
          ⟨s.rowLookupTable.set t y, s.rowEncoder.encode t currentRow, progress⟩

/-- The function `compress`, returning the result and the progress calls. -/
def compress (t : Target) (sourceBitmap : Bitmap) :
    Except Error (CompressedBitmap × ProgressLog) :=
  let width := sourceBitmap.width
  let height := sourceBitmap.height
  match CompressedBitmap.create t width height with
  | .error err => .error err
  | .ok result =>
    match compressLoop t sourceBitmap height 0
        ⟨result.rowLookupTable, ⟨result.pixelData, 0⟩, []⟩ with
    | .error err => .error err
    | .ok s =>
      .ok (⟨result.size, s.rowLookupTable, s.rowEncoder.output⟩,
        s.progress ++ [(height, height)])

/-- Local state of `uncompress` inside its loop. -/
structure UncompressState where
  result : Bitmap
  rowDecoder : Decoder
  progress : ProgressLog
deriving DecidableEq, Repr

/-- The loop `for (y = 0; y < height; ++y)` of `uncompress`; the first argument is the
number `height - y` of iterations left. -/
def uncompressLoop (t : Target) (sourceBitmap : CompressedBitmap) :
    Nat → Nat → UncompressState → Except Error UncompressState
  | 0, _, s => .ok s
  | n + 1, y, s =>
    let progress := s.progress ++ [(y, sourceBitmap.height)]
    if sourceBitmap.rowLookupTable.test t y then
      match s.result.rowAt t y with
      | .error err => .error err
      | .ok span =>
        let r := s.rowDecoder.decode t span
        uncompressLoop t sourceBitmap n (y + 1) ⟨s.result.storeRow t y r.1, r.2, progress⟩
    else
      uncompressLoop t sourceBitmap n (y + 1) ⟨s.result, s.rowDecoder, progress⟩

/-- The function `uncompress`, returning the result and the progress calls. The allocator
of the host is a parameter: the constructor of `result` is `Bitmap.createWith`, whose
`InvalidSize` propagates before the first progress call. -/
def uncompressWith (allocates : Nat → Bool) (t : Target) (sourceBitmap : CompressedBitmap) :
    Except Error (Bitmap × ProgressLog) :=
  let width := sourceBitmap.width
  let height := sourceBitmap.height
  match Bitmap.createWith allocates t width height White with
  | .error err => .error err
  | .ok result =>
    match uncompressLoop t sourceBitmap height 0 ⟨result, ⟨sourceBitmap.pixelData, 0⟩, []⟩ with
    | .error err => .error err
    | .ok s => .ok (s.result, s.progress ++ [(height, height)])

/-- The function `uncompress` in a run in which the allocator serves the request for the
result: `uncompressWith` with an allocator that never refuses. -/
def uncompress (t : Target) (sourceBitmap : CompressedBitmap) :
    Except Error (Bitmap × ProgressLog) :=
  uncompressWith (fun _ => true) t sourceBitmap

/-! ## Save and load -/

/-- A `Writer`: the words written to the sink so far. -/
abbrev Writer := List Nat

/-- A `Reader`: the words the source can still deliver. -/
abbrev Reader := List Nat

/-- The call `write(writer, value)` for one `std::size_t`. -/
def writeWord (writer : Writer) (value : Nat) : Writer := writer ++ [value]

/-- The call `write(writer, values)` for a span: one `write` per element, in order. -/
def writeSpan (writer : Writer) (values : List Nat) : Writer := values.foldl writeWord writer

/-- The call `read(reader, value)` for one `std::size_t`. -/
def readWord (reader : Reader) : Except Error (Nat × Reader) :=
  match reader with
  | [] => .error .readFailed
  | value :: rest => .ok (value, rest)

/-- The call `read(reader, values)` for a span: one `read` per element, in order. -/
def readSpan : Reader → List Nat → Except Error (List Nat × Reader)
  | reader, [] => .ok ([], reader)
  | reader, _ :: values =>
    match readWord reader with
    | .error err => .error err
    | .ok (value, reader1) =>
      match readSpan reader1 values with
      | .error err => .error err
      | .ok (rest, reader2) => .ok (value :: rest, reader2)

/-- The function `align`. -/
def align (t : Target) (value alignment : Nat) : Nat :=
  let maxPadding := alignment - 1
  wrapWord t (value + maxPadding) &&& wordNot t maxPadding

/-- The function `save(writer, size)` for a `BitmapSize`. -/
def BitmapSize.save (writer : Writer) (size : BitmapSize) : Writer :=
  writeWord (writeWord writer size.width) size.height

/-- The function `load(reader, size)` for a `BitmapSize`. -/
def BitmapSize.load (t : Target) (reader : Reader) : Except Error (BitmapSize × Reader) :=
  match readWord reader with
  | .error err => .error err
  | .ok (width, reader1) =>
    match readWord reader1 with
    | .error err => .error err
    | .ok (height, reader2) =>
      match BitmapSize.create t width height with
      | .error err => .error err
      | .ok size => .ok (size, reader2)

/-- The function `save(writer, bitSet)` for a `BitSet`. -/
def BitSet.save (writer : Writer) (bitSet : BitSet) : Writer := writeSpan writer bitSet.words

/-- The function `load(reader, bitSet)` for a `BitSet`: fills the words it has. -/
def BitSet.load (reader : Reader) (bitSet : BitSet) : Except Error (BitSet × Reader) :=
  match readSpan reader bitSet.words with
  | .error err => .error err
  | .ok (words, reader1) => .ok (⟨words⟩, reader1)

/-- The function `save(writer, bitmap)` for a `CompressedBitmap`. -/
def save (writer : Writer) (bitmap : CompressedBitmap) : Writer :=
  let writer := BitmapSize.save writer bitmap.size
  let writer := BitSet.save writer bitmap.rowLookupTable
  let writer := writeWord writer bitmap.pixelData.wordCount
  BitSet.save writer bitmap.pixelData

/-- The function `load(reader)` for a `CompressedBitmap`. -/
def load (t : Target) (reader : Reader) : Except Error (CompressedBitmap × Reader) :=
  match CompressedBitmap.create t 1 1 with
  | .error err => .error err
  | .ok bitmap =>
    match BitmapSize.load t reader with
    | .error err => .error err
    | .ok (size, reader1) =>
      let bitsPerWord := bitsPerWord t
      let bitCount := align t size.height bitsPerWord
      let rowLookupTable := bitmap.rowLookupTable.unsafeResize (bitCount / bitsPerWord)
      match BitSet.load reader1 rowLookupTable with
      | .error err => .error err
      | .ok (rowLookupTable, reader2) =>
        match readWord reader2 with
        | .error err => .error err
        | .ok (numDataWords, reader3) =>
          let pixelData := bitmap.pixelData.unsafeResize numDataWords
          match BitSet.load reader3 pixelData with
          | .error err => .error err
          | .ok (pixelData, reader4) => .ok (⟨size, rowLookupTable, pixelData⟩, reader4)

/-! ## Definitions used to state the properties

The definitions of `Spec` follow the words of the specification; they are compared
with the definitions above, which follow the code. -/

/-- bit position inside the word -/
def bitPos (t : Target) (i : Nat) : Nat := bitsPerWord t - 1 - i % bitsPerWord t

/-- The bits of a BitSet as `test` reports them. -/
def BitSet.bits (t : Target) (b : BitSet) : Nat → Bool := fun i => b.test t i

/-- The cursor after `n` increments `m_index++` of a machine word. -/
def advance (t : Target) : Nat → Nat → Nat
  | c, 0 => c
  | c, n + 1 => advance t (wrapWord t (c + 1)) n

namespace Spec

/-- Storing the bits `vs` one after the other from cursor `c` on. -/
def storeBits (t : Target) : (Nat → Bool) → Nat → List Bool → Nat → Bool
  | f, _, [] => f
  | f, c, v :: vs => storeBits t (Function.update f c v) (wrapWord t (c + 1)) vs

/-- The bits `k - 1, ..., 0` of `block`, most significant first. -/
def bitsDown (block : Nat) : Nat → List Bool
  | 0 => []
  | k + 1 => block.testBit k :: bitsDown block k

/-- The prefix code of one block. -/
def blockCode (t : Target) (block : Nat) : List Bool :=
  if block = WhiteBlock t then [false]
  else if block = BlackBlock t then [true, false]
  else true :: true :: bitsDown block 32

/-- The consecutive 4-pixel blocks of a pixel sequence, the last one padded with Black. -/
def blocks (t : Target) : List Nat → List Nat
  | p0 :: p1 :: p2 :: p3 :: rest => combine t p0 p1 p2 p3 :: blocks t rest
  | [p0, p1, p2] => [combine t p0 p1 p2 Black]
  | [p0, p1] => [combine t p0 p1 Black Black]
  | [p0] => [combine t p0 Black Black Black]
  | [] => []

/-- The concatenation of the codes of a list of blocks. -/
def blocksCode (t : Target) : List Nat → List Bool
  | [] => []
  | b :: bs => blockCode t b ++ blocksCode t bs

/-- The code of a pixel sequence. -/
def encodeBits (t : Target) (pixels : List Nat) : List Bool := blocksCode t (blocks t pixels)

end Spec

/-- The bits a decoder is about to read: entry `k` is the bit under the cursor after `k` reads. -/
def Decoder.stream (t : Target) (d : Decoder) : Nat → Bool :=
  fun k => d.input.test t (advance t d.index k)

namespace Spec

/-- The value of a bit string read most significant bit first. -/
def assemble : List Bool → Nat
  | [] => 0
  | b :: bs => b.toNat * 2 ^ bs.length + assemble bs

/-- One block read from the front of the bit stream `s`, with the length of its code. -/
def readBlock (t : Target) (s : Nat → Bool) : Nat × Nat :=
  if !s 0 then (WhiteBlock t, 1)
  else if !s 1 then (BlackBlock t, 2)
  else (assemble ((List.range 32).map (fun k => s (2 + k))), 34)

/-- Reading `m` blocks in order from offset `o` of the bit stream `s`: the blocks and the
offset after the last code. -/
def readBlocks (t : Target) (s : Nat → Bool) : Nat → Nat → List Nat × Nat
  | o, 0 => ([], o)
  | o, m + 1 =>
    let r := readBlock t (fun k => s (o + k))
    let rest := readBlocks t s (o + r.2) m
    (r.1 :: rest.1, rest.2)

/-- The pixels of a list of blocks, four per block, in order. -/
def splitAll (t : Target) : List Nat → List Nat
  | [] => []
  | b :: bs =>
    (split t b).1 :: (split t b).2.1 :: (split t b).2.2.1 :: (split t b).2.2.2 :: splitAll t bs

end Spec

/-- A valid bitmap: both dimensions at least 1, a pixel count that fits a machine word,
a buffer of exactly `width * height` pixels, every pixel an 8-bit value. -/
def Bitmap.Valid (t : Target) (b : Bitmap) : Prop :=
  1 ≤ b.width ∧ 1 ≤ b.height ∧ b.width * b.height ≤ maxUSize t ∧
    b.data.length = b.width * b.height ∧ ∀ p ∈ b.data, p < 256

instance (t : Target) (b : Bitmap) : Decidable (b.Valid t) := by
  unfold Bitmap.Valid; infer_instance

/-- The pixels of row `y`: buffer positions `y * width .. y * width + width - 1`. -/
def Bitmap.rowPixels (b : Bitmap) (y : Nat) : List Nat :=
  (b.data.drop (y * b.width)).take b.width

namespace Spec

/-- The rows `y, ..., y + n - 1` of a bitmap that are not empty, in increasing order. -/
def nonEmptyRows (b : Bitmap) : Nat → Nat → List (List Nat)
  | _, 0 => []
  | y, n + 1 =>
    if isEmpty (b.rowPixels y) then nonEmptyRows b (y + 1) n
    else b.rowPixels y :: nonEmptyRows b (y + 1) n

/-- The concatenation of the codes of a list of pixel sequences. -/
def rowsCode (t : Target) : List (List Nat) → List Bool
  | [] => []
  | r :: rs => encodeBits t r ++ rowsCode t rs

end Spec

/-- The 64-bit little-endian build target of the test scenarios. -/
def target64 : Target := ⟨.w64, .little⟩

/-- The 32-bit little-endian build target. -/
def target32 : Target := ⟨.w32, .little⟩

/-- The 4x3 bitmap of the test scenarios: rows `00 00 00 00`, `FF FF FF FF`, `DE AD BE EF`. -/
def sampleBitmap : Bitmap :=
  ⟨⟨4, 3⟩, [0x00, 0x00, 0x00, 0x00, 0xFF, 0xFF, 0xFF, 0xFF, 0xDE, 0xAD, 0xBE, 0xEF]⟩

/-- The BitSet of the decoding scenario: the bits `0101100000001000000010000000100000001`,
set one by one in an empty BitSet. -/
def sampleBits : BitSet :=
  [1, 3, 4, 12, 20, 28, 36].foldl (BitSet.set target64) ⟨[]⟩

/-- The pixel sequence whose code is longer than `2 ^ 32` bits: 505290272 pixels `0x01`,
that is 126322568 blocks of 34 code bits. -/
@[irreducible] def longPixels : List Nat := List.replicate (4 * 126322568) 1

/-- The one-row bitmap of 505290272 pixels `0x01`. -/
def longBitmap : Bitmap := ⟨⟨4 * 126322568, 1⟩, longPixels⟩

/-- The rows 1 .. 4294967294 of `tallBitmap`: 4294967294 White pixels. -/
@[irreducible] def tallWhite : List Nat := List.replicate 4294967294 White

/-- The bitmap of width 1 and height `2 ^ 32 - 1` whose first row is Black and whose other
rows are White. -/
def tallBitmap : Bitmap := ⟨⟨1, 4294967295⟩, Black :: tallWhite⟩

namespace Spec

/-- Decoding one span after the other with one decoder: the filled spans and the decoder
after the last one. -/
def decodeAll (t : Target) : Decoder → List (List Nat) → List (List Nat) × Decoder
  | d, [] => ([], d)
  | d, span :: spans =>
    let r := d.decode t span
    let rest := decodeAll t r.2 spans
    (r.1 :: rest.1, rest.2)

end Spec

/-- An allocator that serves every request of at most `MAX_USIZE / 2` bytes (the largest
size of an object, `PTRDIFF_MAX`) and refuses the larger ones. -/
def ptrdiffAllocator (t : Target) : Nat → Bool := fun n => decide (n ≤ maxUSize t / 2)

/-- The 2x2 bitmap of the test scenarios, `Bitmap{2, 2}`: four White pixels. -/
def squareBitmap : Bitmap := ⟨⟨2, 2⟩, [White, White, White, White]⟩

/-- The 1x1 bitmap whose pixel is White. -/
def whitePixelBitmap : Bitmap := ⟨⟨1, 1⟩, [White]⟩

/-- The 1x1 bitmap whose pixel is Black. -/
def blackPixelBitmap : Bitmap := ⟨⟨1, 1⟩, [Black]⟩

namespace Spec

/-- A pixel sequence extended with Black pixels up to the next multiple of 4. -/
def padBlack (s : List Nat) : List Nat := s ++ List.replicate ((4 - s.length % 4) % 4) Black

end Spec

namespace Spec

/-- The rounded-up quotient `⌈height / W⌉`. -/
def lookupWordCount (t : Target) (height : Nat) : Nat :=
  (height + (bitsPerWord t - 1)) / bitsPerWord t

end Spec

/-- The one-word BitSet of a 32-bit target whose only 1 bit is bit 0. -/
def firstBitOnly : BitSet := ⟨[2147483648]⟩

/-- A decoder after `k` further calls of `decode` on a span of one pixel. -/
def Decoder.afterSinglePixels (t : Target) (d : Decoder) (k : Nat) : Decoder :=
  Nat.iterate (fun d => (d.decode t [0]).2) k d

/-- Writing one bit: the call `(this->*Write[bit])()`, `write1` for 1 and `write0` for 0. -/
def Encoder.writeBit (t : Target) (e : Encoder) (bit : Bool) : Encoder :=
  if bit then e.write1 t else e.write0 t

namespace Spec

/-- The word count of a BitSet of `count` words after the bits `vs` are emitted from
cursor `c` on: a 1 bit at position `p` grows the BitSet to `p / W + 1` words when it has
fewer, a 0 bit never grows it. -/
def storeCount (t : Target) : Nat → Nat → List Bool → Nat
  | count, _, [] => count
  | count, c, v :: vs =>
    storeCount t (if v then max count (c / bitsPerWord t + 1) else count) (wrapWord t (c + 1)) vs

/-- The index of the last 1 bit of a bit sequence, if it has one. -/
def lastOne : List Bool → Option Nat
  | [] => none
  | v :: vs =>
    match lastOne vs with
    | some p => some (p + 1)
    | none => if v then some 0 else none

/-- The word count the claim gives for a code emitted from cursor `c`: none without a
1 bit, otherwise `⌊p / W⌋ + 1` for the position `p` of the last 1 bit. -/
def wordsFor (t : Target) (c : Nat) (code : List Bool) : Nat :=
  match lastOne code with
  | none => 0
  | some p => (c + p) / bitsPerWord t + 1

/-- The rows among `y, ..., y + n - 1` whose lookup bit is 1, in increasing order. -/
def flaggedRows (t : Target) (c : CompressedBitmap) (y n : Nat) : List Nat :=
  (List.range' y n).filter (fun j => c.rowLookupTable.test t j)

/-- One span of `width` pixels for each flagged row. -/
def flaggedSpans (t : Target) (c : CompressedBitmap) (y n : Nat) : List (List Nat) :=
  (flaggedRows t c y n).map (fun _ => List.replicate c.width White)

end Spec

/-- The result of `CompressedBitmap(MAX_USIZE / 2, 2)` on the 64-bit target. -/
def hugeCompressed : CompressedBitmap := ⟨⟨maxUSize target64 / 2, 2⟩, ⟨[0]⟩, ⟨[]⟩⟩

/-- A compressed 4x3 bitmap whose rows 0 and 2 are flagged and whose pixel data is
empty. -/
def truncatedCompressed : CompressedBitmap := ⟨⟨4, 3⟩, ⟨[0xA000000000000000]⟩, ⟨[]⟩⟩

/-! ## Properties -/

theorem bitsPerWord_pos (t : Target) : 0 < bitsPerWord t := by
  unfold bitsPerWord WordSize.bits; cases t.wordSize <;> simp

theorem BitSet.toWord_eq (t : Target) (i : Nat) :
    BitSet.toWord t i = (i / bitsPerWord t, 2 ^ (bitsPerWord t - 1 - i % bitsPerWord t)) := by
  unfold BitSet.toWord bitsPerWord
  cases t.wordSize with
  | w32 =>
    have h : i % 32 < 32 := Nat.mod_lt _ (by decide)
    have e : (0x80000000 : Nat) = 2 ^ 31 := by norm_num
    simp only [WordSize.bits, e, Nat.shiftRight_eq_div_pow]
    rw [Nat.pow_div (by omega) (by decide)]
  | w64 =>
    have h : i % 64 < 64 := Nat.mod_lt _ (by decide)
    have e : (0x8000000000000000 : Nat) = 2 ^ 63 := by norm_num
    simp only [WordSize.bits, e, Nat.shiftRight_eq_div_pow]
    rw [Nat.pow_div (by omega) (by decide)]

theorem and_two_pow_ne_zero (w k : Nat) : ((w &&& 2 ^ k) != 0) = w.testBit k := by
  rw [Nat.and_two_pow]
  cases h : w.testBit k <;> simp

theorem BitSet.test_eq (t : Target) (b : BitSet) (i : Nat) :
    b.test t i = (b.words.getD (i / bitsPerWord t) 0).testBit (bitPos t i) := by
  unfold BitSet.test bitPos
  simp only [BitSet.toWord_eq, and_two_pow_ne_zero]
  split
  · rename_i h
    rw [List.getD_eq_default _ _ h]; simp
  · rfl

theorem getD_resizeWords (ws : List Nat) (n k : Nat) :
    (resizeWords ws n).getD k 0 = if k < n then ws.getD k 0 else 0 := by
  unfold resizeWords
  by_cases hk : k < n
  · simp only [hk, if_true]
    by_cases hl : k < ws.length
    · rw [List.getD_append _ _ _ _ (by simp; omega)]
      simp [List.getD_eq_getElem?_getD, List.getElem?_take, hk]
    · rw [List.getD_append_right _ _ _ _ (by simp; omega)]
      rw [List.getD_eq_default _ _ (by omega : ws.length ≤ k)]
      simp only [List.getD_eq_getElem?_getD, List.getElem?_replicate]
      split <;> rfl
  · simp only [hk, if_false]
    apply List.getD_eq_default
    simp; omega

theorem length_resizeWords (ws : List Nat) (n : Nat) : (resizeWords ws n).length = n := by
  unfold resizeWords; simp; omega

theorem getD_set (l : List Nat) (i j v : Nat) :
    (l.set i v).getD j 0 = if i = j ∧ i < l.length then v else l.getD j 0 := by
  simp only [List.getD_eq_getElem?_getD, List.getElem?_set]
  by_cases h : i = j
  · subst h
    by_cases h2 : i < l.length
    · simp [h2]
    · have : l.length ≤ i := by omega
      simp [h2, List.getElem?_eq_none this]
  · simp [h]

theorem BitSet.getD_set_words (t : Target) (b : BitSet) (i k : Nat) :
    (b.set t i).words.getD k 0 =
      if k = i / bitsPerWord t then b.words.getD k 0 ||| 2 ^ bitPos t i else b.words.getD k 0 := by
  unfold BitSet.set bitPos
  simp only [BitSet.toWord_eq]
  rw [getD_set]
  by_cases hk : k = i / bitsPerWord t
  · subst hk
    split <;> rename_i hg
    · rw [getD_resizeWords, length_resizeWords]
      simp
    · simp at hg; simp [hg]
  · rw [if_neg (fun h => hk h.1.symm), if_neg hk]
    split <;> rename_i hg
    · rw [getD_resizeWords]
      split
      · rfl
      · rw [List.getD_eq_default]; omega
    · rfl

theorem bitPos_lt (t : Target) (i : Nat) : bitPos t i < bitsPerWord t := by
  unfold bitPos; have := bitsPerWord_pos t; omega

theorem index_eq_iff (t : Target) (i j : Nat) :
    i = j ↔ i / bitsPerWord t = j / bitsPerWord t ∧ bitPos t i = bitPos t j := by
  constructor
  · rintro rfl; exact ⟨rfl, rfl⟩
  · rintro ⟨h1, h2⟩
    unfold bitPos at h2
    have hp := bitsPerWord_pos t
    have hi := Nat.mod_lt i hp
    have hj := Nat.mod_lt j hp
    have : i % bitsPerWord t = j % bitsPerWord t := by omega
    rw [← Nat.div_add_mod i (bitsPerWord t), ← Nat.div_add_mod j (bitsPerWord t), h1, this]

theorem BitSet.test_set (t : Target) (b : BitSet) (i j : Nat) :
    (b.set t i).test t j = (b.test t j || decide (i = j)) := by
  rw [BitSet.test_eq, BitSet.test_eq, BitSet.getD_set_words]
  by_cases hk : j / bitsPerWord t = i / bitsPerWord t
  · rw [if_pos hk, Nat.testBit_or, Nat.testBit_two_pow]
    congr 1
    rw [decide_eq_decide, index_eq_iff t i j]
    constructor
    · intro h; exact ⟨hk.symm, h⟩
    · intro h; exact h.2
  · rw [if_neg hk]
    have : ¬ i = j := fun h => hk (by rw [h])
    simp [this]

theorem BitSet.getD_clear_words (t : Target) (b : BitSet) (i k : Nat) :
    (b.clear t i).words.getD k 0 =
      if k = i / bitsPerWord t then b.words.getD k 0 &&& wordNot t (2 ^ bitPos t i)
      else b.words.getD k 0 := by
  unfold BitSet.clear bitPos
  simp only [BitSet.toWord_eq]
  split <;> rename_i hg
  · split
    · rename_i hk
      subst hk
      rw [List.getD_eq_default _ _ hg]; simp
    · rfl
  · simp only [getD_set]
    by_cases hk : k = i / bitsPerWord t
    · subst hk
      simp at hg; simp [hg]
    · rw [if_neg (fun h => hk h.1.symm), if_neg hk]

theorem BitSet.test_clear (t : Target) (b : BitSet) (i j : Nat) :
    (b.clear t i).test t j = (b.test t j && !decide (i = j)) := by
  rw [BitSet.test_eq, BitSet.test_eq, BitSet.getD_clear_words]
  by_cases hk : j / bitsPerWord t = i / bitsPerWord t
  · rw [if_pos hk, Nat.testBit_and]
    congr 1
    unfold wordNot maxUSize wordModulus
    rw [Nat.testBit_xor, Nat.testBit_two_pow_sub_one, Nat.testBit_two_pow]
    have := bitPos_lt t j
    simp only [this, decide_True, Bool.xor_true]
    congr 1
    rw [decide_eq_decide, index_eq_iff t i j]
    constructor
    · intro h; exact ⟨hk.symm, h⟩
    · intro h; exact h.2
  · rw [if_neg hk]
    have : ¬ i = j := fun h => hk (by rw [h])
    simp [this]

theorem advance_add (t : Target) (c m n : Nat) :
    advance t c (m + n) = advance t (advance t c m) n := by
  induction m generalizing c with
  | zero => simp [advance]
  | succ m ih => rw [Nat.add_right_comm]; simp only [advance]; exact ih _

theorem advance_succ (t : Target) (c n : Nat) :
    advance t c (n + 1) = wrapWord t (c + n + 1) := by
  induction n generalizing c with
  | zero => simp [advance]
  | succ n ih =>
    rw [advance, ih]
    unfold wrapWord
    rw [Nat.add_assoc, Nat.add_assoc, Nat.mod_add_mod]
    congr 1; omega

theorem advance_of_lt (t : Target) (c n : Nat) (h : c + n < wordModulus t) :
    advance t c n = c + n := by
  cases n with
  | zero => rfl
  | succ n => rw [advance_succ]; unfold wrapWord; rw [Nat.mod_eq_of_lt]; omega; omega

theorem Spec.storeBits_append (t : Target) (f : Nat → Bool) (c : Nat) (a b : List Bool) :
    Spec.storeBits t f c (a ++ b) =
      Spec.storeBits t (Spec.storeBits t f c a) (advance t c a.length) b := by
  induction a generalizing f c with
  | nil => rfl
  | cons v vs ih => simp only [List.cons_append, Spec.storeBits, List.length_cons, advance]; exact ih _ _

theorem Spec.storeBits_of_le (t : Target) (f : Nat → Bool) (c : Nat) (vs : List Bool)
    (h : c + vs.length ≤ wordModulus t) (j : Nat) :
    Spec.storeBits t f c vs j =
      if c ≤ j ∧ j < c + vs.length then vs.getD (j - c) false else f j := by
  induction vs generalizing f c with
  | nil =>
    simp only [Spec.storeBits, List.length_nil, Nat.add_zero]
    rw [if_neg (by omega)]
  | cons v vs ih =>
    simp only [Spec.storeBits, List.length_cons] at h ⊢
    cases vs with
    | nil =>
      simp only [Spec.storeBits, List.length_nil]
      by_cases hj : j = c
      · subst hj; simp
      · rw [Function.update_noteq hj, if_neg (by omega)]
    | cons w ws =>
      have hc : wrapWord t (c + 1) = c + 1 := by
        unfold wrapWord; apply Nat.mod_eq_of_lt; simp at h; omega
      rw [hc, ih _ _ (by simp at h ⊢; omega)]
      by_cases hj : j = c
      · subst hj; simp
      · rw [Function.update_noteq hj]
        by_cases h1 : c + 1 ≤ j ∧ j < c + 1 + (w :: ws).length
        · rw [if_pos h1, if_pos (by omega)]
          have : j - c = (j - (c + 1)) + 1 := by omega
          rw [this, List.getD_cons_succ]
        · rw [if_neg h1, if_neg (by omega)]

theorem Encoder.bits_write0 (t : Target) (e : Encoder) :
    (e.write0 t).output.bits t = Function.update (e.output.bits t) e.index false := by
  funext j
  simp only [Encoder.write0, BitSet.bits, BitSet.test_clear, Function.update_apply]
  by_cases h : j = e.index
  · subst h; simp
  · have : ¬ e.index = j := fun h' => h h'.symm
    simp [h, this]

theorem Encoder.bits_write1 (t : Target) (e : Encoder) :
    (e.write1 t).output.bits t = Function.update (e.output.bits t) e.index true := by
  funext j
  simp only [Encoder.write1, BitSet.bits, BitSet.test_set, Function.update_apply]
  by_cases h : j = e.index
  · subst h; simp
  · have : ¬ e.index = j := fun h' => h h'.symm
    simp [h, this]

theorem Encoder.index_write0 (t : Target) (e : Encoder) :
    (e.write0 t).index = wrapWord t (e.index + 1) := rfl

theorem Encoder.index_write1 (t : Target) (e : Encoder) :
    (e.write1 t).index = wrapWord t (e.index + 1) := rfl

theorem Encoder.writeLoop_spec (t : Target) (block : Nat) (k fuel : Nat) (e : Encoder)
    (hf : k + 1 ≤ fuel) :
    (Encoder.writeLoop t block fuel (2 ^ k) e).output.bits t =
        Spec.storeBits t (e.output.bits t) e.index (Spec.bitsDown block (k + 1)) ∧
      (Encoder.writeLoop t block fuel (2 ^ k) e).index = advance t e.index (k + 1) := by
  induction k generalizing fuel e with
  | zero =>
    obtain ⟨fuel, rfl⟩ : ∃ f, fuel = f + 1 := ⟨fuel - 1, by omega⟩
    simp only [Encoder.writeLoop, Nat.pow_zero, Nat.one_ne_zero, if_false]
    have h1 : (1 : Nat) >>> 1 = 0 := by decide
    rw [h1]
    have h2 : ∀ e', Encoder.writeLoop t block fuel 0 e' = e' := by
      intro e'; cases fuel <;> simp [Encoder.writeLoop]
    rw [h2]
    have h3 : (block &&& 1 ≠ 0) ↔ block.testBit 0 = true := by
      have := and_two_pow_ne_zero block 0
      simp only [Nat.pow_zero] at this
      rw [← this]; simp
    simp only [Spec.bitsDown, Spec.storeBits, advance]
    by_cases hb : block.testBit 0 = true
    · rw [if_pos (h3.2 hb), hb]; exact ⟨Encoder.bits_write1 t e, rfl⟩
    · rw [if_neg (fun h => hb (h3.1 h))]
      simp only [Bool.not_eq_true] at hb
      rw [hb]; exact ⟨Encoder.bits_write0 t e, rfl⟩
  | succ k ih =>
    obtain ⟨fuel, rfl⟩ : ∃ f, fuel = f + 1 := ⟨fuel - 1, by omega⟩
    have hne : (2 : Nat) ^ (k + 1) ≠ 0 := by positivity
    have hs : (2 : Nat) ^ (k + 1) >>> 1 = 2 ^ k := by
      rw [Nat.shiftRight_eq_div_pow, Nat.pow_succ]; simp
    simp only [Encoder.writeLoop, hne, if_false, hs]
    have h3 : (block &&& 2 ^ (k + 1) ≠ 0) ↔ block.testBit (k + 1) = true := by
      rw [← and_two_pow_ne_zero block (k + 1)]; simp
    have ih' := fun e' => ih fuel e' (by omega)
    rw [Spec.bitsDown, Spec.storeBits, advance]
    by_cases hb : block.testBit (k + 1) = true
    · rw [if_pos (h3.2 hb), hb]
      have := ih' (e.write1 t)
      rw [Encoder.bits_write1, Encoder.index_write1] at this
      exact this
    · rw [if_neg (fun h => hb (h3.1 h))]
      simp only [Bool.not_eq_true] at hb
      rw [hb]
      have := ih' (e.write0 t)
      rw [Encoder.bits_write0, Encoder.index_write0] at this
      exact this

theorem Encoder.write_spec (t : Target) (e : Encoder) (block : Nat) :
    (e.write t block).output.bits t =
        Spec.storeBits t (e.output.bits t) e.index (Spec.blockCode t block) ∧
      (e.write t block).index = advance t e.index (Spec.blockCode t block).length := by
  unfold Encoder.write Spec.blockCode
  by_cases hw : block = WhiteBlock t
  · simp only [hw, if_true, Spec.storeBits, List.length_singleton, advance]
    exact ⟨Encoder.bits_write0 t e, rfl⟩
  · by_cases hb : block = BlackBlock t
    · simp only [hw, hb, if_false, if_true, Spec.storeBits, List.length_cons, List.length_nil,
        advance]
      by_cases hwb : BlackBlock t = WhiteBlock t
      · simp only [hwb, if_true]
        exact absurd (hb.trans hwb) hw
      · simp only [hwb, if_false]
        rw [Encoder.bits_write0, Encoder.bits_write1]
        exact ⟨rfl, rfl⟩
    · simp only [hw, hb, if_false]
      have e31 : (0x80000000 : Nat) = 2 ^ 31 := by norm_num
      rw [e31]
      have := Encoder.writeLoop_spec t block 31 33 ((e.write1 t).write1 t) (by omega)
      rw [Encoder.bits_write1, Encoder.bits_write1] at this
      rw [Spec.storeBits, Spec.storeBits, List.length_cons, List.length_cons, advance, advance]
      exact this

theorem Encoder.encode_spec (t : Target) (e : Encoder) (pixels : List Nat) :
    (e.encode t pixels).output.bits t =
        Spec.storeBits t (e.output.bits t) e.index (Spec.encodeBits t pixels) ∧
      (e.encode t pixels).index = advance t e.index (Spec.encodeBits t pixels).length := by
  unfold Spec.encodeBits
  induction pixels using Spec.blocks.induct t generalizing e with
  | case1 p0 p1 p2 p3 rest ih =>
    simp only [Encoder.encode, Spec.blocks, Spec.blocksCode, Spec.storeBits_append,
      List.length_append, advance_add]
    have hw := Encoder.write_spec t e (combine t p0 p1 p2 p3)
    have := ih (e.write t (combine t p0 p1 p2 p3))
    rw [hw.1, hw.2] at this
    exact this
  | case2 p0 p1 p2 =>
    simp only [Encoder.encode, Spec.blocks, Spec.blocksCode, List.append_nil]
    exact Encoder.write_spec t e _
  | case3 p0 p1 =>
    simp only [Encoder.encode, Spec.blocks, Spec.blocksCode, List.append_nil]
    exact Encoder.write_spec t e _
  | case4 p0 =>
    simp only [Encoder.encode, Spec.blocks, Spec.blocksCode, List.append_nil]
    exact Encoder.write_spec t e _
  | case5 =>
    exact ⟨rfl, rfl⟩

theorem Decoder.stream_readBit (t : Target) (d : Decoder) (k : Nat) :
    Decoder.stream t (d.readBit t).2 k = Decoder.stream t d (k + 1) := rfl

theorem Decoder.stream_advance (t : Target) (b : BitSet) (c n k : Nat) :
    Decoder.stream t ⟨b, advance t c n⟩ k = Decoder.stream t ⟨b, c⟩ (n + k) := by
  simp only [Decoder.stream, advance_add]

theorem Decoder.readLoop_spec (t : Target) (k fuel r : Nat) (d : Decoder)
    (hf : k + 1 ≤ fuel) (hr : 2 ^ (k + 1) ∣ r) :
    Decoder.readLoop t fuel (2 ^ k) r d =
      (r + Spec.assemble ((List.range (k + 1)).map (Decoder.stream t d)),
        ⟨d.input, advance t d.index (k + 1)⟩) := by
  induction k generalizing fuel r d with
  | zero =>
    obtain ⟨fuel, rfl⟩ : ∃ f, fuel = f + 1 := ⟨fuel - 1, by omega⟩
    simp only [Decoder.readLoop, Nat.pow_zero, Nat.one_ne_zero, if_false]
    have h1 : (1 : Nat) >>> 1 = 0 := by decide
    rw [h1]
    have h2 : ∀ r' d', Decoder.readLoop t fuel 0 r' d' = (r', d') := by
      intro r' d'; cases fuel <;> simp [Decoder.readLoop]
    rw [h2]
    obtain ⟨a, rfl⟩ := hr
    have hor : 2 ^ (0 + 1) * a ||| 1 = 2 ^ (0 + 1) * a + 1 :=
      (Nat.mul_add_lt_is_or (by decide : 1 < 2 ^ (0 + 1)) a).symm
    simp only [List.range_succ, List.range_zero, List.nil_append, List.map_cons, List.map_nil,
      Spec.assemble, List.length_nil, Nat.pow_zero, Nat.mul_one, Nat.add_zero]
    have hs : Decoder.stream t d 0 = (d.readBit t).1 := rfl
    rw [hs]
    cases hb : (d.readBit t).1
    · simp [Decoder.readBit, advance]
    · simp only [if_true, hor]
      simp [Decoder.readBit, advance]
  | succ k ih =>
    obtain ⟨fuel, rfl⟩ : ∃ f, fuel = f + 1 := ⟨fuel - 1, by omega⟩
    have hne : (2 : Nat) ^ (k + 1) ≠ 0 := by positivity
    have hs : (2 : Nat) ^ (k + 1) >>> 1 = 2 ^ k := by
      rw [Nat.shiftRight_eq_div_pow, Nat.pow_succ]; simp
    simp only [Decoder.readLoop, hne, if_false, hs]
    obtain ⟨a, rfl⟩ := hr
    have hor : 2 ^ (k + 1 + 1) * a ||| 2 ^ (k + 1) = 2 ^ (k + 1 + 1) * a + 2 ^ (k + 1) :=
      (Nat.mul_add_lt_is_or (Nat.pow_lt_pow_right (by decide) (by omega)) a).symm
    have hdvd1 : 2 ^ (k + 1) ∣ 2 ^ (k + 1 + 1) * a :=
      Dvd.dvd.mul_right (pow_dvd_pow 2 (by omega)) a
    have hdvd2 : 2 ^ (k + 1) ∣ 2 ^ (k + 1 + 1) * a + 2 ^ (k + 1) :=
      (Nat.dvd_add_right hdvd1).2 (dvd_refl _)
    have hrange : (List.range (k + 1 + 1)).map (Decoder.stream t d) =
        Decoder.stream t d 0 :: (List.range (k + 1)).map (Decoder.stream t (d.readBit t).2) := by
      rw [List.range_succ_eq_map, List.map_cons, List.map_map]
      rfl
    rw [hrange, Spec.assemble, List.length_map, List.length_range]
    have hs0 : Decoder.stream t d 0 = (d.readBit t).1 := rfl
    rw [hs0]
    cases hb : (d.readBit t).1
    · simp only [Bool.false_eq_true, if_false]
      rw [ih fuel _ _ (by omega) hdvd1]
      simp [Decoder.readBit, advance]
    · simp only [if_true, hor]
      rw [ih fuel _ _ (by omega) hdvd2]
      simp [Decoder.readBit, advance, Nat.add_assoc]

theorem Decoder.readLoop_full (t : Target) (d : Decoder) :
    Decoder.readLoop t 33 0x80000000 0 d =
      (Spec.assemble ((List.range 32).map (Decoder.stream t d)),
        ⟨d.input, advance t d.index 32⟩) := by
  have h := Decoder.readLoop_spec t 31 33 0 d (by omega) (Nat.dvd_zero _)
  rw [Nat.zero_add] at h
  exact h

theorem Decoder.read_eq (t : Target) (d : Decoder) :
    d.read t =
      if !Decoder.stream t d 0 then (WhiteBlock t, ⟨d.input, advance t d.index 1⟩)
      else if !Decoder.stream t d 1 then (BlackBlock t, ⟨d.input, advance t d.index 2⟩)
      else Decoder.readLoop t 33 0x80000000 0 ⟨d.input, advance t d.index 2⟩ := rfl

theorem Spec.readBlock_white (t : Target) (s : Nat → Bool) (h : s 0 = false) :
    Spec.readBlock t s = (WhiteBlock t, 1) := by
  unfold Spec.readBlock; rw [h]; rfl

theorem Spec.readBlock_black (t : Target) (s : Nat → Bool) (h0 : s 0 = true) (h1 : s 1 = false) :
    Spec.readBlock t s = (BlackBlock t, 2) := by
  unfold Spec.readBlock; rw [h0, h1]; rfl

theorem Spec.readBlock_other (t : Target) (s : Nat → Bool) (h0 : s 0 = true) (h1 : s 1 = true) :
    Spec.readBlock t s = (Spec.assemble ((List.range 32).map (fun k => s (2 + k))), 34) := by
  unfold Spec.readBlock; rw [h0, h1]; rfl

theorem Decoder.read_spec (t : Target) (d : Decoder) :
    d.read t = ((Spec.readBlock t (Decoder.stream t d)).1,
      ⟨d.input, advance t d.index (Spec.readBlock t (Decoder.stream t d)).2⟩) := by
  rw [Decoder.read_eq]
  cases h0 : Decoder.stream t d 0
  · rw [Spec.readBlock_white t _ h0, if_pos (by decide)]
  · cases h1 : Decoder.stream t d 1
    · rw [Spec.readBlock_black t _ h0 h1, if_neg (by decide), if_pos (by decide)]
    · rw [Spec.readBlock_other t _ h0 h1, if_neg (by decide), if_neg (by decide)]
      have hadv : advance t (advance t d.index 2) 32 = advance t d.index 34 := by
        rw [← advance_add]
      have hm : (List.range 32).map (Decoder.stream t ⟨d.input, advance t d.index 2⟩) =
          (List.range 32).map (fun k => Decoder.stream t d (2 + k)) := by
        apply List.map_congr_left
        intro k _
        rw [Decoder.stream_advance]
      rw [← hadv, ← hm, ← Decoder.readLoop_full]

/-! ### Pixel blocks -/

theorem combineLittleEndian_eq (p0 p1 p2 p3 : Nat) (h0 : p0 < 256) (h1 : p1 < 256)
    (h2 : p2 < 256) (h3 : p3 < 256) :
    combineLittleEndian p0 p1 p2 p3 = p0 * 16777216 + p1 * 65536 + p2 * 256 + p3 := by
  unfold combineLittleEndian wrap32
  simp only [Nat.shiftLeft_eq]
  have e1 : p0 * 2 ^ 8 % 2 ^ 32 = 2 ^ 8 * p0 := by
    rw [Nat.mod_eq_of_lt (by omega)]; omega
  rw [e1, ← Nat.mul_add_lt_is_or (by omega : p1 < 2 ^ 8)]
  have e2 : (2 ^ 8 * p0 + p1) * 2 ^ 8 % 2 ^ 32 = 2 ^ 8 * (2 ^ 8 * p0 + p1) := by
    rw [Nat.mod_eq_of_lt (by omega)]; omega
  rw [e2, ← Nat.mul_add_lt_is_or (by omega : p2 < 2 ^ 8)]
  have e3 : (2 ^ 8 * (2 ^ 8 * p0 + p1) + p2) * 2 ^ 8 % 2 ^ 32 =
      2 ^ 8 * (2 ^ 8 * (2 ^ 8 * p0 + p1) + p2) := by
    rw [Nat.mod_eq_of_lt (by omega)]; omega
  rw [e3, ← Nat.mul_add_lt_is_or (by omega : p3 < 2 ^ 8)]
  omega

theorem combineBigEndian_eq (p0 p1 p2 p3 : Nat) (h0 : p0 < 256) (h1 : p1 < 256)
    (h2 : p2 < 256) (h3 : p3 < 256) :
    combineBigEndian p0 p1 p2 p3 = p3 * 16777216 + p2 * 65536 + p1 * 256 + p0 :=
  combineLittleEndian_eq p3 p2 p1 p0 h3 h2 h1 h0

theorem split_combine (t : Target) (p0 p1 p2 p3 : Nat) (h0 : p0 < 256) (h1 : p1 < 256)
    (h2 : p2 < 256) (h3 : p3 < 256) :
    split t (combine t p0 p1 p2 p3) = (p0, p1, p2, p3) := by
  unfold split combine
  cases t.byteOrder with
  | little =>
    simp only [combineLittleEndian_eq p0 p1 p2 p3 h0 h1 h2 h3, splitLittleEndian, toPixel,
      Nat.shiftRight_eq_div_pow, Prod.mk.injEq]
    omega
  | big =>
    simp only [combineBigEndian_eq p0 p1 p2 p3 h0 h1 h2 h3, splitBigEndian, toPixel,
      Nat.shiftRight_eq_div_pow, Prod.mk.injEq]
    omega

theorem combine_lt (t : Target) (p0 p1 p2 p3 : Nat) (h0 : p0 < 256) (h1 : p1 < 256)
    (h2 : p2 < 256) (h3 : p3 < 256) : combine t p0 p1 p2 p3 < 2 ^ 32 := by
  unfold combine
  cases t.byteOrder with
  | little => simp only [combineLittleEndian_eq p0 p1 p2 p3 h0 h1 h2 h3]; omega
  | big => simp only [combineBigEndian_eq p0 p1 p2 p3 h0 h1 h2 h3]; omega

theorem WhiteBlock_eq (t : Target) : WhiteBlock t = 4294967295 := by
  unfold WhiteBlock combine
  cases t.byteOrder <;> decide

theorem BlackBlock_eq (t : Target) : BlackBlock t = 0 := by
  unfold BlackBlock combine
  cases t.byteOrder <;> decide

/-! ### Bit strings -/

theorem Spec.length_bitsDown (block k : Nat) : (Spec.bitsDown block k).length = k := by
  induction k with
  | zero => rfl
  | succ k ih => rw [Spec.bitsDown, List.length_cons, ih]

theorem Spec.assemble_bitsDown (block k : Nat) :
    Spec.assemble (Spec.bitsDown block k) = block % 2 ^ k := by
  induction k with
  | zero => simp [Spec.bitsDown, Spec.assemble, Nat.mod_one]
  | succ k ih =>
    rw [Spec.bitsDown, Spec.assemble, ih, Spec.length_bitsDown, Nat.toNat_testBit,
      Nat.mod_pow_succ]
    rw [Nat.mul_comm, Nat.add_comm]

theorem map_getD_range (l : List Bool) :
    (List.range l.length).map (fun k => l.getD k false) = l := by
  apply List.ext_getElem
  · simp
  · intro i h1 h2
    simp [List.getD_eq_getElem?_getD, List.getElem?_eq_getElem h2]

theorem Spec.length_blockCode_pos (t : Target) (block : Nat) :
    0 < (Spec.blockCode t block).length := by
  unfold Spec.blockCode
  split
  · simp
  · split <;> simp

theorem Spec.readBlock_of_code (t : Target) (block : Nat) (s : Nat → Bool)
    (hb : block < 2 ^ 32)
    (hs : ∀ k, k < (Spec.blockCode t block).length → s k = (Spec.blockCode t block).getD k false) :
    Spec.readBlock t s = (block, (Spec.blockCode t block).length) := by
  unfold Spec.blockCode at hs ⊢
  by_cases hw : block = WhiteBlock t
  · rw [if_pos hw] at hs ⊢
    rw [Spec.readBlock_white t s (hs 0 (by simp)), hw]
    rfl
  · rw [if_neg hw] at hs ⊢
    by_cases hk : block = BlackBlock t
    · rw [if_pos hk] at hs ⊢
      rw [Spec.readBlock_black t s (hs 0 (by simp)) (hs 1 (by simp)), hk]
      rfl
    · rw [if_neg hk] at hs ⊢
      have hlen : (true :: true :: Spec.bitsDown block 32).length = 34 := by
        rw [List.length_cons, List.length_cons, Spec.length_bitsDown]
      rw [hlen] at hs ⊢
      rw [Spec.readBlock_other t s (hs 0 (by omega)) (hs 1 (by omega))]
      have hm : (List.range 32).map (fun k => s (2 + k)) = Spec.bitsDown block 32 := by
        have h32 := map_getD_range (Spec.bitsDown block 32)
        rw [Spec.length_bitsDown] at h32
        rw [← h32]
        apply List.map_congr_left
        intro k hk'
        rw [List.mem_range] at hk'
        rw [hs (2 + k) (by omega), Nat.add_comm 2 k]
        rfl
      rw [hm, Spec.assemble_bitsDown, Nat.mod_eq_of_lt hb]

theorem Decoder.read_of_code (t : Target) (d : Decoder) (block : Nat) (hb : block < 2 ^ 32)
    (hs : ∀ k, k < (Spec.blockCode t block).length →
      Decoder.stream t d k = (Spec.blockCode t block).getD k false) :
    d.read t = (block, ⟨d.input, advance t d.index (Spec.blockCode t block).length⟩) := by
  rw [Decoder.read_spec, Spec.readBlock_of_code t block _ hb hs]

theorem getD_append_left' (a b : List Bool) (k : Nat) (h : k < a.length) :
    (a ++ b).getD k false = a.getD k false := by
  simp [List.getD_eq_getElem?_getD, List.getElem?_append_left h]

theorem getD_append_right' (a b : List Bool) (k : Nat) :
    (a ++ b).getD (a.length + k) false = b.getD k false := by
  simp [List.getD_eq_getElem?_getD, List.getElem?_append_right]

/-- A decoder whose stream starts with the code of one block reads that block. -/
theorem Decoder.read_of_prefix (t : Target) (d : Decoder) (block : Nat) (rest : List Bool)
    (hb : block < 2 ^ 32)
    (hs : ∀ k, k < (Spec.blockCode t block ++ rest).length →
      Decoder.stream t d k = (Spec.blockCode t block ++ rest).getD k false) :
    d.read t = (block, ⟨d.input, advance t d.index (Spec.blockCode t block).length⟩) ∧
      ∀ k, k < rest.length →
        Decoder.stream t ⟨d.input, advance t d.index (Spec.blockCode t block).length⟩ k =
          rest.getD k false := by
  constructor
  · apply Decoder.read_of_code t d block hb
    intro k hk
    rw [hs k (by rw [List.length_append]; omega), getD_append_left' _ _ _ hk]
  · intro k hk
    rw [Decoder.stream_advance, hs _ (by rw [List.length_append]; omega), getD_append_right']

theorem Decoder.decode_of_code (t : Target) (pixels : List Nat) :
    ∀ (d : Decoder) (span : List Nat), span.length = pixels.length →
      (∀ p ∈ pixels, p < 256) →
      (∀ k, k < (Spec.encodeBits t pixels).length →
        Decoder.stream t d k = (Spec.encodeBits t pixels).getD k false) →
      d.decode t span =
        (pixels, ⟨d.input, advance t d.index (Spec.encodeBits t pixels).length⟩) := by
  unfold Spec.encodeBits
  induction pixels using Spec.blocks.induct t with
  | case1 p0 p1 p2 p3 rest ih =>
    intro d span hlen hp hs
    obtain ⟨a0, a1, a2, a3, srest, rfl⟩ : ∃ a0 a1 a2 a3 srest, span = a0 :: a1 :: a2 :: a3 :: srest := by
      match span, hlen with
      | a0 :: a1 :: a2 :: a3 :: srest, _ => exact ⟨a0, a1, a2, a3, srest, rfl⟩
    have h0 : p0 < 256 := hp p0 (by simp)
    have h1 : p1 < 256 := hp p1 (by simp)
    have h2 : p2 < 256 := hp p2 (by simp)
    have h3 : p3 < 256 := hp p3 (by simp)
    simp only [Spec.blocks, Spec.blocksCode] at hs ⊢
    obtain ⟨hr, hs'⟩ := Decoder.read_of_prefix t d _ _ (combine_lt t p0 p1 p2 p3 h0 h1 h2 h3) hs
    have hrec := ih ⟨d.input, advance t d.index (Spec.blockCode t (combine t p0 p1 p2 p3)).length⟩
      srest (by simpa using hlen) (fun p hp' => hp p (by simp [hp'])) hs'
    simp only [Decoder.decode, hr, hrec, split_combine t p0 p1 p2 p3 h0 h1 h2 h3,
      List.length_append, advance_add]
  | case2 p0 p1 p2 =>
    intro d span hlen hp hs
    obtain ⟨a0, a1, a2, rfl⟩ : ∃ a0 a1 a2, span = [a0, a1, a2] := by
      match span, hlen with
      | [a0, a1, a2], _ => exact ⟨a0, a1, a2, rfl⟩
    have h0 : p0 < 256 := hp p0 (by simp)
    have h1 : p1 < 256 := hp p1 (by simp)
    have h2 : p2 < 256 := hp p2 (by simp)
    simp only [Spec.blocks, Spec.blocksCode] at hs ⊢
    obtain ⟨hr, -⟩ := Decoder.read_of_prefix t d _ _
      (combine_lt t p0 p1 p2 Black h0 h1 h2 (by decide)) hs
    simp only [Decoder.decode, hr, split_combine t p0 p1 p2 Black h0 h1 h2 (by decide),
      List.append_nil]
  | case3 p0 p1 =>
    intro d span hlen hp hs
    obtain ⟨a0, a1, rfl⟩ : ∃ a0 a1, span = [a0, a1] := by
      match span, hlen with
      | [a0, a1], _ => exact ⟨a0, a1, rfl⟩
    have h0 : p0 < 256 := hp p0 (by simp)
    have h1 : p1 < 256 := hp p1 (by simp)
    simp only [Spec.blocks, Spec.blocksCode] at hs ⊢
    obtain ⟨hr, -⟩ := Decoder.read_of_prefix t d _ _
      (combine_lt t p0 p1 Black Black h0 h1 (by decide) (by decide)) hs
    simp only [Decoder.decode, hr, split_combine t p0 p1 Black Black h0 h1 (by decide) (by decide),
      List.append_nil]
  | case4 p0 =>
    intro d span hlen hp hs
    obtain ⟨a0, rfl⟩ : ∃ a0, span = [a0] := by
      match span, hlen with
      | [a0], _ => exact ⟨a0, rfl⟩
    have h0 : p0 < 256 := hp p0 (by simp)
    simp only [Spec.blocks, Spec.blocksCode] at hs ⊢
    obtain ⟨hr, -⟩ := Decoder.read_of_prefix t d _ _
      (combine_lt t p0 Black Black Black h0 (by decide) (by decide) (by decide)) hs
    simp only [Decoder.decode, hr,
      split_combine t p0 Black Black Black h0 (by decide) (by decide) (by decide),
      List.append_nil]
  | case5 =>
    intro d span hlen hp hs
    obtain rfl : span = [] := List.length_eq_zero.mp hlen
    rfl

theorem Spec.readBlocks_shift (t : Target) (s : Nat → Bool) (a : Nat) (m : Nat) :
    ∀ o, Spec.readBlocks t s (a + o) m =
      ((Spec.readBlocks t (fun k => s (a + k)) o m).1,
        a + (Spec.readBlocks t (fun k => s (a + k)) o m).2) := by
  induction m with
  | zero => intro o; rfl
  | succ m ih =>
    intro o
    have hf : (fun k => s (a + o + k)) = (fun k => s (a + (o + k))) := by
      funext k; rw [Nat.add_assoc]
    simp only [Spec.readBlocks, hf]
    rw [Nat.add_assoc, ih]

theorem Spec.readBlocks_zero_succ (t : Target) (s : Nat → Bool) (m : Nat) :
    Spec.readBlocks t s 0 (m + 1) =
      ((Spec.readBlock t s).1 ::
          (Spec.readBlocks t (fun k => s ((Spec.readBlock t s).2 + k)) 0 m).1,
        (Spec.readBlock t s).2 +
          (Spec.readBlocks t (fun k => s ((Spec.readBlock t s).2 + k)) 0 m).2) := by
  have hf : (fun k => s (0 + k)) = s := by funext k; rw [Nat.zero_add]
  have h := Spec.readBlocks_shift t s (Spec.readBlock t s).2 m 0
  rw [Nat.add_zero] at h
  simp only [Spec.readBlocks, hf, Nat.zero_add, h]

theorem Decoder.stream_advance_fun (t : Target) (b : BitSet) (c n : Nat) :
    Decoder.stream t ⟨b, advance t c n⟩ = fun k => Decoder.stream t ⟨b, c⟩ (n + k) := by
  funext k; exact Decoder.stream_advance t b c n k

theorem Decoder.decode_tail (t : Target) (d : Decoder) (n : Nat) (hn : (n + 3) / 4 = 1) :
    ((Spec.splitAll t (Spec.readBlocks t (Decoder.stream t d) 0 ((n + 3) / 4)).1),
        (⟨d.input, advance t d.index
          (Spec.readBlocks t (Decoder.stream t d) 0 ((n + 3) / 4)).2⟩ : Decoder)) =
      ([(split t (d.read t).1).1, (split t (d.read t).1).2.1, (split t (d.read t).1).2.2.1,
          (split t (d.read t).1).2.2.2], (d.read t).2) := by
  rw [hn, Spec.readBlocks_zero_succ, Decoder.read_spec]
  simp only [Spec.readBlocks, Spec.splitAll, Nat.add_zero]

theorem Decoder.decode_spec (t : Target) (span : List Nat) :
    ∀ d : Decoder, d.decode t span =
      ((Spec.splitAll t
          (Spec.readBlocks t (Decoder.stream t d) 0 ((span.length + 3) / 4)).1).take span.length,
        ⟨d.input, advance t d.index
          (Spec.readBlocks t (Decoder.stream t d) 0 ((span.length + 3) / 4)).2⟩) := by
  induction span using Spec.blocks.induct t with
  | case1 a0 a1 a2 a3 rest ih =>
    intro d
    have hm : ((a0 :: a1 :: a2 :: a3 :: rest).length + 3) / 4 = (rest.length + 3) / 4 + 1 := by
      simp only [List.length_cons]; omega
    rw [hm, Spec.readBlocks_zero_succ]
    simp only [Decoder.decode]
    rw [ih, Decoder.read_spec]
    simp only [Decoder.stream_advance_fun, ← advance_add, Spec.splitAll, List.length_cons,
      List.take_succ_cons]
  | case2 a0 a1 a2 =>
    intro d
    have h := Decoder.decode_tail t d 3 rfl
    simp only [Prod.mk.injEq] at h
    simp only [Decoder.decode, List.length_cons, List.length_nil, Nat.zero_add]
    rw [h.1, h.2]
    rfl
  | case3 a0 a1 =>
    intro d
    have h := Decoder.decode_tail t d 2 rfl
    simp only [Prod.mk.injEq] at h
    simp only [Decoder.decode, List.length_cons, List.length_nil, Nat.zero_add]
    rw [h.1, h.2]
    rfl
  | case4 a0 =>
    intro d
    have h := Decoder.decode_tail t d 1 rfl
    simp only [Prod.mk.injEq] at h
    simp only [Decoder.decode, List.length_cons, List.length_nil, Nat.zero_add]
    rw [h.1, h.2]
    rfl
  | case5 => intro d; rfl

theorem Spec.readBlock_congr (t : Target) (s s' : Nat → Bool)
    (h : ∀ k, k < (Spec.readBlock t s).2 → s' k = s k) :
    Spec.readBlock t s' = Spec.readBlock t s := by
  cases h0 : s 0 with
  | false =>
    rw [Spec.readBlock_white t s h0] at h ⊢
    exact Spec.readBlock_white t s' ((h 0 (by simp)).trans h0)
  | true =>
    cases h1 : s 1 with
    | false =>
      rw [Spec.readBlock_black t s h0 h1] at h ⊢
      exact Spec.readBlock_black t s' ((h 0 (by simp)).trans h0) ((h 1 (by simp)).trans h1)
    | true =>
      rw [Spec.readBlock_other t s h0 h1] at h ⊢
      rw [Spec.readBlock_other t s' ((h 0 (by simp)).trans h0) ((h 1 (by simp)).trans h1)]
      congr 2
      apply List.map_congr_left
      intro k hk
      rw [List.mem_range] at hk
      exact h (2 + k) (by show 2 + k < 34; omega)

theorem Spec.readBlocks_congr (t : Target) (m : Nat) :
    ∀ (s s' : Nat → Bool), (∀ k, k < (Spec.readBlocks t s 0 m).2 → s' k = s k) →
      Spec.readBlocks t s' 0 m = Spec.readBlocks t s 0 m := by
  induction m with
  | zero => intro s s' _; rfl
  | succ m ih =>
    intro s s' h
    rw [Spec.readBlocks_zero_succ] at h
    simp only at h
    have hb : Spec.readBlock t s' = Spec.readBlock t s :=
      Spec.readBlock_congr t s s' (fun k hk => h k (by omega))
    rw [Spec.readBlocks_zero_succ, Spec.readBlocks_zero_succ, hb]
    have := ih (fun k => s ((Spec.readBlock t s).2 + k)) (fun k => s' ((Spec.readBlock t s).2 + k))
      (fun k hk => h _ (by omega))
    rw [this]

theorem wordModulus_pos (t : Target) : 0 < wordModulus t := by
  unfold wordModulus; positivity

theorem wrapWord_of_lt (t : Target) (n : Nat) (h : n < wordModulus t) : wrapWord t n = n :=
  Nat.mod_eq_of_lt h

theorem wrapWord_of_le_max (t : Target) (n : Nat) (h : n ≤ maxUSize t) : wrapWord t n = n := by
  apply wrapWord_of_lt
  have := wordModulus_pos t
  unfold maxUSize at h; omega

theorem Bitmap.row_bound (b : Bitmap) {y : Nat}
    (hy : y < b.height) : y * b.width + b.width ≤ b.width * b.height := by
  have : (y + 1) * b.width ≤ b.height * b.width := Nat.mul_le_mul_right _ hy
  rw [Nat.add_mul, Nat.one_mul, Nat.mul_comm b.height] at this
  exact this

theorem Bitmap.Valid.offset_wrap {t : Target} {b : Bitmap} (hb : b.Valid t) {y : Nat}
    (hy : y < b.height) : wrapWord t (y * b.width) = y * b.width := by
  apply wrapWord_of_le_max
  have := b.row_bound hy
  have := hb.2.2.1
  omega

theorem Bitmap.rowAt_valid {t : Target} {b : Bitmap} (hb : b.Valid t) {y : Nat}
    (hy : y < b.height) : b.rowAt t y = .ok (b.rowPixels y) := by
  unfold Bitmap.rowAt Bitmap.rowPixels
  rw [if_neg (by omega), hb.offset_wrap hy]

theorem Bitmap.length_rowPixels {t : Target} {b : Bitmap} (hb : b.Valid t) {y : Nat}
    (hy : y < b.height) : (b.rowPixels y).length = b.width := by
  unfold Bitmap.rowPixels
  have := b.row_bound hy
  rw [List.length_take, List.length_drop, hb.2.2.2.1]
  omega

theorem Bitmap.pixelAt_valid {t : Target} {b : Bitmap} (hb : b.Valid t) {x y : Nat}
    (hx : x < b.width) (hy : y < b.height) :
    b.pixelAt t x y = .ok ((b.rowPixels y).getD x 0) := by
  unfold Bitmap.pixelAt Bitmap.rowPixels
  rw [if_neg (by omega), if_neg (by omega), hb.offset_wrap hy]
  have h1 := b.row_bound hy
  have h2 := hb.2.2.1
  rw [wrapWord_of_le_max t _ (by omega)]
  simp [List.getD_eq_getElem?_getD, List.getElem?_take, hx, List.getElem?_drop]

theorem isEmpty_iff (pixels : List Nat) : isEmpty pixels = true ↔ ∀ p ∈ pixels, p = White := by
  unfold isEmpty
  simp [List.find?_eq_none]

theorem isEmpty_iff_getD (pixels : List Nat) :
    isEmpty pixels = true ↔ ∀ x, x < pixels.length → pixels.getD x 0 = White := by
  rw [isEmpty_iff]
  constructor
  · intro h x hx
    rw [List.getD_eq_getElem _ _ hx]
    exact h _ (List.getElem_mem hx)
  · intro h p hp
    obtain ⟨i, hi, rfl⟩ := List.getElem_of_mem hp
    rw [← List.getD_eq_getElem _ 0 hi]
    exact h i hi

theorem resizeWords_nil (n : Nat) : resizeWords [] n = List.replicate n 0 := by
  simp [resizeWords]

theorem BitSet.create_words (t : Target) (n : Nat) :
    ∃ k, (BitSet.create t n).words = List.replicate k 0 := ⟨_, resizeWords_nil _⟩

theorem BitSet.test_create (t : Target) (n j : Nat) : (BitSet.create t n).test t j = false := by
  obtain ⟨k, hk⟩ := BitSet.create_words t n
  rw [BitSet.test_eq, hk]
  have : (List.replicate k 0).getD (j / bitsPerWord t) 0 = 0 := by
    simp only [List.getD_eq_getElem?_getD, List.getElem?_replicate]
    split <;> rfl
  rw [this]; simp

theorem BitSet.create_zero (t : Target) : BitSet.create t 0 = ⟨[]⟩ := by
  unfold BitSet.create bitsPerWord wrapWord wordNot maxUSize wordModulus bitsPerWord
  cases t.wordSize <;> decide

theorem BitmapSize.create_of_valid_size (t : Target) (w h : Nat) (hw : 1 ≤ w) (hh : 1 ≤ h)
    (hwh : w * h ≤ maxUSize t) : BitmapSize.create t w h = .ok ⟨w, h⟩ := by
  unfold BitmapSize.create
  rw [if_neg (by omega), if_neg]
  rw [not_lt, Nat.le_div_iff_mul_le (by omega), Nat.mul_comm]
  exact hwh

/-! ### The loop of compress -/

theorem compressLoop_spec (t : Target) (b : Bitmap) (hb : b.Valid t) :
    ∀ (n y : Nat) (s : CompressState), y + n ≤ b.height →
      ∃ s', compressLoop t b n y s = .ok s' ∧
        (∀ j, s'.rowLookupTable.test t j =
          (s.rowLookupTable.test t j ||
            (decide (y ≤ j ∧ j < y + n) && !isEmpty (b.rowPixels j)))) ∧
        s'.rowEncoder = (Spec.nonEmptyRows b y n).foldl (Encoder.encode t) s.rowEncoder ∧
        s'.progress = s.progress ++ (List.range' y n).map (fun k => (k, b.height)) := by
  intro n
  induction n with
  | zero =>
    intro y s _
    refine ⟨s, rfl, ?_, rfl, by simp⟩
    intro j
    have : ¬ (y ≤ j ∧ j < y + 0) := by omega
    simp [this]
  | succ n ih =>
    intro y s hy
    rw [compressLoop, Bitmap.rowAt_valid hb (by omega : y < b.height)]
    simp only
    by_cases he : isEmpty (b.rowPixels y) = true
    · rw [if_pos he]
      obtain ⟨s', h1, h2, h3, h4⟩ := ih (y + 1) ⟨s.rowLookupTable, s.rowEncoder,
        s.progress ++ [(y, b.height)]⟩ (by omega)
      refine ⟨s', h1, ?_, ?_, ?_⟩
      · intro j
        rw [h2 j]
        by_cases hj : j = y
        · subst hj
          have : ¬ (j + 1 ≤ j ∧ j < j + 1 + n) := by omega
          simp [this, he]
        · have : (y + 1 ≤ j ∧ j < y + 1 + n) ↔ (y ≤ j ∧ j < y + (n + 1)) := by omega
          simp only [this]
      · rw [h3, Spec.nonEmptyRows, if_pos he]
      · rw [h4, List.range'_succ, List.map_cons, List.append_assoc]
        rfl
    · rw [if_neg he]
      obtain ⟨s', h1, h2, h3, h4⟩ := ih (y + 1) ⟨s.rowLookupTable.set t y,
        s.rowEncoder.encode t (b.rowPixels y), s.progress ++ [(y, b.height)]⟩ (by omega)
      refine ⟨s', h1, ?_, ?_, ?_⟩
      · intro j
        rw [h2 j, BitSet.test_set]
        by_cases hj : j = y
        · subst hj
          have : (j ≤ j ∧ j < j + (n + 1)) := by omega
          simp [this, he]
        · have h' : (y + 1 ≤ j ∧ j < y + 1 + n) ↔ (y ≤ j ∧ j < y + (n + 1)) := by omega
          have h'' : ¬ y = j := fun h => hj h.symm
          simp only [h', h'', decide_False, Bool.or_false]
      · rw [h3, Spec.nonEmptyRows, if_neg he, List.foldl_cons]
      · rw [h4, List.range'_succ, List.map_cons, List.append_assoc]
        rfl

theorem CompressedBitmap.create_of_valid_dims (t : Target) (w h : Nat) (hw : 1 ≤ w) (hh : 1 ≤ h)
    (hwh : w * h ≤ maxUSize t) :
    CompressedBitmap.create t w h = .ok ⟨⟨w, h⟩, BitSet.create t h, ⟨[]⟩⟩ := by
  unfold CompressedBitmap.create
  rw [BitmapSize.create_of_valid_size t w h hw hh hwh, BitSet.create_zero]

/-- The result of `compress` on a valid bitmap. -/
theorem compress_spec (t : Target) (b : Bitmap) (hb : b.Valid t) :
    ∃ lookup : BitSet,
      compress t b = .ok (⟨b.size, lookup,
          ((Spec.nonEmptyRows b 0 b.height).foldl (Encoder.encode t) ⟨⟨[]⟩, 0⟩).output⟩,
        (List.range' 0 b.height).map (fun k => (k, b.height)) ++ [(b.height, b.height)]) ∧
      ∀ j, lookup.test t j = (decide (j < b.height) && !isEmpty (b.rowPixels j)) := by
  obtain ⟨s', h1, h2, h3, h4⟩ := compressLoop_spec t b hb b.height 0
    ⟨BitSet.create t b.height, ⟨⟨[]⟩, 0⟩, []⟩ (by omega)
  refine ⟨s'.rowLookupTable, ?_, ?_⟩
  · unfold compress
    simp only
    rw [CompressedBitmap.create_of_valid_dims t b.width b.height hb.1 hb.2.1 hb.2.2.1]
    simp only
    rw [h1]
    simp only
    rw [h3, h4]
    rfl
  · intro j
    rw [h2 j, BitSet.test_create]
    simp

theorem Encoder.encodeRows_spec (t : Target) (rows : List (List Nat)) :
    ∀ e : Encoder,
      (rows.foldl (Encoder.encode t) e).output.bits t =
          Spec.storeBits t (e.output.bits t) e.index (Spec.rowsCode t rows) ∧
        (rows.foldl (Encoder.encode t) e).index =
          advance t e.index (Spec.rowsCode t rows).length := by
  induction rows with
  | nil => intro e; exact ⟨rfl, rfl⟩
  | cons r rs ih =>
    intro e
    obtain ⟨h1, h2⟩ := Encoder.encode_spec t e r
    obtain ⟨h3, h4⟩ := ih (e.encode t r)
    rw [List.foldl_cons, Spec.rowsCode, Spec.storeBits_append, List.length_append, advance_add,
      h3, h4, h1, h2]
    exact ⟨rfl, rfl⟩

theorem BitSet.bits_nil (t : Target) : (⟨[]⟩ : BitSet).bits t = fun _ => false := by
  funext j
  simp [BitSet.bits, BitSet.test]

/-- The bits of the pixel data after encoding `rows` from an empty BitSet, when the
cursor does not leave the range of the machine word. -/
theorem Encoder.encodeRows_test (t : Target) (rows : List (List Nat))
    (h : (Spec.rowsCode t rows).length ≤ wordModulus t) (j : Nat) :
    (rows.foldl (Encoder.encode t) ⟨⟨[]⟩, 0⟩).output.test t j =
      (Spec.rowsCode t rows).getD j false := by
  have h1 := (Encoder.encodeRows_spec t rows ⟨⟨[]⟩, 0⟩).1
  have h2 := congrFun h1 j
  rw [BitSet.bits_nil] at h2
  have h3 := Spec.storeBits_of_le t (fun _ => false) 0 (Spec.rowsCode t rows) (by omega) j
  simp only [Nat.zero_le, true_and, Nat.zero_add, Nat.sub_zero] at h3
  rw [show (rows.foldl (Encoder.encode t) ⟨⟨[]⟩, 0⟩).output.test t j =
    (rows.foldl (Encoder.encode t) ⟨⟨[]⟩, 0⟩).output.bits t j from rfl, h2]
  show Spec.storeBits t (fun _ => false) 0 (Spec.rowsCode t rows) j = _
  rw [h3]
  split
  · rfl
  · rw [List.getD_eq_default]; omega

theorem Bitmap.create_of_valid (t : Target) (w h bg : Nat) (hw : 1 ≤ w) (hh : 1 ≤ h)
    (hwh : w * h ≤ maxUSize t) :
    Bitmap.create t w h bg = .ok ⟨⟨w, h⟩, List.replicate (w * h) bg⟩ := by
  unfold Bitmap.create Bitmap.createWith
  rw [BitmapSize.create_of_valid_size t w h hw hh hwh]
  simp only
  rw [wrapWord_of_le_max t _ hwh, if_pos trivial]

/-- C2: for a valid bitmap and a row `y` below its height, `compress` succeeds and
`isEmptyRowAt y` of the result returns true exactly when every pixel of row `y` is White. -/
theorem compress_isEmptyRowAt (t : Target) (b : Bitmap) (hb : b.Valid t) (y : Nat)
    (hy : y < b.height) :
    ∃ c log e, compress t b = .ok (c, log) ∧ c.isEmptyRowAt t y = .ok e ∧
      (e = true ↔ ∀ x, x < b.width → b.pixelAt t x y = .ok White) := by
  obtain ⟨lookup, hc, hl⟩ := compress_spec t b hb
  refine ⟨_, _, isEmpty (b.rowPixels y), hc, ?_, ?_⟩
  · unfold CompressedBitmap.isEmptyRowAt
    rw [if_neg (by show ¬ y ≥ b.size.height; exact Nat.not_le.2 hy)]
    show Except.ok (!lookup.test t y) = _
    rw [hl y]
    simp [hy]
  · rw [isEmpty_iff_getD, Bitmap.length_rowPixels hb hy]
    constructor
    · intro h x hx
      rw [Bitmap.pixelAt_valid hb hx hy, h x hx]
    · intro h x hx
      have := h x hx
      rw [Bitmap.pixelAt_valid hb hx hy] at this
      exact Except.ok.inj this

theorem compress_isEmptyRowAt_witness :
    ∃ c log e, compress target64 sampleBitmap = .ok (c, log) ∧
      c.isEmptyRowAt target64 1 = .ok e ∧
      (e = true ↔ ∀ x, x < sampleBitmap.width → sampleBitmap.pixelAt target64 x 1 = .ok White) :=
  compress_isEmptyRowAt target64 sampleBitmap (by decide) 1 (by decide)

theorem writeSpan_eq (writer : Writer) (values : List Nat) :
    writeSpan writer values = writer ++ values := by
  unfold writeSpan
  induction values generalizing writer with
  | nil => simp
  | cons v vs ih => rw [List.foldl_cons, ih, writeWord, List.append_assoc]; rfl

theorem save_eq (writer : Writer) (c : CompressedBitmap) :
    save writer c =
      writer ++ [c.width, c.height] ++ c.rowLookupTable.words ++
        [c.pixelData.wordCount] ++ c.pixelData.words := by
  unfold save BitSet.save BitmapSize.save
  simp only [writeSpan_eq, writeWord, List.append_assoc, List.cons_append, List.nil_append]
  rfl

set_option maxRecDepth 100000 in
theorem compress_sampleBitmap :
    compress target64 sampleBitmap =
      .ok (⟨⟨4, 3⟩, ⟨[0xA000000000000000]⟩, ⟨[0xBDEADBEEF0000000]⟩⟩,
        [(0, 3), (1, 3), (2, 3), (3, 3)]) := by
  rfl

/-- C4: `save` appends to the sink exactly the words width, height, the words of the row
lookup table, the word count of the pixel data and the words of the pixel data, in that
order; for the compressed 4x3 bitmap on a 64-bit target these are
`0x4, 0x3, 0xA000000000000000, 0x1, 0xBDEADBEEF0000000`. -/
theorem save_layout :
    (∀ (writer : Writer) (c : CompressedBitmap),
        save writer c =
          writer ++ [c.width, c.height] ++ c.rowLookupTable.words ++
            [c.pixelData.wordCount] ++ c.pixelData.words) ∧
      ∃ c log, compress target64 sampleBitmap = .ok (c, log) ∧
        save [] c = [0x4, 0x3, 0xA000000000000000, 0x1, 0xBDEADBEEF0000000] := by
  exact ⟨save_eq, _, _, compress_sampleBitmap, rfl⟩

/-- C8: after `set(i)` bit `i` tests true and every other bit `j` tests as before; after
`clear(i)` bit `i` tests false. -/
theorem BitSet.test_set_clear (t : Target) (b : BitSet) (i j : Nat) (hji : j ≠ i) :
    (b.set t i).test t i = true ∧ (b.set t i).test t j = b.test t j ∧
      (b.clear t i).test t i = false := by
  refine ⟨?_, ?_, ?_⟩
  · rw [BitSet.test_set]; simp
  · rw [BitSet.test_set]
    have : ¬ i = j := fun h => hji h.symm
    simp [this]
  · rw [BitSet.test_clear]; simp

theorem BitSet.test_set_clear_witness :
    ((BitSet.create target64 4).set target64 1).test target64 1 = true ∧
      ((BitSet.create target64 4).set target64 1).test target64 0 = false ∧
      (((BitSet.create target64 4).set target64 1).set target64 2).test target64 2 = true ∧
      (((BitSet.create target64 4).set target64 1).set target64 2).test target64 1 = true ∧
      (((BitSet.create target64 4).set target64 1).set target64 2).test target64 0 = false ∧
      (((BitSet.create target64 4).set target64 1).set target64 2).test target64 3 = false := by
  have h1 := BitSet.test_set_clear target64 (BitSet.create target64 4) 1 0 (by decide)
  have h2 := BitSet.test_set_clear target64 ((BitSet.create target64 4).set target64 1) 2 1
    (by decide)
  have h3 := BitSet.test_set_clear target64 ((BitSet.create target64 4).set target64 1) 2 0
    (by decide)
  have h4 := BitSet.test_set_clear target64 ((BitSet.create target64 4).set target64 1) 2 3
    (by decide)
  have h0 : (BitSet.create target64 4).test target64 0 = false := BitSet.test_create _ _ _
  have h5 : ((BitSet.create target64 4).set target64 1).test target64 3 = false := by
    rw [(BitSet.test_set_clear target64 (BitSet.create target64 4) 1 3 (by decide)).2.1]
    exact BitSet.test_create _ _ _
  refine ⟨h1.1, ?_, h2.1, ?_, ?_, ?_⟩
  · rw [h1.2.1, h0]
  · rw [h2.2.1, h1.1]
  · rw [h3.2.1, h1.2.1, h0]
  · rw [h4.2.1, h5]

/-- C9: bit numbering is most-significant-bit first. For an index `i` whose word exists,
`test i` is true exactly when word `i / W` has a 1 under the mask
`(1 << (W - 1)) >> (i mod W)`, that is at the binary position `W - 1 - i mod W`; bit 0 is the
most significant bit of word 0, bit `W - 1` the least significant bit of word 0 and bit `W`
the most significant bit of word 1. -/
theorem BitSet.test_msb_first (t : Target) (b : BitSet) (i : Nat)
    (hi : i / bitsPerWord t < b.wordCount) :
    (b.test t i = true ↔
        b.words.get ⟨i / bitsPerWord t, hi⟩ &&&
          ((1 <<< (bitsPerWord t - 1)) >>> (i % bitsPerWord t)) ≠ 0) ∧
      b.test t i = (b.words.get ⟨i / bitsPerWord t, hi⟩).testBit
        (bitsPerWord t - 1 - i % bitsPerWord t) ∧
      b.test t 0 = (b.words.getD 0 0).testBit (bitsPerWord t - 1) ∧
      b.test t (bitsPerWord t - 1) = (b.words.getD 0 0).testBit 0 ∧
      b.test t (bitsPerWord t) = (b.words.getD 1 0).testBit (bitsPerWord t - 1) := by
  have hp := bitsPerWord_pos t
  have hmask : (1 <<< (bitsPerWord t - 1)) >>> (i % bitsPerWord t) =
      2 ^ (bitsPerWord t - 1 - i % bitsPerWord t) := by
    have := Nat.mod_lt i hp
    rw [Nat.one_shiftLeft, Nat.shiftRight_eq_div_pow, Nat.pow_div (by omega) (by decide)]
  have hget : b.words.get ⟨i / bitsPerWord t, hi⟩ = b.words.getD (i / bitsPerWord t) 0 := by
    rw [List.get_eq_getElem, List.getD_eq_getElem]
  refine ⟨?_, ?_, ?_, ?_, ?_⟩
  · rw [hmask, hget, BitSet.test_eq, ← and_two_pow_ne_zero]
    simp [bitPos]
  · rw [hget]; exact BitSet.test_eq t b i
  · rw [BitSet.test_eq, bitPos, Nat.zero_div, Nat.zero_mod, Nat.sub_zero]
  · rw [BitSet.test_eq, bitPos, Nat.div_eq_of_lt (by omega), Nat.mod_eq_of_lt (by omega),
      Nat.sub_self]
  · rw [BitSet.test_eq, bitPos, Nat.div_self hp, Nat.mod_self, Nat.sub_zero]

theorem BitSet.test_msb_first_witness :
    (BitSet.test target64 ⟨[1, 0x8000000000000000]⟩ 64 = true ↔
        List.get [1, 0x8000000000000000] ⟨64 / bitsPerWord target64, by decide⟩ &&&
          ((1 <<< (bitsPerWord target64 - 1)) >>> (64 % bitsPerWord target64)) ≠ 0) ∧
      BitSet.test target64 ⟨[1, 0x8000000000000000]⟩ 64 =
        (List.get [1, 0x8000000000000000] ⟨64 / bitsPerWord target64, by decide⟩).testBit
          (bitsPerWord target64 - 1 - 64 % bitsPerWord target64) ∧
      BitSet.test target64 ⟨[1, 0x8000000000000000]⟩ 0 =
        (List.getD [1, 0x8000000000000000] 0 0).testBit (bitsPerWord target64 - 1) ∧
      BitSet.test target64 ⟨[1, 0x8000000000000000]⟩ (bitsPerWord target64 - 1) =
        (List.getD [1, 0x8000000000000000] 0 0).testBit 0 ∧
      BitSet.test target64 ⟨[1, 0x8000000000000000]⟩ (bitsPerWord target64) =
        (List.getD [1, 0x8000000000000000] 1 0).testBit (bitsPerWord target64 - 1) :=
  BitSet.test_msb_first target64 ⟨[1, 0x8000000000000000]⟩ 64 (by decide)

/-- C10: for an index beyond the capacity, `test` returns false and `clear` leaves the
BitSet, hence its words and its word count, as they were. -/
theorem BitSet.test_clear_beyond (t : Target) (b : BitSet) (i : Nat)
    (hi : i / bitsPerWord t ≥ b.wordCount) :
    b.test t i = false ∧ (b.clear t i).words = b.words ∧
      (b.clear t i).wordCount = b.wordCount := by
  have h1 : (BitSet.toWord t i).1 ≥ b.words.length := by
    rw [BitSet.toWord_eq]; exact hi
  have hc : b.clear t i = b := by
    unfold BitSet.clear
    simp only
    rw [if_pos h1]
  refine ⟨?_, by rw [hc], by rw [hc]⟩
  unfold BitSet.test
  simp only
  rw [if_pos h1]

theorem BitSet.test_clear_beyond_witness :
    (BitSet.create target64 4).test target64 64 = false ∧
      ((BitSet.create target64 4).clear target64 64).words = (BitSet.create target64 4).words ∧
      ((BitSet.create target64 4).clear target64 64).wordCount =
        (BitSet.create target64 4).wordCount :=
  BitSet.test_clear_beyond target64 (BitSet.create target64 4) 64 (by decide)

set_option maxRecDepth 100000 in
theorem decode_sampleBits :
    Decoder.decode target64 ⟨sampleBits, 0⟩ (List.replicate 12 0) =
      ([0xFF, 0xFF, 0xFF, 0xFF, 0x00, 0x00, 0x00, 0x00, 0x01, 0x01, 0x01, 0x01],
        ⟨sampleBits, 37⟩) := by
  rfl

/-- C6: `decode` of a span of `n` pixels reads `ceil(n / 4)` blocks in order from the bits
under the cursor (`0` is WhiteBlock, `1 0` is BlackBlock, `1 1` is followed by the 32 bits of
the block, most significant first), stores the first `n` pixels of their splits, and leaves
the cursor advanced by the sum of the code lengths, each step being the increment
`m_index++` of a machine word; no bit behind those codes influences the result. The 37 bits
of the test scenario decode to `FF FF FF FF 00 00 00 00 01 01 01 01`. -/
theorem Decoder.decode_reads_blocks :
    (∀ (t : Target) (d : Decoder) (span : List Nat),
        d.decode t span =
          ((Spec.splitAll t
              (Spec.readBlocks t (Decoder.stream t d) 0 ((span.length + 3) / 4)).1).take
              span.length,
            ⟨d.input, advance t d.index
              (Spec.readBlocks t (Decoder.stream t d) 0 ((span.length + 3) / 4)).2⟩)) ∧
      (∀ (t : Target) (d : Decoder) (span : List Nat) (other : BitSet),
        (∀ k, k < (Spec.readBlocks t (Decoder.stream t d) 0 ((span.length + 3) / 4)).2 →
          other.test t (advance t d.index k) = d.input.test t (advance t d.index k)) →
        (Decoder.decode t ⟨other, d.index⟩ span).1 = (d.decode t span).1 ∧
          (Decoder.decode t ⟨other, d.index⟩ span).2.index = (d.decode t span).2.index) ∧
      (∀ (t : Target) (c n : Nat), c + n < wordModulus t → advance t c n = c + n) ∧
      Decoder.decode target64 ⟨sampleBits, 0⟩ (List.replicate 12 0) =
        ([0xFF, 0xFF, 0xFF, 0xFF, 0x00, 0x00, 0x00, 0x00, 0x01, 0x01, 0x01, 0x01],
          ⟨sampleBits, 37⟩) := by
  refine ⟨fun t d span => Decoder.decode_spec t span d, ?_, advance_of_lt, decode_sampleBits⟩
  intro t d span other h
  have hc := Spec.readBlocks_congr t ((span.length + 3) / 4) (Decoder.stream t d)
    (Decoder.stream t ⟨other, d.index⟩) h
  rw [Decoder.decode_spec, Decoder.decode_spec, hc]
  exact ⟨rfl, rfl⟩

theorem replicate_four_mul_succ (k p : Nat) :
    List.replicate (4 * (k + 1)) p = p :: p :: p :: p :: List.replicate (4 * k) p := by
  rw [show 4 * (k + 1) = 4 * k + 1 + 1 + 1 + 1 from by omega]
  rfl

theorem Spec.blocks_replicate (t : Target) (p k : Nat) :
    Spec.blocks t (List.replicate (4 * k) p) = List.replicate k (combine t p p p p) := by
  induction k with
  | zero => rfl
  | succ k ih => rw [replicate_four_mul_succ, Spec.blocks, ih]; rfl

theorem Spec.blocksCode_append (t : Target) (a b : List Nat) :
    Spec.blocksCode t (a ++ b) = Spec.blocksCode t a ++ Spec.blocksCode t b := by
  induction a with
  | nil => rfl
  | cons x xs ih => rw [List.cons_append, Spec.blocksCode, Spec.blocksCode, ih, List.append_assoc]

theorem Spec.blocksCode_replicate_succ (t : Target) (x k : Nat) :
    Spec.blocksCode t (List.replicate (k + 1) x) =
      Spec.blocksCode t (List.replicate k x) ++ Spec.blockCode t x := by
  rw [List.replicate_succ', Spec.blocksCode_append, Spec.blocksCode, Spec.blocksCode,
    List.append_nil]

theorem Spec.length_blocksCode_replicate (t : Target) (x k : Nat) :
    (Spec.blocksCode t (List.replicate k x)).length = k * (Spec.blockCode t x).length := by
  induction k with
  | zero => simp [Spec.blocksCode]
  | succ k ih => rw [Spec.blocksCode_replicate_succ, List.length_append, ih, Nat.succ_mul]

theorem advance_eq_wrapWord (t : Target) (c n : Nat) (hc : c < wordModulus t) :
    advance t c n = wrapWord t (c + n) := by
  cases n with
  | zero => rw [advance, Nat.add_zero, wrapWord_of_lt t c hc]
  | succ n => rw [advance_succ]; rfl

theorem combine_ones : combine target32 1 1 1 1 = 16843009 := by decide

theorem blockCode_ones :
    Spec.blockCode target32 16843009 =
      [true, true,
        false, false, false, false, false, false, false, true,
        false, false, false, false, false, false, false, true] ++
      [false, false, false, false, false, false, false, true,
        false, false, false, false, false, false, false, true] := by
  decide

theorem encodeBits_longPixels :
    Spec.encodeBits target32 longPixels =
      Spec.blocksCode target32 (List.replicate 126322567 16843009) ++
        Spec.blockCode target32 16843009 := by
  unfold Spec.encodeBits longPixels
  rw [Spec.blocks_replicate, combine_ones]
  exact Spec.blocksCode_replicate_succ target32 16843009 126322567

theorem length_blockCode_ones : (Spec.blockCode target32 16843009).length = 34 := by
  rw [blockCode_ones]; rfl

theorem length_encodeBits_longPixels :
    (Spec.encodeBits target32 longPixels).length = 4294967312 := by
  rw [encodeBits_longPixels, List.length_append, Spec.length_blocksCode_replicate,
    length_blockCode_ones]

theorem head_encodeBits_longPixels :
    (Spec.encodeBits target32 longPixels).getD 0 false = true := by
  unfold Spec.encodeBits longPixels
  rw [replicate_four_mul_succ, Spec.blocks, Spec.blocksCode, combine_ones, blockCode_ones]
  rfl

/-- After encoding `longPixels` from cursor 0 the cursor has wrapped and bit 0 holds a bit
of the last block. -/
theorem encode_longPixels_test_zero :
    (Encoder.encode target32 ⟨⟨[]⟩, 0⟩ longPixels).output.test target32 0 = false := by
  have h := congrFun (Encoder.encode_spec target32 ⟨⟨[]⟩, 0⟩ longPixels).1 0
  rw [show (Encoder.encode target32 ⟨⟨[]⟩, 0⟩ longPixels).output.test target32 0 =
    (Encoder.encode target32 ⟨⟨[]⟩, 0⟩ longPixels).output.bits target32 0 from rfl, h]
  rw [encodeBits_longPixels, blockCode_ones, ← List.append_assoc, Spec.storeBits_append]
  have hlen : (Spec.blocksCode target32 (List.replicate 126322567 16843009) ++
      [true, true,
        false, false, false, false, false, false, false, true,
        false, false, false, false, false, false, false, true]).length = 4294967296 := by
    rw [List.length_append, Spec.length_blocksCode_replicate, length_blockCode_ones]
    rfl
  rw [hlen]
  have hadv : advance target32 (Encoder.mk ⟨[]⟩ 0).index 4294967296 = 0 := by
    rw [advance_eq_wrapWord target32 _ _ (by decide)]
    decide
  rw [hadv, Spec.storeBits_of_le target32 _ 0 _ (by decide)]
  rfl

/-- C5 (evaluation at the failing input): on a 32-bit target the code of 505290272 pixels
`0x01` has 4294967312 bits and starts with a 1, but after `encode` from a fresh encoder
bit 0 of the BitSet tests 0: the cursor wrapped and the last block overwrote it. -/
theorem Encoder.encode_overwrites_first_bit :
    (Spec.encodeBits target32 longPixels).length = 4294967312 ∧
      (Spec.encodeBits target32 longPixels).getD 0 false = true ∧
      (Encoder.encode target32 ⟨⟨[]⟩, 0⟩ longPixels).output.test target32 0 = false :=
  ⟨length_encodeBits_longPixels, head_encodeBits_longPixels, encode_longPixels_test_zero⟩

theorem split_WhiteBlock (t : Target) : split t (WhiteBlock t) = (White, White, White, White) := by
  unfold split WhiteBlock combine
  cases t.byteOrder <;> decide

theorem Decoder.read_white (t : Target) (d : Decoder) (h : d.input.test t d.index = false) :
    (d.read t).1 = WhiteBlock t := by
  rw [Decoder.read_spec, Spec.readBlock_white t _ h]

/-- A decoder whose first bit is 0 stores White as the first pixel. -/
theorem Decoder.decode_head_white (t : Target) (b : BitSet) (c : Nat) (span : List Nat)
    (hspan : span ≠ []) (h : b.test t c = false) :
    (Decoder.decode t ⟨b, c⟩ span).1.head? = some White := by
  have hr := Decoder.read_white t ⟨b, c⟩ h
  rcases span with _ | ⟨a0, _ | ⟨a1, _ | ⟨a2, _ | ⟨a3, rest⟩⟩⟩⟩
  · exact absurd rfl hspan
  · simp only [Decoder.decode, hr, split_WhiteBlock, List.head?_cons]
  · simp only [Decoder.decode, hr, split_WhiteBlock, List.head?_cons]
  · simp only [Decoder.decode, hr, split_WhiteBlock, List.head?_cons]
  · simp only [Decoder.decode, hr, split_WhiteBlock, List.head?_cons]

theorem longPixels_ne_nil : longPixels ≠ [] := by
  unfold longPixels
  rw [replicate_four_mul_succ]
  exact List.cons_ne_nil _ _

theorem head_longPixels : longPixels.head? = some 1 := by
  unfold longPixels
  rw [replicate_four_mul_succ]
  rfl

/-- C7 (evaluation at the failing input): on a 32-bit target, decoding from a fresh decoder
what a fresh encoder wrote for 505290272 pixels `0x01` yields a first pixel `0xFF`, not the
sequence that was encoded. -/
theorem Decoder.decode_encode_long_differs :
    (Decoder.decode target32 ⟨(Encoder.encode target32 ⟨⟨[]⟩, 0⟩ longPixels).output, 0⟩
        longPixels).1.head? = some 0xFF ∧
      longPixels.head? = some 0x01 ∧
      (Decoder.decode target32 ⟨(Encoder.encode target32 ⟨⟨[]⟩, 0⟩ longPixels).output, 0⟩
        longPixels).1 ≠ longPixels := by
  have h := Decoder.decode_head_white target32
    (Encoder.encode target32 ⟨⟨[]⟩, 0⟩ longPixels).output 0 longPixels longPixels_ne_nil
    encode_longPixels_test_zero
  refine ⟨h, head_longPixels, ?_⟩
  intro heq
  have h2 : some White = some 1 :=
    (h.symm.trans (congrArg List.head? heq)).trans head_longPixels
  exact absurd h2 (by decide)

theorem length_longPixels : longPixels.length = 4 * 126322568 := by
  unfold longPixels
  rw [List.length_replicate]

theorem mem_longPixels (p : Nat) (h : p ∈ longPixels) : p = 1 := by
  unfold longPixels at h
  exact (List.mem_replicate.1 h).2

theorem longBitmap_valid : longBitmap.Valid target32 := by
  refine ⟨by decide, by decide, by decide, ?_, ?_⟩
  · show longPixels.length = 4 * 126322568 * 1
    rw [length_longPixels]
  · intro p hp
    rw [mem_longPixels p hp]
    decide

theorem rowPixels_longBitmap : longBitmap.rowPixels 0 = longPixels := by
  unfold Bitmap.rowPixels
  rw [Nat.zero_mul, List.drop_zero]
  exact List.take_of_length_le (by rw [show longBitmap.data = longPixels from rfl, length_longPixels]; exact Nat.le_refl _)

theorem isEmpty_longPixels : isEmpty longPixels = false := by
  cases h : isEmpty longPixels with
  | false => rfl
  | true =>
    have h1 := (isEmpty_iff longPixels).1 h
    have h2 : (1 : Nat) ∈ longPixels := by
      unfold longPixels
      rw [replicate_four_mul_succ]
      exact List.mem_cons_self _ _
    exact absurd (h1 1 h2) (by decide)

theorem getD_zero_of_head? (l : List Nat) (a : Nat) (h : l.head? = some a) : l.getD 0 0 = a := by
  cases l with
  | nil => exact absurd h (by simp)
  | cons x xs =>
    simp only [List.head?_cons, Option.some.injEq] at h
    rw [← h]; rfl

/-- A first row flagged non-empty whose code starts with a 0 bit is restored with a White
first pixel (bitmaps of height 1). -/
theorem uncompress_first_pixel_white (t : Target) (w : Nat) (hw : 1 ≤ w)
    (hmax : w * 1 ≤ maxUSize t) (lookup pixelData : BitSet)
    (hl : lookup.test t 0 = true) (hp : pixelData.test t 0 = false) :
    ∃ b' log, uncompress t ⟨⟨w, 1⟩, lookup, pixelData⟩ = .ok (b', log) ∧
      b'.pixelAt t 0 0 = .ok White := by
  have hvalid : (Bitmap.mk ⟨w, 1⟩ (List.replicate (w * 1) White)).Valid t := by
    refine ⟨hw, Nat.le_refl 1, hmax, List.length_replicate _ _, ?_⟩
    intro p hp'
    rw [(List.mem_replicate.1 hp').2]
    decide
  have hrow := Bitmap.rowAt_valid hvalid (show 0 < 1 from Nat.one_pos)
  have hlen := Bitmap.length_rowPixels hvalid (show 0 < 1 from Nat.one_pos)
  have hne : (Bitmap.mk ⟨w, 1⟩ (List.replicate (w * 1) White)).rowPixels 0 ≠ [] := by
    intro h0
    rw [h0] at hlen
    exact absurd hlen (by show ¬ 0 = w; omega)
  have hhead := Decoder.decode_head_white t pixelData 0 _ hne hp
  refine ⟨(Bitmap.mk ⟨w, 1⟩ (List.replicate (w * 1) White)).storeRow t 0
    (Decoder.decode t ⟨pixelData, 0⟩
      ((Bitmap.mk ⟨w, 1⟩ (List.replicate (w * 1) White)).rowPixels 0)).1,
    [] ++ [(0, 1)] ++ [(1, 1)], ?_, ?_⟩
  · unfold uncompress uncompressWith
    simp only [CompressedBitmap.width, CompressedBitmap.height]
    rw [show Bitmap.createWith (fun _ => true) t w 1 White = Bitmap.create t w 1 White
      from rfl, Bitmap.create_of_valid t w 1 White hw (Nat.le_refl 1) hmax]
    simp only
    rw [uncompressLoop]
    simp only
    rw [hl, if_pos rfl, hrow]
    simp only
    rw [uncompressLoop]
    rfl
  · unfold Bitmap.pixelAt
    rw [if_neg (by show ¬ (0 ≥ w); omega), if_neg (by show ¬ (0 ≥ 1); omega)]
    unfold Bitmap.storeRow
    simp only [Bitmap.width, Nat.zero_mul, Nat.add_zero, Nat.zero_add]
    rw [wrapWord_of_lt t 0 (wordModulus_pos t), wrapWord_of_lt t 0 (wordModulus_pos t),
      List.take_zero, List.nil_append]
    congr 1
    have h0 := getD_zero_of_head? _ _ hhead
    cases hd : (Decoder.decode t ⟨pixelData, 0⟩
        ((Bitmap.mk ⟨w, 1⟩ (List.replicate (w * 1) White)).rowPixels 0)).1 with
    | nil => rw [hd] at hhead; exact absurd hhead (by simp)
    | cons x xs =>
      rw [hd] at h0
      rw [List.cons_append]
      exact h0

theorem nonEmptyRows_longBitmap :
    Spec.nonEmptyRows longBitmap 0 longBitmap.height = [longPixels] := by
  rw [show longBitmap.height = 0 + 1 from rfl, Spec.nonEmptyRows, rowPixels_longBitmap,
    isEmpty_longPixels, if_neg (by decide), Spec.nonEmptyRows]

theorem compress_longBitmap :
    ∃ lookup log, lookup.test target32 0 = true ∧
      compress target32 longBitmap =
        .ok (⟨⟨4 * 126322568, 1⟩, lookup,
          (Encoder.encode target32 ⟨⟨[]⟩, 0⟩ longPixels).output⟩, log) := by
  obtain ⟨lookup, hc, hl⟩ := compress_spec target32 longBitmap longBitmap_valid
  rw [nonEmptyRows_longBitmap, List.foldl_cons, List.foldl_nil,
    show longBitmap.size = ⟨4 * 126322568, 1⟩ from rfl] at hc
  refine ⟨lookup, _, ?_, hc⟩
  rw [hl 0, rowPixels_longBitmap, isEmpty_longPixels]
  rfl

/-- C1 (evaluation at the failing input): on a 32-bit target the one-row bitmap of
505290272 pixels `0x01` is valid, `compress` and `uncompress` both succeed on it, and the
restored bitmap has pixel `0xFF` at (0, 0) where the source has `0x01`. -/
theorem uncompress_compress_long_differs :
    longBitmap.Valid target32 ∧
      ∃ c log1 b' log2, compress target32 longBitmap = .ok (c, log1) ∧
        uncompress target32 c = .ok (b', log2) ∧
        b'.pixelAt target32 0 0 = .ok 0xFF ∧ longBitmap.pixelAt target32 0 0 = .ok 0x01 := by
  obtain ⟨lookup, log1, hl, hc⟩ := compress_longBitmap
  obtain ⟨b', log2, hu, hpix⟩ := uncompress_first_pixel_white target32 (4 * 126322568)
    (by decide) (by decide) lookup (Encoder.encode target32 ⟨⟨[]⟩, 0⟩ longPixels).output hl
    encode_longPixels_test_zero
  refine ⟨longBitmap_valid, _, log1, b', log2, hc, hu, hpix, ?_⟩
  rw [Bitmap.pixelAt_valid longBitmap_valid (by decide) (by decide), rowPixels_longBitmap,
    getD_zero_of_head? _ _ head_longPixels]

theorem length_tallWhite : tallWhite.length = 4294967294 := by
  unfold tallWhite
  rw [List.length_replicate]

theorem mem_tallWhite (p : Nat) (h : p ∈ tallWhite) : p = White := by
  unfold tallWhite at h
  exact (List.mem_replicate.1 h).2

theorem tallBitmap_valid : tallBitmap.Valid target32 := by
  refine ⟨by decide, by decide, by decide, ?_, ?_⟩
  · show (Black :: tallWhite).length = 1 * 4294967295
    rw [List.length_cons, length_tallWhite]
  · intro p hp
    rcases List.mem_cons.1 hp with h | h
    · rw [h]; decide
    · rw [mem_tallWhite p h]; decide

theorem rowPixels_tallBitmap_zero : tallBitmap.rowPixels 0 = [Black] := by
  unfold Bitmap.rowPixels
  rw [Nat.zero_mul, List.drop_zero]
  show List.take (0 + 1) (Black :: tallWhite) = _
  rw [List.take_succ_cons, List.take_zero]

theorem isEmpty_rowPixels_tallBitmap (y : Nat) (hy : 1 ≤ y) :
    isEmpty (tallBitmap.rowPixels y) = true := by
  rw [isEmpty_iff]
  intro p hp
  unfold Bitmap.rowPixels at hp
  have h1 := List.mem_of_mem_take hp
  obtain ⟨y', rfl⟩ : ∃ y', y = y' + 1 := ⟨y - 1, by omega⟩
  rw [show tallBitmap.width = 1 from rfl, Nat.mul_one,
    show tallBitmap.data = Black :: tallWhite from rfl, List.drop_succ_cons] at h1
  exact mem_tallWhite p (List.mem_of_mem_drop h1)

/-- The loop of `compress` over empty rows only adds progress calls. -/
theorem compressLoop_empty_rows (t : Target) (b : Bitmap) (hb : b.Valid t) :
    ∀ (n y : Nat) (s : CompressState), y + n ≤ b.height →
      (∀ j, y ≤ j → isEmpty (b.rowPixels j) = true) →
      ∃ log, compressLoop t b n y s = .ok ⟨s.rowLookupTable, s.rowEncoder, log⟩ := by
  intro n
  induction n with
  | zero => intro y s _ _; exact ⟨s.progress, rfl⟩
  | succ n ih =>
    intro y s hy he
    rw [compressLoop, Bitmap.rowAt_valid hb (by omega : y < b.height)]
    simp only
    rw [if_pos (he y (Nat.le_refl y))]
    exact ih (y + 1) _ (by omega) (fun j hj => he j (by omega))

theorem encode_black_pixel :
    Encoder.encode target32 ⟨⟨[]⟩, 0⟩ [Black] = ⟨⟨[2147483648]⟩, 2⟩ := by
  decide

theorem create_set_zero :
    (BitSet.create target32 4294967295).set target32 0 = ⟨[2147483648]⟩ := by
  decide

/-- The result of `compress` in terms of the final state of its loop. -/
theorem compress_of_loop (t : Target) (b : Bitmap) (hb : b.Valid t) (s' : CompressState)
    (h : compressLoop t b b.height 0 ⟨BitSet.create t b.height, ⟨⟨[]⟩, 0⟩, []⟩ = .ok s') :
    compress t b = .ok (⟨b.size, s'.rowLookupTable, s'.rowEncoder.output⟩,
      s'.progress ++ [(b.height, b.height)]) := by
  unfold compress
  simp only
  rw [CompressedBitmap.create_of_valid_dims t b.width b.height hb.1 hb.2.1 hb.2.2.1]
  simp only
  rw [h]
  rfl

/-- One iteration of the loop of `compress` on a row that is not empty. -/
theorem compressLoop_succ_nonempty (t : Target) (b : Bitmap) (hb : b.Valid t) (n y : Nat)
    (s : CompressState) (hy : y < b.height) (hne : isEmpty (b.rowPixels y) = false) :
    compressLoop t b (n + 1) y s =
      compressLoop t b n (y + 1)
        ⟨s.rowLookupTable.set t y, s.rowEncoder.encode t (b.rowPixels y),
          s.progress ++ [(y, b.height)]⟩ := by
  rw [compressLoop, Bitmap.rowAt_valid hb hy]
  simp only
  rw [if_neg (by rw [hne]; decide)]

theorem compressLoop_tallBitmap :
    ∃ log, compressLoop target32 tallBitmap tallBitmap.height 0
        ⟨BitSet.create target32 tallBitmap.height, ⟨⟨[]⟩, 0⟩, []⟩ =
      .ok ⟨⟨[2147483648]⟩, ⟨⟨[2147483648]⟩, 2⟩, log⟩ := by
  have hb := tallBitmap_valid
  have hstep := compressLoop_succ_nonempty target32 tallBitmap hb 4294967294 0
    ⟨BitSet.create target32 tallBitmap.height, ⟨⟨[]⟩, 0⟩, []⟩ (by decide)
    (by rw [rowPixels_tallBitmap_zero]; decide)
  obtain ⟨log, hloop⟩ := compressLoop_empty_rows target32 tallBitmap hb 4294967294 (0 + 1)
    ⟨(BitSet.create target32 tallBitmap.height).set target32 0,
      Encoder.encode target32 ⟨⟨[]⟩, 0⟩ (tallBitmap.rowPixels 0),
      [] ++ [(0, tallBitmap.height)]⟩
    (by decide) (fun j hj => isEmpty_rowPixels_tallBitmap j (by omega))
  refine ⟨log, ?_⟩
  rw [show tallBitmap.height = 4294967294 + 1 from rfl] at hstep hloop ⊢
  rw [hstep, hloop, rowPixels_tallBitmap_zero, encode_black_pixel,
    show (4294967294 + 1 : Nat) = 4294967295 from rfl, create_set_zero]

theorem compress_tallBitmap :
    ∃ log, compress target32 tallBitmap =
      .ok (⟨⟨1, 4294967295⟩, ⟨[2147483648]⟩, ⟨[2147483648]⟩⟩, log) := by
  obtain ⟨log, hloop⟩ := compressLoop_tallBitmap
  exact ⟨_, compress_of_loop target32 tallBitmap tallBitmap_valid _ hloop⟩

theorem readSpan_short (span : List Nat) :
    ∀ reader : Reader, reader.length < span.length → readSpan reader span = .error .readFailed := by
  induction span with
  | nil => intro reader h; exact absurd h (Nat.not_lt_zero _)
  | cons x xs ih =>
    intro reader h
    cases reader with
    | nil => rfl
    | cons v vs =>
      rw [readSpan, readWord]
      simp only
      rw [ih vs (by simpa using h)]

theorem load_tall :
    load target32 [1, 4294967295, 2147483648, 1, 2147483648] = .error .readFailed := by
  unfold load
  rw [show CompressedBitmap.create target32 1 1 = .ok ⟨⟨1, 1⟩, ⟨[0]⟩, ⟨[]⟩⟩ from rfl]
  simp only
  rw [show BitmapSize.load target32 [1, 4294967295, 2147483648, 1, 2147483648] =
    .ok (⟨1, 4294967295⟩, [2147483648, 1, 2147483648]) from rfl]
  simp only
  rw [show align target32 4294967295 (bitsPerWord target32) / bitsPerWord target32 = 0
    from by decide]
  rw [show BitSet.load [2147483648, 1, 2147483648] (BitSet.unsafeResize ⟨[0]⟩ 0) =
    .ok (⟨[]⟩, [2147483648, 1, 2147483648]) from rfl]
  simp only
  rw [show readWord [2147483648, 1, 2147483648] = .ok (2147483648, [1, 2147483648]) from rfl]
  simp only
  unfold BitSet.load BitSet.unsafeResize
  rw [readSpan_short _ _ (by rw [length_resizeWords]; decide)]

/-- In the model, `compress` of the 1 x 4294967295 bitmap of a 32-bit target gives a
compressed bitmap that `load` does not read back. That bitmap is an array of 4294967295
bytes, which `Bitmap::Bitmap` cannot allocate in an address space of `2 ^ 32` bytes. -/
theorem load_save_compress_tallBitmap :
    tallBitmap.Valid target32 ∧
      ∃ c log, compress target32 tallBitmap = .ok (c, log) ∧
        save [] c = [1, 4294967295, 0x80000000, 1, 0x80000000] ∧
        load target32 (save [] c) = .error .readFailed := by
  obtain ⟨log, hc⟩ := compress_tallBitmap
  have hs : save [] (⟨⟨1, 4294967295⟩, ⟨[2147483648]⟩, ⟨[2147483648]⟩⟩ : CompressedBitmap) =
      [1, 4294967295, 0x80000000, 1, 0x80000000] := by decide
  refine ⟨tallBitmap_valid, _, log, hc, hs, ?_⟩
  rw [hs]
  exact load_tall

/-! ### Encoder and decoder when the cursor stays inside the machine word -/

theorem Spec.rowsCode_append (t : Target) (a b : List (List Nat)) :
    Spec.rowsCode t (a ++ b) = Spec.rowsCode t a ++ Spec.rowsCode t b := by
  induction a with
  | nil => rfl
  | cons x xs ih => rw [List.cons_append, Spec.rowsCode, Spec.rowsCode, ih, List.append_assoc]

/-- The bits of a BitSet filled by a fresh encoder are the bits of the code, and 0 behind
it, when the code has at most `2 ^ W` bits. -/
theorem Encoder.encode_fresh_test (t : Target) (pixels : List Nat)
    (h : (Spec.encodeBits t pixels).length ≤ wordModulus t) (i : Nat) :
    (Encoder.encode t ⟨⟨[]⟩, 0⟩ pixels).output.test t i =
      (Spec.encodeBits t pixels).getD i false := by
  have h1 := Encoder.encodeRows_test t [pixels]
    (by rw [Spec.rowsCode, Spec.rowsCode, List.append_nil]; exact h) i
  rw [Spec.rowsCode, Spec.rowsCode, List.append_nil, List.foldl_cons, List.foldl_nil] at h1
  exact h1

/-- The encoder cursor after the rows `rows`, when the code is shorter than `2 ^ W` bits. -/
theorem Encoder.encodeRows_index (t : Target) (rows : List (List Nat))
    (h : (Spec.rowsCode t rows).length < wordModulus t) :
    (rows.foldl (Encoder.encode t) ⟨⟨[]⟩, 0⟩).index = (Spec.rowsCode t rows).length := by
  rw [(Encoder.encodeRows_spec t rows ⟨⟨[]⟩, 0⟩).2, advance_of_lt t _ _ (by simpa using h)]
  exact Nat.zero_add _

theorem Decoder.decodeAll_of_code (t : Target) (b : BitSet) (code : List Bool)
    (hcode : code.length < wordModulus t)
    (hb : ∀ k, k < code.length → b.test t k = code.getD k false) :
    ∀ (rows : List (List Nat)) (pre post : List Bool),
      code = pre ++ Spec.rowsCode t rows ++ post →
      (∀ r ∈ rows, ∀ p ∈ r, p < 256) →
      Spec.decodeAll t ⟨b, pre.length⟩ rows =
        (rows, ⟨b, pre.length + (Spec.rowsCode t rows).length⟩) := by
  intro rows
  induction rows with
  | nil => intro pre post _ _; rfl
  | cons r rs ih =>
    intro pre post hc hp
    rw [Spec.rowsCode, ← List.append_assoc] at hc
    have hlen : pre.length + (Spec.encodeBits t r).length + (Spec.rowsCode t rs).length
        + post.length = code.length := by
      rw [hc]; simp only [List.length_append]
    have hstream : ∀ k, k < (Spec.encodeBits t r).length →
        Decoder.stream t ⟨b, pre.length⟩ k = (Spec.encodeBits t r).getD k false := by
      intro k hk
      show b.test t (advance t pre.length k) = _
      rw [advance_of_lt t _ _ (by omega), hb _ (by omega), hc, List.append_assoc,
        List.append_assoc, getD_append_right', getD_append_left' _ _ _ hk]
    have hd := Decoder.decode_of_code t r ⟨b, pre.length⟩ r rfl (hp r (List.mem_cons_self _ _))
      hstream
    have hrec := ih (pre ++ Spec.encodeBits t r) post hc
      (fun r' hr' => hp r' (List.mem_cons_of_mem _ hr'))
    rw [List.length_append] at hrec
    rw [Spec.decodeAll, hd]
    simp only
    rw [advance_of_lt t _ _ (by omega), hrec, Spec.rowsCode, List.length_append, Nat.add_assoc]

/-- Decoder inverts encoder when the cursor does not wrap: of the sequences encoded by one
encoder into an empty BitSet, a fresh decoder returns any leading part exactly, and its
cursor then equals the cursor of the encoder after that part. -/
theorem Decoder.decodeAll_encodeRows (t : Target) (done rest : List (List Nat))
    (hp : ∀ r ∈ done ++ rest, ∀ p ∈ r, p < 256)
    (hlen : (Spec.rowsCode t (done ++ rest)).length < wordModulus t) :
    Spec.decodeAll t ⟨((done ++ rest).foldl (Encoder.encode t) ⟨⟨[]⟩, 0⟩).output, 0⟩ done =
      (done, ⟨((done ++ rest).foldl (Encoder.encode t) ⟨⟨[]⟩, 0⟩).output,
        (done.foldl (Encoder.encode t) ⟨⟨[]⟩, 0⟩).index⟩) := by
  have hlen' : (Spec.rowsCode t done).length < wordModulus t := by
    rw [Spec.rowsCode_append, List.length_append] at hlen; omega
  have h := Decoder.decodeAll_of_code t
    ((done ++ rest).foldl (Encoder.encode t) ⟨⟨[]⟩, 0⟩).output
    (Spec.rowsCode t (done ++ rest)) hlen
    (fun k _ => Encoder.encodeRows_test t _ (by omega) k) done [] (Spec.rowsCode t rest)
    (by rw [Spec.rowsCode_append]; rfl)
    (fun r hr => hp r (List.mem_append_left _ hr))
  rw [List.length_nil, Nat.zero_add] at h
  rw [h, Encoder.encodeRows_index t done hlen']

set_option maxRecDepth 100000 in
/-- The encoding scenario of the tests: twelve pixels give 37 bits in one 64-bit word. -/
theorem encode_scenario :
    Encoder.encode target64 ⟨⟨[]⟩, 0⟩
        [0xFF, 0xFF, 0xFF, 0xFF, 0x00, 0x00, 0x00, 0x00, 0x01, 0x01, 0x01, 0x01] =
      ⟨⟨[0b0101100000001000000010000000100000001000000000000000000000000000]⟩, 37⟩ := by
  rfl

/-! ### Save and load when the lookup table has the word count the loader expects -/

theorem readSpan_exact (words : List Nat) :
    ∀ (span rest : List Nat), span.length = words.length →
      readSpan (words ++ rest) span = .ok (words, rest) := by
  induction words with
  | nil =>
    intro span rest h
    rw [List.length_eq_zero.1 h]
    rfl
  | cons w ws ih =>
    intro span rest h
    cases span with
    | nil => exact absurd h (by simp)
    | cons x xs =>
      rw [List.cons_append, readSpan, readWord]
      simp only
      rw [ih xs rest (by simpa using h)]

theorem one_le_maxUSize (t : Target) : 1 * 1 ≤ maxUSize t := by
  unfold maxUSize wordModulus bitsPerWord
  cases t.wordSize <;> decide

/-- Saving and loading again returns the compressed bitmap, provided its size is valid and
its lookup table has `align(height, W) / W` words. -/
theorem load_save (t : Target) (c : CompressedBitmap) (hw : 1 ≤ c.width) (hh : 1 ≤ c.height)
    (hwh : c.width * c.height ≤ maxUSize t)
    (hl : c.rowLookupTable.wordCount = align t c.height (bitsPerWord t) / bitsPerWord t) :
    load t (save [] c) = .ok (c, []) := by
  rw [save_eq]
  unfold load
  rw [CompressedBitmap.create_of_valid_dims t 1 1 (Nat.le_refl 1) (Nat.le_refl 1)
    (one_le_maxUSize t)]
  simp only
  unfold BitmapSize.load
  simp only [List.nil_append, List.cons_append, List.append_assoc, readWord]
  rw [BitmapSize.create_of_valid_size t c.width c.height hw hh hwh]
  simp only
  unfold BitSet.load BitSet.unsafeResize
  simp only
  rw [readSpan_exact c.rowLookupTable.words _ _
    (by rw [length_resizeWords]; exact hl.symm)]
  simp only [List.cons_append, List.nil_append, readWord]
  have hpd := readSpan_exact c.pixelData.words (resizeWords [] c.pixelData.wordCount) []
    (length_resizeWords _ _)
  rw [List.append_nil] at hpd
  rw [hpd]
  rfl

/-- A freshly constructed compressed bitmap survives `save` and `load`, for every valid size. -/
theorem load_save_create (t : Target) (w h : Nat) (hw : 1 ≤ w) (hh : 1 ≤ h)
    (hwh : w * h ≤ maxUSize t) :
    ∃ c, CompressedBitmap.create t w h = .ok c ∧ load t (save [] c) = .ok (c, []) := by
  refine ⟨_, CompressedBitmap.create_of_valid_dims t w h hw hh hwh, ?_⟩
  apply load_save t ⟨⟨w, h⟩, BitSet.create t h, ⟨[]⟩⟩ hw hh hwh
  show (BitSet.create t h).words.length = _
  unfold BitSet.create
  simp only
  rw [length_resizeWords]
  rfl

/-! ### Word counts -/

theorem BitSet.length_set (t : Target) (b : BitSet) (i : Nat) :
    (b.set t i).words.length = max b.words.length (i / bitsPerWord t + 1) := by
  unfold BitSet.set
  simp only [BitSet.toWord_eq, List.length_set]
  split
  · rw [length_resizeWords]; omega
  · omega

theorem bitsPerWord_eq_two_pow (t : Target) : ∃ k, bitsPerWord t = 2 ^ k ∧ k < bitsPerWord t := by
  unfold bitsPerWord
  cases t.wordSize
  · exact ⟨5, rfl, by decide⟩
  · exact ⟨6, rfl, by decide⟩

/-- Clearing the low `k` bits of a machine word rounds it down to a multiple of `2 ^ k`. -/
theorem and_wordNot_low (t : Target) (x k : Nat) (hx : x < wordModulus t) :
    x &&& wordNot t (2 ^ k - 1) = x / 2 ^ k * 2 ^ k := by
  apply Nat.eq_of_testBit_eq
  intro i
  unfold wordNot maxUSize
  have hmul : x / 2 ^ k * 2 ^ k = 2 ^ k * (x / 2 ^ k) := Nat.mul_comm _ _
  rw [Nat.testBit_and, Nat.testBit_xor, Nat.testBit_two_pow_sub_one, hmul,
    Nat.testBit_mul_pow_two, ← Nat.shiftRight_eq_div_pow, Nat.testBit_shiftRight]
  unfold wordModulus at hx ⊢
  rw [Nat.testBit_two_pow_sub_one]
  by_cases hik : i < k
  · have : ¬ k ≤ i := by omega
    by_cases hiw : i < bitsPerWord t
    · simp [hik, hiw, this]
    · have hxi : x.testBit i = false :=
        Nat.testBit_lt_two_pow (Nat.lt_of_lt_of_le hx (Nat.pow_le_pow_right (by decide) (by omega)))
      simp [hxi, this]
  · have hki : k ≤ i := by omega
    have hadd : k + (i - k) = i := by omega
    by_cases hiw : i < bitsPerWord t
    · simp [hik, hiw, hki, hadd]
    · have hxi : x.testBit i = false :=
        Nat.testBit_lt_two_pow (Nat.lt_of_lt_of_le hx (Nat.pow_le_pow_right (by decide) (by omega)))
      simp [hxi, hki, hadd]

/-- The word count computed by `align` and by the constructor of BitSet is the rounded-up
quotient, as long as `value + W - 1` does not overflow. -/
theorem align_div (t : Target) (n : Nat) (h : n + (bitsPerWord t - 1) < wordModulus t) :
    align t n (bitsPerWord t) / bitsPerWord t = (n + (bitsPerWord t - 1)) / bitsPerWord t := by
  obtain ⟨k, hk, _⟩ := bitsPerWord_eq_two_pow t
  unfold align
  simp only
  rw [wrapWord_of_lt t _ h, hk, and_wordNot_low t _ k (by rw [← hk]; exact h),
    Nat.mul_div_cancel _ (by positivity)]

theorem BitSet.wordCount_create (t : Target) (n : Nat) :
    (BitSet.create t n).wordCount = align t n (bitsPerWord t) / bitsPerWord t := by
  unfold BitSet.wordCount BitSet.create
  simp only
  rw [length_resizeWords]
  rfl

/-- The loop of `compress` keeps the word count of a lookup table that has a word for
every row. -/
theorem compressLoop_wordCount (t : Target) (b : Bitmap) (hb : b.Valid t) :
    ∀ (n y : Nat) (s : CompressState), y + n ≤ b.height →
      b.height ≤ s.rowLookupTable.words.length * bitsPerWord t →
      ∀ s', compressLoop t b n y s = .ok s' →
        s'.rowLookupTable.words.length = s.rowLookupTable.words.length := by
  intro n
  induction n with
  | zero =>
    intro y s _ _ s' h
    rw [compressLoop] at h
    rw [← Except.ok.inj h]
  | succ n ih =>
    intro y s hy hcap s' h
    rw [compressLoop, Bitmap.rowAt_valid hb (by omega : y < b.height)] at h
    simp only at h
    by_cases he : isEmpty (b.rowPixels y) = true
    · rw [if_pos he] at h
      exact ih (y + 1) ⟨s.rowLookupTable, s.rowEncoder, s.progress ++ [(y, b.height)]⟩
        (by omega) hcap s' h
    · rw [if_neg he] at h
      have hlen : (s.rowLookupTable.set t y).words.length = s.rowLookupTable.words.length := by
        rw [BitSet.length_set]
        have hp := bitsPerWord_pos t
        have : y / bitsPerWord t < s.rowLookupTable.words.length := by
          rw [Nat.div_lt_iff_lt_mul hp]; omega
        omega
      have := ih (y + 1) ⟨s.rowLookupTable.set t y, s.rowEncoder.encode t (b.rowPixels y),
        s.progress ++ [(y, b.height)]⟩ (by omega) (by rw [hlen]; exact hcap) s' h
      rw [this, hlen]

/-- Saving and loading the output of `compress` returns it, for every valid bitmap whose
height leaves room for the rounding `height + W - 1` in a machine word. -/
theorem load_save_compress (t : Target) (b : Bitmap) (hb : b.Valid t)
    (hh : b.height + (bitsPerWord t - 1) < wordModulus t) :
    ∃ c log, compress t b = .ok (c, log) ∧ load t (save [] c) = .ok (c, []) := by
  obtain ⟨s', hloop, -⟩ := compressLoop_spec t b hb b.height 0
    ⟨BitSet.create t b.height, ⟨⟨[]⟩, 0⟩, []⟩ (by omega)
  have hp := bitsPerWord_pos t
  have hcount : (BitSet.create t b.height).words.length =
      (b.height + (bitsPerWord t - 1)) / bitsPerWord t := by
    rw [← align_div t b.height hh]; exact BitSet.wordCount_create t b.height
  have hcap : b.height ≤ (BitSet.create t b.height).words.length * bitsPerWord t := by
    rw [hcount]
    have := Nat.div_add_mod (b.height + (bitsPerWord t - 1)) (bitsPerWord t)
    have := Nat.mod_lt (b.height + (bitsPerWord t - 1)) hp
    rw [Nat.mul_comm]
    omega
  have hlen := compressLoop_wordCount t b hb b.height 0 _ (by omega) hcap s' hloop
  refine ⟨_, _, compress_of_loop t b hb s' hloop, ?_⟩
  apply load_save t ⟨b.size, s'.rowLookupTable, s'.rowEncoder.output⟩ hb.1 hb.2.1 hb.2.2.1
  show s'.rowLookupTable.words.length = _
  rw [hlen]
  exact BitSet.wordCount_create t b.height

/-- C11: after `b.set(i)` the word count is `max(old word count, i / W + 1)`: unchanged
when word `i / W` exists already, `i / W + 1` when it does not. A word that existed before
keeps its value except for bit `i`, which is or-ed into word `i / W`; a word that is new is
zero except for bit `i` in word `i / W`. The last part states the same bit by bit. -/
theorem BitSet.set_wordCount_words (t : Target) (b : BitSet) (i : Nat) :
    (b.set t i).wordCount = max b.wordCount (i / bitsPerWord t + 1) ∧
    (i / bitsPerWord t < b.wordCount → (b.set t i).wordCount = b.wordCount) ∧
    (b.wordCount ≤ i / bitsPerWord t → (b.set t i).wordCount = i / bitsPerWord t + 1) ∧
    (∀ k, k < b.wordCount → (b.set t i).words.getD k 0 =
      if k = i / bitsPerWord t then b.words.getD k 0 ||| 2 ^ bitPos t i
      else b.words.getD k 0) ∧
    (∀ k, b.wordCount ≤ k → k < (b.set t i).wordCount → (b.set t i).words.getD k 0 =
      if k = i / bitsPerWord t then 2 ^ bitPos t i else 0) ∧
    (∀ k p, ((b.set t i).words.getD k 0).testBit p =
      ((b.words.getD k 0).testBit p || decide (k = i / bitsPerWord t ∧ p = bitPos t i))) := by
  have hlen := BitSet.length_set t b i
  unfold BitSet.wordCount
  refine ⟨hlen, ?_, ?_, ?_, ?_, ?_⟩
  · intro h; rw [hlen]; omega
  · intro h; rw [hlen]; omega
  · intro k _; exact BitSet.getD_set_words t b i k
  · intro k hk _
    rw [BitSet.getD_set_words, List.getD_eq_default _ _ hk, Nat.zero_or]
  · intro k p
    rw [BitSet.getD_set_words]
    by_cases hk : k = i / bitsPerWord t
    · rw [if_pos hk, Nat.testBit_or, Nat.testBit_two_pow]
      simp [hk, eq_comm]
    · rw [if_neg hk]
      simp [hk]

/-! ### The word count computed by the constructor of BitSet -/

/-- When `n + W - 1` leaves the machine word, the constructor of BitSet allocates no word. -/
theorem BitSet.wordCount_create_of_overflow (t : Target) (n : Nat) (hn : n ≤ maxUSize t)
    (h : wordModulus t ≤ n + (bitsPerWord t - 1)) : (BitSet.create t n).wordCount = 0 := by
  obtain ⟨k, hk, _⟩ := bitsPerWord_eq_two_pow t
  have hm := wordModulus_pos t
  have hx : wrapWord t (n + (bitsPerWord t - 1)) = n + (bitsPerWord t - 1) - wordModulus t := by
    unfold wrapWord
    rw [Nat.mod_eq_sub_mod h, Nat.mod_eq_of_lt]
    unfold maxUSize at hn
    have : bitsPerWord t ≤ wordModulus t := by
      unfold wordModulus bitsPerWord
      cases t.wordSize <;> decide
    omega
  have hlt : wrapWord t (n + (bitsPerWord t - 1)) < bitsPerWord t := by
    rw [hx]
    unfold maxUSize at hn
    omega
  have hand := and_wordNot_low t (wrapWord t (n + (bitsPerWord t - 1))) k (Nat.mod_lt _ hm)
  rw [← hk] at hand
  unfold BitSet.wordCount BitSet.create
  simp only
  rw [length_resizeWords, hand, Nat.div_eq_of_lt hlt, Nat.zero_mul, Nat.zero_div]

/-- The word count of a fresh BitSet is the rounded-up quotient when `n + W - 1` fits. -/
theorem BitSet.wordCount_create_of_fit (t : Target) (n : Nat)
    (h : n + (bitsPerWord t - 1) < wordModulus t) :
    (BitSet.create t n).wordCount = (n + (bitsPerWord t - 1)) / bitsPerWord t := by
  rw [BitSet.wordCount_create, align_div t n h]

theorem BitSet.wordCount_create_max32 : (BitSet.create target32 4294967295).wordCount = 0 := by
  decide

/-- C12: the words of `BitSet(n)` are all zero, and there are `⌈n / W⌉` of them as long as
`n + W - 1` fits a machine word. For every larger machine-word value of `n` the sum wraps
and the BitSet has no word at all: on the 32-bit target `BitSet(4294967295)` has 0 words,
where the rounded-up quotient is 134217728. -/
theorem BitSet.create_wordCount_overflow :
    (∀ t n, ∃ k, (BitSet.create t n).words = List.replicate k 0) ∧
    (∀ t n, n + (bitsPerWord t - 1) < wordModulus t →
      (BitSet.create t n).wordCount = (n + (bitsPerWord t - 1)) / bitsPerWord t) ∧
    (∀ t n, n ≤ maxUSize t → wordModulus t ≤ n + (bitsPerWord t - 1) →
      (BitSet.create t n).wordCount = 0) ∧
    (4294967295 ≤ maxUSize target32 ∧
      (BitSet.create target32 4294967295).wordCount = 0 ∧
      (4294967295 + (bitsPerWord target32 - 1)) / bitsPerWord target32 = 134217728) :=
  ⟨BitSet.create_words, BitSet.wordCount_create_of_fit, BitSet.wordCount_create_of_overflow,
    by decide, BitSet.wordCount_create_max32, by decide⟩

/-! ### The word count of the row lookup table -/

theorem CompressedBitmap.create_tall :
    CompressedBitmap.create target32 1 4294967295 = .ok ⟨⟨1, 4294967295⟩, ⟨[]⟩, ⟨[]⟩⟩ := by
  rfl

/-- The lookup table of `compress(B)` has the word count of the fresh table when
`height + W - 1` fits a machine word. -/
theorem compress_wordCount (t : Target) (b : Bitmap) (hb : b.Valid t)
    (hh : b.height + (bitsPerWord t - 1) < wordModulus t) :
    ∃ c log, compress t b = .ok (c, log) ∧
      c.rowLookupTable.wordCount = (b.height + (bitsPerWord t - 1)) / bitsPerWord t := by
  obtain ⟨s', hloop, -⟩ := compressLoop_spec t b hb b.height 0
    ⟨BitSet.create t b.height, ⟨⟨[]⟩, 0⟩, []⟩ (by omega)
  have hp := bitsPerWord_pos t
  have hcount := BitSet.wordCount_create_of_fit t b.height hh
  unfold BitSet.wordCount at hcount
  have hcap : b.height ≤ (BitSet.create t b.height).words.length * bitsPerWord t := by
    rw [hcount]
    have := Nat.div_add_mod (b.height + (bitsPerWord t - 1)) (bitsPerWord t)
    have := Nat.mod_lt (b.height + (bitsPerWord t - 1)) hp
    rw [Nat.mul_comm]
    omega
  have hlen := compressLoop_wordCount t b hb b.height 0 _ (by omega) hcap s' hloop
  refine ⟨_, _, compress_of_loop t b hb s' hloop, ?_⟩
  show s'.rowLookupTable.words.length = _
  rw [hlen, hcount]

/-- C13: for a valid size whose `height + W - 1` fits a machine word, the lookup table of
the fresh `CompressedBitmap(width, height)` and of `compress(B)` has `⌈height / W⌉` words,
which hold at least `height` bits. For the larger heights the sum wraps: on the 32-bit
target the valid size `(1, 4294967295)` gives a fresh table of 0 words, where the
rounded-up quotient is 134217728, and `compress` of the bitmap of that size whose first
row is Black returns a table of 1 word. -/
theorem CompressedBitmap.lookup_wordCount_overflow :
    (∀ t w h, 1 ≤ w → 1 ≤ h → w * h ≤ maxUSize t → h + (bitsPerWord t - 1) < wordModulus t →
      ∃ c, CompressedBitmap.create t w h = .ok c ∧
        c.rowLookupTable.wordCount = (h + (bitsPerWord t - 1)) / bitsPerWord t ∧
        h ≤ c.rowLookupTable.wordCount * bitsPerWord t) ∧
    (∀ t b, Bitmap.Valid t b → b.height + (bitsPerWord t - 1) < wordModulus t →
      ∃ c log, compress t b = .ok (c, log) ∧
        c.rowLookupTable.wordCount = (b.height + (bitsPerWord t - 1)) / bitsPerWord t) ∧
    (1 * 4294967295 ≤ maxUSize target32 ∧
      (∃ c, CompressedBitmap.create target32 1 4294967295 = .ok c ∧
        c.rowLookupTable.wordCount = 0) ∧
      (∃ c log, compress target32 tallBitmap = .ok (c, log) ∧
        c.rowLookupTable.wordCount = 1) ∧
      (4294967295 + (bitsPerWord target32 - 1)) / bitsPerWord target32 = 134217728) := by
  refine ⟨?_, compress_wordCount, by decide, ⟨_, CompressedBitmap.create_tall, rfl⟩, ?_,
    by decide⟩
  · intro t w h hw hh hwh hfit
    refine ⟨_, CompressedBitmap.create_of_valid_dims t w h hw hh hwh, ?_, ?_⟩
    · exact BitSet.wordCount_create_of_fit t h hfit
    · show h ≤ (BitSet.create t h).wordCount * bitsPerWord t
      rw [BitSet.wordCount_create_of_fit t h hfit]
      have hp := bitsPerWord_pos t
      have := Nat.div_add_mod (h + (bitsPerWord t - 1)) (bitsPerWord t)
      have := Nat.mod_lt (h + (bitsPerWord t - 1)) hp
      rw [Nat.mul_comm]
      omega
  · obtain ⟨log, h⟩ := compress_tallBitmap
    exact ⟨_, log, h, rfl⟩

/-! ### Pixel blocks: both byte orders -/

/-- C14: `split(combine(p0, p1, p2, p3)) = [p0, p1, p2, p3]` for the little-endian pair
and for the big-endian pair, for all pixels (values 0..255). -/
theorem split_combine_both (p0 p1 p2 p3 : Nat) (h0 : p0 < 256) (h1 : p1 < 256)
    (h2 : p2 < 256) (h3 : p3 < 256) :
    splitLittleEndian (combineLittleEndian p0 p1 p2 p3) = (p0, p1, p2, p3) ∧
    splitBigEndian (combineBigEndian p0 p1 p2 p3) = (p0, p1, p2, p3) := by
  constructor
  · simp only [combineLittleEndian_eq p0 p1 p2 p3 h0 h1 h2 h3, splitLittleEndian, toPixel,
      Nat.shiftRight_eq_div_pow, Prod.mk.injEq]
    omega
  · simp only [combineBigEndian_eq p0 p1 p2 p3 h0 h1 h2 h3, splitBigEndian, toPixel,
      Nat.shiftRight_eq_div_pow, Prod.mk.injEq]
    omega

/-- The pixels `DE AD BE EF` of the test scenarios survive both pairs. -/
theorem split_combine_both_witness :
    splitLittleEndian (combineLittleEndian 0xDE 0xAD 0xBE 0xEF) = (0xDE, 0xAD, 0xBE, 0xEF) ∧
    splitBigEndian (combineBigEndian 0xDE 0xAD 0xBE 0xEF) = (0xDE, 0xAD, 0xBE, 0xEF) :=
  split_combine_both 0xDE 0xAD 0xBE 0xEF (by decide) (by decide) (by decide) (by decide)

/-- C15: `combineLittleEndian(p0, p1, p2, p3) = p0*2^24 + p1*2^16 + p2*2^8 + p3`, with `p0`
in bits 31..24 and `p3` in bits 7..0; `combineBigEndian(p0, p1, p2, p3)` is
`p3*2^24 + p2*2^16 + p1*2^8 + p0`, which is `combineLittleEndian(p3, p2, p1, p0)`, with
`p0` in the least-significant byte. -/
theorem combine_closed_form (p0 p1 p2 p3 : Nat) (h0 : p0 < 256) (h1 : p1 < 256)
    (h2 : p2 < 256) (h3 : p3 < 256) :
    combineLittleEndian p0 p1 p2 p3 = p0 * 2 ^ 24 + p1 * 2 ^ 16 + p2 * 2 ^ 8 + p3 ∧
    combineLittleEndian p0 p1 p2 p3 / 2 ^ 24 = p0 ∧
    combineLittleEndian p0 p1 p2 p3 % 2 ^ 8 = p3 ∧
    combineBigEndian p0 p1 p2 p3 = p3 * 2 ^ 24 + p2 * 2 ^ 16 + p1 * 2 ^ 8 + p0 ∧
    combineBigEndian p0 p1 p2 p3 = combineLittleEndian p3 p2 p1 p0 ∧
    combineBigEndian p0 p1 p2 p3 % 2 ^ 8 = p0 := by
  have hl := combineLittleEndian_eq p0 p1 p2 p3 h0 h1 h2 h3
  have hb := combineBigEndian_eq p0 p1 p2 p3 h0 h1 h2 h3
  refine ⟨?_, ?_, ?_, ?_, rfl, ?_⟩
  · rw [hl]; norm_num
  · rw [hl]; omega
  · rw [hl]; omega
  · rw [hb]; norm_num
  · rw [hb]; omega

/-- The closed forms on the pixels `DE AD BE EF`. -/
theorem combine_closed_form_witness :
    combineLittleEndian 0xDE 0xAD 0xBE 0xEF = 0xDE * 2 ^ 24 + 0xAD * 2 ^ 16 + 0xBE * 2 ^ 8 + 0xEF ∧
    combineLittleEndian 0xDE 0xAD 0xBE 0xEF / 2 ^ 24 = 0xDE ∧
    combineLittleEndian 0xDE 0xAD 0xBE 0xEF % 2 ^ 8 = 0xEF ∧
    combineBigEndian 0xDE 0xAD 0xBE 0xEF = 0xEF * 2 ^ 24 + 0xBE * 2 ^ 16 + 0xAD * 2 ^ 8 + 0xDE ∧
    combineBigEndian 0xDE 0xAD 0xBE 0xEF = combineLittleEndian 0xEF 0xBE 0xAD 0xDE ∧
    combineBigEndian 0xDE 0xAD 0xBE 0xEF % 2 ^ 8 = 0xDE :=
  combine_closed_form 0xDE 0xAD 0xBE 0xEF (by decide) (by decide) (by decide) (by decide)

/-! ### The constructor of BitmapSize -/

/-- The test `height > MAX_USIZE / width` of the code compares the exact product. -/
theorem div_lt_iff_max_lt_mul (t : Target) (w h : Nat) (hw : 0 < w) :
    maxUSize t / w < h ↔ maxUSize t < w * h := by
  rw [Nat.div_lt_iff_lt_mul hw, Nat.mul_comm]

/-- C16: `BitmapSize(width, height)` fails with `TooSmall` exactly when a dimension is 0;
otherwise it fails with `TooLarge` exactly when the exact product exceeds `MAX_USIZE`;
otherwise it succeeds with those dimensions and `pixelCount()` is the exact product.
`(0, 32)` and `(32, 0)` are `TooSmall`, `(MAX_USIZE >> 8, MAX_USIZE >> 8)` is `TooLarge`. -/
theorem BitmapSize.create_cases (t : Target) (w h : Nat) :
    (BitmapSize.create t w h = .error (.invalidSize w h .TooSmall) ↔ w = 0 ∨ h = 0) ∧
    (¬ (w = 0 ∨ h = 0) →
      (BitmapSize.create t w h = .error (.invalidSize w h .TooLarge) ↔ maxUSize t < w * h)) ∧
    (¬ (w = 0 ∨ h = 0) → ¬ maxUSize t < w * h →
      BitmapSize.create t w h = .ok ⟨w, h⟩ ∧
        BitmapSize.pixelCount t ⟨w, h⟩ = w * h) ∧
    BitmapSize.create t 0 32 = .error (.invalidSize 0 32 .TooSmall) ∧
    BitmapSize.create t 32 0 = .error (.invalidSize 32 0 .TooSmall) ∧
    BitmapSize.create t (maxUSize t >>> 8) (maxUSize t >>> 8) =
      .error (.invalidSize (maxUSize t >>> 8) (maxUSize t >>> 8) .TooLarge) := by
  refine ⟨?_, ?_, ?_, rfl, rfl, ?_⟩
  · unfold BitmapSize.create
    constructor
    · intro hc
      by_contra hz
      rw [if_neg hz] at hc
      split at hc <;> simp at hc
    · intro hz
      rw [if_pos hz]
  · intro hz
    have hw : 0 < w := by omega
    unfold BitmapSize.create
    rw [if_neg hz]
    constructor
    · intro hc
      by_contra hl
      rw [if_neg (fun hgt => hl ((div_lt_iff_max_lt_mul t w h hw).1 hgt))] at hc
      simp at hc
    · intro hl
      rw [if_pos ((div_lt_iff_max_lt_mul t w h hw).2 hl)]
  · intro hz hl
    have hw : 0 < w := by omega
    constructor
    · unfold BitmapSize.create
      rw [if_neg hz, if_neg (fun hgt => hl ((div_lt_iff_max_lt_mul t w h hw).1 hgt))]
    · unfold BitmapSize.pixelCount
      exact wrapWord_of_le_max t _ (by simp only; omega)
  · have hz : ¬ (maxUSize t >>> 8 = 0 ∨ maxUSize t >>> 8 = 0) := by
      unfold maxUSize wordModulus bitsPerWord
      cases t.wordSize <;> decide
    have hgt : maxUSize t >>> 8 > maxUSize t / (maxUSize t >>> 8) := by
      unfold maxUSize wordModulus bitsPerWord
      cases t.wordSize <;> decide
    unfold BitmapSize.create
    rw [if_neg hz, if_pos hgt]

/-! ### The constructor of Bitmap -/

/-- The constructor on an allocator that serves the request. -/
theorem Bitmap.createWith_of_allocates (allocates : Nat → Bool) (t : Target) (w h c : Nat)
    (hw : 1 ≤ w) (hh : 1 ≤ h) (hwh : w * h ≤ maxUSize t) (ha : allocates (w * h) = true) :
    Bitmap.createWith allocates t w h c = .ok ⟨⟨w, h⟩, List.replicate (w * h) c⟩ := by
  unfold Bitmap.createWith
  rw [BitmapSize.create_of_valid_size t w h hw hh hwh]
  simp only
  rw [wrapWord_of_le_max t _ hwh, if_pos ha]

/-- The constructor on an allocator that refuses the request. -/
theorem Bitmap.createWith_of_refuses (allocates : Nat → Bool) (t : Target) (w h c : Nat)
    (hw : 1 ≤ w) (hh : 1 ≤ h) (hwh : w * h ≤ maxUSize t) (ha : allocates (w * h) = false) :
    Bitmap.createWith allocates t w h c = .error (.invalidSize w h .TooLarge) := by
  unfold Bitmap.createWith
  rw [BitmapSize.create_of_valid_size t w h hw hh hwh]
  simp only
  rw [wrapWord_of_le_max t _ hwh, if_neg (by rw [ha]; decide)]

/-- With an allocator that never fails the constructor is `Bitmap.create`. -/
theorem Bitmap.createWith_always (t : Target) (w h c : Nat) :
    Bitmap.createWith (fun _ => true) t w h c = Bitmap.create t w h c := rfl

/-- Every pixel of a bitmap filled with `c` is `c`. -/
theorem Bitmap.pixelAt_replicate (t : Target) (w h c x y : Nat) (hwh : w * h ≤ maxUSize t)
    (hx : x < w) (hy : y < h) :
    Bitmap.pixelAt t ⟨⟨w, h⟩, List.replicate (w * h) c⟩ x y = .ok c := by
  have hb : y * w + w ≤ w * h := Bitmap.row_bound ⟨⟨w, h⟩, List.replicate (w * h) c⟩ hy
  unfold Bitmap.pixelAt
  rw [if_neg (by show ¬ x ≥ w; omega), if_neg (by show ¬ y ≥ h; omega)]
  show Except.ok ((List.replicate (w * h) c).getD (wrapWord t (wrapWord t (y * w) + x)) 0) = _
  rw [wrapWord_of_le_max t (y * w) (by omega), wrapWord_of_le_max t (y * w + x) (by omega),
    List.getD_eq_getElem?_getD, List.getElem?_replicate, if_pos (by omega)]
  rfl

/-- C17, amended: for a valid size `(w, h)` and every pixel value `c` the constructor
`Bitmap(w, h, c)` succeeds whenever the allocation of the `w * h` pixels succeeds, and
then yields a bitmap of width `w`, height `h`, pixel count `w * h` in which every
`pixelAt(x, y)` with `x < w`, `y < h` is `c` (White for the default background); when
the allocation fails it fails with `InvalidSize` and `TooLarge`. -/
theorem Bitmap.createWith_spec (allocates : Nat → Bool) (t : Target) (w h c : Nat)
    (hw : 1 ≤ w) (hh : 1 ≤ h) (hwh : w * h ≤ maxUSize t) :
    (allocates (w * h) = true →
      ∃ b, Bitmap.createWith allocates t w h c = .ok b ∧ b.width = w ∧ b.height = h ∧
        b.pixelCount t = w * h ∧ ∀ x y, x < w → y < h → b.pixelAt t x y = .ok c) ∧
    (allocates (w * h) = false →
      Bitmap.createWith allocates t w h c = .error (.invalidSize w h .TooLarge)) := by
  constructor
  · intro ha
    refine ⟨_, Bitmap.createWith_of_allocates allocates t w h c hw hh hwh ha, rfl, rfl, ?_, ?_⟩
    · exact wrapWord_of_le_max t _ hwh
    · intro x y hx hy
      exact Bitmap.pixelAt_replicate t w h c x y hwh hx hy
  · exact Bitmap.createWith_of_refuses allocates t w h c hw hh hwh

/-- The scenarios of the tests: `Bitmap(3, 5)` has width 3, height 5 and pixel count 15
and all its pixels are White; the pixel `(0, 0)` of `Bitmap(1, 1)` is White and that of
`Bitmap(1, 1, Black)` is Black. -/
theorem Bitmap.createWith_spec_witness :
    (∃ b, Bitmap.createWith (fun _ => true) target64 3 5 White = .ok b ∧ b.width = 3 ∧
      b.height = 5 ∧ b.pixelCount target64 = 3 * 5 ∧
      ∀ x y, x < 3 → y < 5 → b.pixelAt target64 x y = .ok White) ∧
    (∃ b, Bitmap.createWith (fun _ => true) target64 1 1 White = .ok b ∧
      b.pixelAt target64 0 0 = .ok White) ∧
    (∃ b, Bitmap.createWith (fun _ => true) target64 1 1 Black = .ok b ∧
      b.pixelAt target64 0 0 = .ok Black) := by
  refine ⟨(Bitmap.createWith_spec (fun _ => true) target64 3 5 White (by decide) (by decide)
    (by decide)).1 rfl, ?_, ?_⟩
  · obtain ⟨b, h1, -, -, -, h2⟩ := (Bitmap.createWith_spec (fun _ => true) target64 1 1 White
      (by decide) (by decide) (by decide)).1 rfl
    exact ⟨b, h1, h2 0 0 (by decide) (by decide)⟩
  · obtain ⟨b, h1, -, -, -, h2⟩ := (Bitmap.createWith_spec (fun _ => true) target64 1 1 Black
      (by decide) (by decide) (by decide)).1 rfl
    exact ⟨b, h1, h2 0 0 (by decide) (by decide)⟩

/-- C17, counterexample: `(MAX_USIZE / 2, 2)` is a valid size, its product `MAX_USIZE - 1`
does not overflow, and on a host that allocates no object above `MAX_USIZE / 2` bytes
`Bitmap(MAX_USIZE / 2, 2)` does not succeed: it fails with `InvalidSize` and `TooLarge`. -/
theorem Bitmap.createWith_half_max_fails :
    1 ≤ maxUSize target64 / 2 ∧ 1 ≤ 2 ∧ maxUSize target64 / 2 * 2 ≤ maxUSize target64 ∧
    BitmapSize.create target64 (maxUSize target64 / 2) 2 = .ok ⟨maxUSize target64 / 2, 2⟩ ∧
    Bitmap.createWith (ptrdiffAllocator target64) target64 (maxUSize target64 / 2) 2 White =
      .error (.invalidSize (maxUSize target64 / 2) 2 .TooLarge) ∧
    ¬ ∃ b, Bitmap.createWith (ptrdiffAllocator target64) target64 (maxUSize target64 / 2) 2
      White = .ok b := by
  have hfail := Bitmap.createWith_of_refuses (ptrdiffAllocator target64) target64
    (maxUSize target64 / 2) 2 White (by decide) (by decide) (by decide) (by decide)
  refine ⟨by decide, by decide, by decide, ?_, hfail, ?_⟩
  · exact BitmapSize.create_of_valid_size target64 _ 2 (by decide) (by decide) (by decide)
  · rintro ⟨b, hb⟩
    rw [hfail] at hb
    cases hb

/-- The size check accepts `(MAX_USIZE / 2, 2)` on every target, and the constructor of
Bitmap fails on it, with `TooLarge`, exactly when the allocation of the
`MAX_USIZE - 1` pixels fails. -/
theorem Bitmap.createWith_half_max (allocates : Nat → Bool) (t : Target) (c : Nat) :
    BitmapSize.create t (maxUSize t / 2) 2 = .ok ⟨maxUSize t / 2, 2⟩ ∧
    maxUSize t / 2 * 2 = maxUSize t - 1 ∧
    (Bitmap.createWith allocates t (maxUSize t / 2) 2 c =
        .error (.invalidSize (maxUSize t / 2) 2 .TooLarge) ↔
      allocates (maxUSize t - 1) = false) := by
  have hmax : maxUSize t / 2 * 2 = maxUSize t - 1 ∧ 1 ≤ maxUSize t / 2 := by
    unfold maxUSize wordModulus bitsPerWord
    cases t.wordSize <;> decide
  have hwh : maxUSize t / 2 * 2 ≤ maxUSize t := by omega
  refine ⟨BitmapSize.create_of_valid_size t _ 2 hmax.2 (by decide) hwh, hmax.1, ?_⟩
  constructor
  · intro hfail
    cases ha : allocates (maxUSize t - 1)
    · rfl
    · rw [Bitmap.createWith_of_allocates allocates t _ 2 c hmax.2 (by decide) hwh
        (by rw [hmax.1]; exact ha)] at hfail
      cases hfail
  · intro ha
    exact Bitmap.createWith_of_refuses allocates t _ 2 c hmax.2 (by decide) hwh
      (by rw [hmax.1]; exact ha)

/-! ### Access to rows and pixels -/

/-- C19: `rowAt(y)` fails with `InvalidCoordinate(Y, y)` exactly when `y >= height`;
otherwise it returns `width` pixels, those at the buffer positions
`y * width .. y * width + width - 1` (an offset computed without wrap-around), so that
entry `x` of the row is the pixel at `(x, y)`, and the row lies inside the buffer of
`width * height` pixels. -/
theorem Bitmap.rowAt_spec (t : Target) (b : Bitmap) (hb : b.Valid t) (y : Nat) :
    (b.rowAt t y = .error (.invalidCoordinate .Y y) ↔ y ≥ b.height) ∧
    (y < b.height →
      ∃ row, b.rowAt t y = .ok row ∧ row.length = b.width ∧
        wrapWord t (y * b.width) = y * b.width ∧
        y * b.width + b.width ≤ b.data.length ∧
        b.data.length = b.width * b.height ∧
        ∀ x, x < b.width →
          row.getD x 0 = b.data.getD (y * b.width + x) 0 ∧
          b.pixelAt t x y = .ok (row.getD x 0)) := by
  constructor
  · unfold Bitmap.rowAt
    constructor
    · intro h
      by_contra hy
      rw [if_neg hy] at h
      cases h
    · intro hy
      rw [if_pos hy]
  · intro hy
    refine ⟨b.rowPixels y, Bitmap.rowAt_valid hb hy, Bitmap.length_rowPixels hb hy,
      hb.offset_wrap hy, ?_, hb.2.2.2.1, ?_⟩
    · rw [hb.2.2.2.1]; exact b.row_bound hy
    · intro x hx
      refine ⟨?_, Bitmap.pixelAt_valid hb hx hy⟩
      unfold Bitmap.rowPixels
      simp [List.getD_eq_getElem?_getD, List.getElem?_take, hx, List.getElem?_drop]

/-- The scenario of the tests: on the 2x2 bitmap `rowAt(3)` fails with
`InvalidCoordinate(Y, 3)`, and `rowAt(0)` and `rowAt(1)` return rows of 2 pixels. -/
theorem Bitmap.rowAt_spec_witness :
    squareBitmap.Valid target64 ∧
    squareBitmap.rowAt target64 3 = .error (.invalidCoordinate .Y 3) ∧
    (∃ row, squareBitmap.rowAt target64 0 = .ok row ∧ row.length = 2) ∧
    (∃ row, squareBitmap.rowAt target64 1 = .ok row ∧ row.length = 2) := by
  refine ⟨by decide, ?_, ?_, ?_⟩
  · exact (Bitmap.rowAt_spec target64 squareBitmap (by decide) 3).1.2 (by decide)
  · obtain ⟨row, h1, h2, -⟩ :=
      (Bitmap.rowAt_spec target64 squareBitmap (by decide) 0).2 (by decide)
    exact ⟨row, h1, h2⟩
  · obtain ⟨row, h1, h2, -⟩ :=
      (Bitmap.rowAt_spec target64 squareBitmap (by decide) 1).2 (by decide)
    exact ⟨row, h1, h2⟩

/-- C20: `pixelAt(x, y)` fails with `InvalidCoordinate(X, x)` whenever `x >= width`,
whatever `y` is; it fails with `InvalidCoordinate(Y, y)` when `x < width` and
`y >= height`; otherwise it returns the pixel stored at buffer index `y * width + x`,
an index that the machine arithmetic computes without wrap-around and that is below
`width * height`, the length of the buffer. -/
theorem Bitmap.pixelAt_spec (t : Target) (b : Bitmap) (hb : b.Valid t) (x y : Nat) :
    (x ≥ b.width → b.pixelAt t x y = .error (.invalidCoordinate .X x)) ∧
    (x < b.width → y ≥ b.height → b.pixelAt t x y = .error (.invalidCoordinate .Y y)) ∧
    (x < b.width → y < b.height →
      wrapWord t (wrapWord t (y * b.width) + x) = y * b.width + x ∧
      y * b.width + x < b.width * b.height ∧
      b.data.length = b.width * b.height ∧
      ∃ p, b.data[y * b.width + x]? = some p ∧ b.pixelAt t x y = .ok p) := by
  refine ⟨?_, ?_, ?_⟩
  · intro hx
    unfold Bitmap.pixelAt
    rw [if_pos hx]
  · intro hx hy
    unfold Bitmap.pixelAt
    rw [if_neg (by omega), if_pos hy]
  · intro hx hy
    have hrow := b.row_bound hy
    have hmax := hb.2.2.1
    have hlen := hb.2.2.2.1
    have hidx : wrapWord t (wrapWord t (y * b.width) + x) = y * b.width + x := by
      rw [hb.offset_wrap hy, wrapWord_of_le_max t _ (by omega)]
    have hlt : y * b.width + x < b.data.length := by omega
    refine ⟨hidx, by omega, hlen, b.data[y * b.width + x], List.getElem?_eq_getElem hlt, ?_⟩
    unfold Bitmap.pixelAt
    rw [if_neg (by omega), if_neg (by omega), hidx, List.getD_eq_getElem?_getD,
      List.getElem?_eq_getElem hlt]
    rfl

/-- The scenario of the tests: on the 2x2 bitmap `pixelAt(1, 3)` fails with
`InvalidCoordinate(Y, 3)` and `pixelAt(3, 1)` with `InvalidCoordinate(X, 3)`. -/
theorem Bitmap.pixelAt_spec_witness :
    squareBitmap.Valid target64 ∧
    squareBitmap.pixelAt target64 1 3 = .error (.invalidCoordinate .Y 3) ∧
    squareBitmap.pixelAt target64 3 1 = .error (.invalidCoordinate .X 3) :=
  ⟨by decide,
    (Bitmap.pixelAt_spec target64 squareBitmap (by decide) 1 3).2.1 (by decide) (by decide),
    (Bitmap.pixelAt_spec target64 squareBitmap (by decide) 3 1).1 (by decide)⟩

/-! ### A fresh CompressedBitmap and `isEmptyRowAt` -/

/-- C21: for a valid size `(w, h)` the constructor `CompressedBitmap(w, h)` succeeds; the
result reports width `w` and height `h`, its pixel data has no word, and
`isEmptyRowAt(y)` is true for every `y < h`. -/
theorem CompressedBitmap.create_empty (t : Target) (w h : Nat) (hw : 1 ≤ w) (hh : 1 ≤ h)
    (hwh : w * h ≤ maxUSize t) :
    ∃ c, CompressedBitmap.create t w h = .ok c ∧ c.width = w ∧ c.height = h ∧
      c.pixelData.wordCount = 0 ∧ ∀ y, y < h → c.isEmptyRowAt t y = .ok true := by
  refine ⟨_, CompressedBitmap.create_of_valid_dims t w h hw hh hwh, rfl, rfl, rfl, ?_⟩
  intro y hy
  unfold CompressedBitmap.isEmptyRowAt
  rw [if_neg (by show ¬ y ≥ h; omega)]
  show Except.ok (!(BitSet.create t h).test t y) = _
  rw [BitSet.test_create]
  rfl

/-- The scenario of the tests: the rows 0 and 1 of `CompressedBitmap(2, 2)` are empty. -/
theorem CompressedBitmap.create_empty_witness :
    ∃ c, CompressedBitmap.create target64 2 2 = .ok c ∧ c.width = 2 ∧ c.height = 2 ∧
      c.pixelData.wordCount = 0 ∧ c.isEmptyRowAt target64 0 = .ok true ∧
      c.isEmptyRowAt target64 1 = .ok true := by
  obtain ⟨c, h1, h2, h3, h4, h5⟩ :=
    CompressedBitmap.create_empty target64 2 2 (by decide) (by decide) (by decide)
  exact ⟨c, h1, h2, h3, h4, h5 0 (by decide), h5 1 (by decide)⟩

/-- C22: `isEmptyRowAt(y)` fails with `InvalidCoordinate(Y, y)` exactly when
`y >= height`; for `y < height` it returns the negation of `test(y)` on the row lookup
table, that is, true exactly when bit `y` of the table (bit `W - 1 - y mod W` of word
`y / W`, 0 when the word does not exist) is 0. -/
theorem CompressedBitmap.isEmptyRowAt_spec (t : Target) (c : CompressedBitmap) (y : Nat) :
    (c.isEmptyRowAt t y = .error (.invalidCoordinate .Y y) ↔ y ≥ c.height) ∧
    (y < c.height → c.isEmptyRowAt t y = .ok (!c.rowLookupTable.test t y)) ∧
    (y < c.height →
      (c.isEmptyRowAt t y = .ok true ↔ c.rowLookupTable.test t y = false)) ∧
    c.rowLookupTable.test t y =
      (c.rowLookupTable.words.getD (y / bitsPerWord t) 0).testBit (bitPos t y) := by
  refine ⟨?_, ?_, ?_, BitSet.test_eq t _ y⟩
  · unfold CompressedBitmap.isEmptyRowAt
    constructor
    · intro h
      by_contra hy
      rw [if_neg hy] at h
      cases h
    · intro hy
      rw [if_pos hy]
  · intro hy
    unfold CompressedBitmap.isEmptyRowAt
    rw [if_neg (by omega)]
  · intro hy
    unfold CompressedBitmap.isEmptyRowAt
    rw [if_neg (by omega)]
    cases c.rowLookupTable.test t y <;> simp

/-! ### Empty rows -/

/-- C25: `isEmpty(s)` is true exactly when every pixel of `s` is White; so it is for the
empty sequence, for `FF` and for eight `FF`, and it is not for `AA` and for
`FF FF FF FF DE AD BE EF`. -/
theorem isEmpty_spec :
    (∀ s : List Nat, isEmpty s = true ↔ ∀ p ∈ s, p = White) ∧
    isEmpty [] = true ∧
    isEmpty [0xFF] = true ∧
    isEmpty [0xFF, 0xFF, 0xFF, 0xFF, 0xFF, 0xFF, 0xFF, 0xFF] = true ∧
    isEmpty [0xAA] = false ∧
    isEmpty [0xFF, 0xFF, 0xFF, 0xFF, 0xDE, 0xAD, 0xBE, 0xEF] = false :=
  ⟨isEmpty_iff, by decide, by decide, by decide, by decide, by decide⟩

/-! ### Pixel blocks under mixed byte orders -/

/-- C28: splitting with the other byte order than the one used to combine returns the
four pixels reversed: `splitBigEndian(combineLittleEndian(p0, p1, p2, p3))` and
`splitLittleEndian(combineBigEndian(p0, p1, p2, p3))` are both `[p3, p2, p1, p0]`. -/
theorem split_combine_crossed (p0 p1 p2 p3 : Nat) (h0 : p0 < 256) (h1 : p1 < 256)
    (h2 : p2 < 256) (h3 : p3 < 256) :
    splitBigEndian (combineLittleEndian p0 p1 p2 p3) = (p3, p2, p1, p0) ∧
    splitLittleEndian (combineBigEndian p0 p1 p2 p3) = (p3, p2, p1, p0) := by
  constructor
  · simp only [combineLittleEndian_eq p0 p1 p2 p3 h0 h1 h2 h3, splitBigEndian, toPixel,
      Nat.shiftRight_eq_div_pow, Prod.mk.injEq]
    omega
  · simp only [combineBigEndian_eq p0 p1 p2 p3 h0 h1 h2 h3, splitLittleEndian, toPixel,
      Nat.shiftRight_eq_div_pow, Prod.mk.injEq]
    omega

/-- The pixels `DE AD BE EF` come back as `EF BE AD DE` under mixed byte orders. -/
theorem split_combine_crossed_witness :
    splitBigEndian (combineLittleEndian 0xDE 0xAD 0xBE 0xEF) = (0xEF, 0xBE, 0xAD, 0xDE) ∧
    splitLittleEndian (combineBigEndian 0xDE 0xAD 0xBE 0xEF) = (0xEF, 0xBE, 0xAD, 0xDE) :=
  split_combine_crossed 0xDE 0xAD 0xBE 0xEF (by decide) (by decide) (by decide) (by decide)

/-! ### Compressing a single pixel -/

/-- The bits of a BitSet of one word that holds only its most significant bit. -/
theorem BitSet.test_msb_word (t : Target) (j : Nat) :
    (⟨[2 ^ (bitsPerWord t - 1)]⟩ : BitSet).test t j = decide (j = 0) := by
  have hp := bitsPerWord_pos t
  rw [BitSet.test_eq]
  by_cases hj : j < bitsPerWord t
  · rw [Nat.div_eq_of_lt hj]
    show (2 ^ (bitsPerWord t - 1)).testBit (bitPos t j) = _
    rw [Nat.testBit_two_pow]
    unfold bitPos
    rw [Nat.mod_eq_of_lt hj]
    by_cases h0 : j = 0
    · simp [h0]
    · have : bitsPerWord t - 1 ≠ bitsPerWord t - 1 - j := by omega
      simp [h0, this]
  · have h1 : 1 ≤ j / bitsPerWord t := by
      rw [Nat.le_div_iff_mul_le hp]; omega
    rw [List.getD_eq_default _ _ (by simpa using h1)]
    have : j ≠ 0 := by omega
    simp [this]

theorem compress_whitePixelBitmap (t : Target) :
    compress t whitePixelBitmap = .ok (⟨⟨1, 1⟩, ⟨[0]⟩, ⟨[]⟩⟩, [(0, 1), (1, 1)]) := by
  obtain ⟨wordSize, byteOrder⟩ := t
  cases wordSize <;> cases byteOrder <;> rfl

theorem compress_blackPixelBitmap (t : Target) :
    compress t blackPixelBitmap =
      .ok (⟨⟨1, 1⟩, ⟨[2 ^ (bitsPerWord t - 1)]⟩, ⟨[2 ^ (bitsPerWord t - 1)]⟩⟩,
        [(0, 1), (1, 1)]) := by
  obtain ⟨wordSize, byteOrder⟩ := t
  cases wordSize <;> cases byteOrder <;> rfl

/-- C26: compressing the 1x1 bitmap whose pixel is White gives lookup bit 0 = 0 and pixel
data of 0 words; compressing the 1x1 bitmap whose pixel is Black gives lookup bit 0 = 1
and pixel data of exactly one word, whose bits 0 and 1 are `1 0` and whose other bits
are 0: the pixel is padded with three Black pixels, which makes the block `BlackBlock`. -/
theorem compress_single_pixel (t : Target) :
    (∃ c log, compress t whitePixelBitmap = .ok (c, log) ∧
      c.rowLookupTable.test t 0 = false ∧ c.pixelData.wordCount = 0) ∧
    (∃ c log, compress t blackPixelBitmap = .ok (c, log) ∧
      c.rowLookupTable.test t 0 = true ∧ c.pixelData.wordCount = 1 ∧
      c.pixelData.test t 0 = true ∧ c.pixelData.test t 1 = false ∧
      ∀ j, 2 ≤ j → c.pixelData.test t j = false) ∧
    (∀ e : Encoder, e.encode t [Black] = e.write t (BlackBlock t)) ∧
    Spec.blockCode t (BlackBlock t) = [true, false] := by
  refine ⟨⟨_, _, compress_whitePixelBitmap t, ?_, rfl⟩,
    ⟨_, _, compress_blackPixelBitmap t, ?_, rfl, ?_, ?_, ?_⟩, fun e => rfl, ?_⟩
  · rw [BitSet.test_eq, Nat.zero_div]
    exact Nat.zero_testBit _
  · rw [BitSet.test_msb_word]; rfl
  · rw [BitSet.test_msb_word]; rfl
  · rw [BitSet.test_msb_word]; rfl
  · intro j hj
    rw [BitSet.test_msb_word]
    have : j ≠ 0 := by omega
    simp [this]
  · unfold Spec.blockCode
    rw [BlackBlock_eq, WhiteBlock_eq]
    rfl

/-! ### Tail padding -/

theorem Spec.padBlack_cons4 (p0 p1 p2 p3 : Nat) (rest : List Nat) :
    Spec.padBlack (p0 :: p1 :: p2 :: p3 :: rest) = p0 :: p1 :: p2 :: p3 :: Spec.padBlack rest := by
  unfold Spec.padBlack
  simp only [List.length_cons, List.cons_append]
  rw [show rest.length + 1 + 1 + 1 + 1 = rest.length + 4 from rfl, Nat.add_mod_right]

theorem Encoder.encode_eq_padBlack (t : Target) (e : Encoder) (s : List Nat) :
    e.encode t s = e.encode t (Spec.padBlack s) := by
  induction s using Spec.blocks.induct t generalizing e with
  | case1 p0 p1 p2 p3 rest ih =>
    rw [Spec.padBlack_cons4, Encoder.encode, Encoder.encode]
    exact ih _
  | case2 p0 p1 p2 => rfl
  | case3 p0 p1 => rfl
  | case4 p0 => rfl
  | case5 => rfl

/-- The method `encode` writes the blocks of the sequence, one `write` per block. -/
theorem Encoder.encode_eq_foldl_write (t : Target) (e : Encoder) (s : List Nat) :
    e.encode t s = (Spec.blocks t s).foldl (Encoder.write t) e := by
  induction s using Spec.blocks.induct t generalizing e with
  | case1 p0 p1 p2 p3 rest ih =>
    rw [Encoder.encode, Spec.blocks, List.foldl_cons]
    exact ih _
  | case2 p0 p1 p2 => rfl
  | case3 p0 p1 => rfl
  | case4 p0 => rfl
  | case5 => rfl

theorem Spec.length_blocks (t : Target) (s : List Nat) :
    (Spec.blocks t s).length = (s.length + 3) / 4 := by
  induction s using Spec.blocks.induct t with
  | case1 p0 p1 p2 p3 rest ih =>
    rw [Spec.blocks, List.length_cons, ih]
    simp only [List.length_cons]
    omega
  | case2 p0 p1 p2 => simp [Spec.blocks]
  | case3 p0 p1 => simp [Spec.blocks]
  | case4 p0 => simp [Spec.blocks]
  | case5 => rfl

/-- C29: encoding a pixel sequence gives the same encoder, BitSet contents and cursor,
as encoding the sequence extended with Black pixels up to the next multiple of 4, which
are 1 to 3 pixels when the length is not a multiple of 4 and none when it is; `encode`
makes one `write` per block, `⌈length / 4⌉` in all, so that a sequence whose length is a
multiple of 4 gets no extra block. -/
theorem Encoder.encode_padBlack (t : Target) (e : Encoder) (s : List Nat) :
    e.encode t s = e.encode t (Spec.padBlack s) ∧
    (Spec.padBlack s).length % 4 = 0 ∧
    (∃ k, Spec.padBlack s = s ++ List.replicate k Black ∧
      (s.length % 4 ≠ 0 → 1 ≤ k ∧ k ≤ 3) ∧ (s.length % 4 = 0 → k = 0)) ∧
    e.encode t s = (Spec.blocks t s).foldl (Encoder.write t) e ∧
    (Spec.blocks t s).length = (s.length + 3) / 4 ∧
    (s.length % 4 = 0 → (Spec.blocks t s).length = s.length / 4) := by
  refine ⟨Encoder.encode_eq_padBlack t e s, ?_, ⟨_, rfl, ?_, ?_⟩,
    Encoder.encode_eq_foldl_write t e s, Spec.length_blocks t s, ?_⟩
  · unfold Spec.padBlack
    rw [List.length_append, List.length_replicate]
    omega
  · intro h; omega
  · intro h; omega
  · intro h
    rw [Spec.length_blocks]
    omega

/-! ### The frame of `encode` -/

/-- The bits and the cursor after `encode`, when the cursor stays below `2 ^ W`. -/
theorem Encoder.encode_frame (t : Target) (e : Encoder) (s : List Nat)
    (h : e.index + (Spec.encodeBits t s).length < wordModulus t) :
    (∀ j, (e.encode t s).output.test t j =
      if e.index ≤ j ∧ j < e.index + (Spec.encodeBits t s).length
      then (Spec.encodeBits t s).getD (j - e.index) false else e.output.test t j) ∧
    (e.encode t s).index = e.index + (Spec.encodeBits t s).length := by
  have hs := Encoder.encode_spec t e s
  constructor
  · intro j
    have hj := congrFun hs.1 j
    rw [Spec.storeBits_of_le t _ _ _ (by omega)] at hj
    exact hj
  · rw [hs.2, advance_of_lt t _ _ h]

/-- The length of the code of one block is 1, 2 or 34. -/
theorem Spec.length_blockCode (t : Target) (block : Nat) :
    (Spec.blockCode t block).length = 1 ∨ (Spec.blockCode t block).length = 2 ∨
      (Spec.blockCode t block).length = 34 := by
  unfold Spec.blockCode
  split
  · exact Or.inl rfl
  · split
    · exact Or.inr (Or.inl rfl)
    · refine Or.inr (Or.inr ?_)
      rw [List.length_cons, List.length_cons, Spec.length_bitsDown]

theorem encode_longPixels_index :
    (Encoder.encode target32 ⟨⟨[]⟩, 0⟩ longPixels).index = 16 := by
  rw [(Encoder.encode_spec target32 ⟨⟨[]⟩, 0⟩ longPixels).2, length_encodeBits_longPixels,
    advance_eq_wrapWord target32 _ _ (by decide)]
  decide

/-- C30: as long as the cursor stays below `2 ^ W`, `encode` from cursor `c` writes the
code bits to the positions `c .. c + len - 1`, whatever they held, leaves every other
position as it was, and ends with the cursor at `c + len`, where `len` is the sum of the
code lengths 1, 2 or 34 of the blocks. Past `2 ^ W` the cursor wraps: on the 32-bit
target the code of the 505290272 pixels `0x01` has 4294967312 bits, and after `encode`
from a fresh encoder the cursor is 16 and bit 0 is 0 where the code has 1. -/
theorem Encoder.encode_frame_wraps :
    (∀ (t : Target) (e : Encoder) (s : List Nat),
      e.index + (Spec.encodeBits t s).length < wordModulus t →
      (∀ j, (e.encode t s).output.test t j =
        if e.index ≤ j ∧ j < e.index + (Spec.encodeBits t s).length
        then (Spec.encodeBits t s).getD (j - e.index) false else e.output.test t j) ∧
      (e.encode t s).index = e.index + (Spec.encodeBits t s).length) ∧
    (∀ (t : Target) (block : Nat), (Spec.blockCode t block).length = 1 ∨
      (Spec.blockCode t block).length = 2 ∨ (Spec.blockCode t block).length = 34) ∧
    ((Spec.encodeBits target32 longPixels).length = 4294967312 ∧
      (Encoder.encode target32 ⟨⟨[]⟩, 0⟩ longPixels).index = 16 ∧
      (Spec.encodeBits target32 longPixels).getD (0 - 0) false = true ∧
      (Encoder.encode target32 ⟨⟨[]⟩, 0⟩ longPixels).output.test target32 0 = false) :=
  ⟨Encoder.encode_frame, Spec.length_blockCode,
    length_encodeBits_longPixels, encode_longPixels_index, head_encodeBits_longPixels,
    encode_longPixels_test_zero⟩

/-! ### The pixel data of `compress` -/

/-- The pixel data of `compress(B)` holds the codes of the rows of `B` that are not
empty, one after the other, when they have at most `2 ^ W` bits in all. -/
theorem compress_pixelData (t : Target) (b : Bitmap) (hb : b.Valid t)
    (h : (Spec.rowsCode t (Spec.nonEmptyRows b 0 b.height)).length ≤ wordModulus t) :
    ∃ c log, compress t b = .ok (c, log) ∧ c.width = b.width ∧ c.height = b.height ∧
      ∀ j, c.pixelData.test t j =
        (Spec.rowsCode t (Spec.nonEmptyRows b 0 b.height)).getD j false := by
  obtain ⟨lookup, hc, -⟩ := compress_spec t b hb
  refine ⟨_, _, hc, rfl, rfl, ?_⟩
  intro j
  exact Encoder.encodeRows_test t _ h j

theorem rowsCode_longBitmap_head :
    (Spec.rowsCode target32 (Spec.nonEmptyRows longBitmap 0 longBitmap.height)).getD 0 false =
      true := by
  rw [nonEmptyRows_longBitmap, Spec.rowsCode, Spec.rowsCode, List.append_nil]
  exact head_encodeBits_longPixels

theorem rowsCode_longBitmap_length :
    (Spec.rowsCode target32 (Spec.nonEmptyRows longBitmap 0 longBitmap.height)).length =
      4294967312 := by
  rw [nonEmptyRows_longBitmap, Spec.rowsCode, Spec.rowsCode, List.append_nil]
  exact length_encodeBits_longPixels

theorem CompressedBitmap.pixelData_mk (size : BitmapSize) (lookup data : BitSet) :
    (CompressedBitmap.mk size lookup data).pixelData = data := rfl

/-- C23: `compress(B)` has the width and height of `B`, and as long as the codes of the
rows of `B` that are not empty, taken in increasing `y`, have at most `2 ^ W` bits in
all, bit `j` of its pixel data is bit `j` of their concatenation, and 0 past its end
(the 1x1 White bitmap gives a 1x1 result). Past `2 ^ W` bits the cursor of the encoder
wraps: on the 32-bit target the valid one-row bitmap of 505290272 pixels `0x01` has a
code of 4294967312 bits that starts with 1, and bit 0 of the pixel data is 0. -/
theorem compress_pixelData_wraps :
    (∀ (t : Target) (b : Bitmap), Bitmap.Valid t b →
      (Spec.rowsCode t (Spec.nonEmptyRows b 0 b.height)).length ≤ wordModulus t →
      ∃ c log, compress t b = .ok (c, log) ∧ c.width = b.width ∧ c.height = b.height ∧
        ∀ j, c.pixelData.test t j =
          (Spec.rowsCode t (Spec.nonEmptyRows b 0 b.height)).getD j false) ∧
    (∃ c log, compress target64 whitePixelBitmap = .ok (c, log) ∧ c.width = 1 ∧
      c.height = 1) ∧
    (longBitmap.Valid target32 ∧
      (Spec.rowsCode target32 (Spec.nonEmptyRows longBitmap 0 longBitmap.height)).length =
        4294967312 ∧
      (Spec.rowsCode target32 (Spec.nonEmptyRows longBitmap 0 longBitmap.height)).getD 0
        false = true ∧
      ∃ c log, compress target32 longBitmap = .ok (c, log) ∧
        c.width = longBitmap.width ∧ c.height = longBitmap.height ∧
        c.pixelData.test target32 0 = false) := by
  refine ⟨compress_pixelData, ⟨_, _, compress_whitePixelBitmap target64, rfl, rfl⟩,
    longBitmap_valid, rowsCode_longBitmap_length, rowsCode_longBitmap_head, ?_⟩
  obtain ⟨lookup, log, -, hc⟩ := compress_longBitmap
  refine ⟨_, log, hc, rfl, rfl, ?_⟩
  rw [CompressedBitmap.pixelData_mk]
  exact encode_longPixels_test_zero

/-! ### The progress calls -/

theorem Decoder.length_decode (t : Target) (d : Decoder) (span : List Nat) :
    (d.decode t span).1.length = span.length := by
  induction span using Spec.blocks.induct t generalizing d with
  | case1 p0 p1 p2 p3 rest ih =>
    rw [Decoder.decode]
    simp only [List.length_cons]
    rw [ih]
  | case2 p0 p1 p2 => rfl
  | case3 p0 p1 => rfl
  | case4 p0 => rfl
  | case5 => rfl

theorem length_take_append_drop (data px : List Nat) (off : Nat)
    (h1 : off + px.length ≤ data.length) :
    (data.take off ++ px ++ data.drop (off + px.length)).length = data.length := by
  rw [List.length_append, List.length_append, List.length_take, List.length_drop]
  omega

theorem readSpan_of_le (reader span : List Nat) (h : span.length ≤ reader.length) :
    readSpan reader span = .ok (reader.take span.length, reader.drop span.length) := by
  have := readSpan_exact (reader.take span.length) span (reader.drop span.length)
    (by rw [List.length_take]; omega)
  rw [List.take_append_drop] at this
  exact this

theorem readWord_drop (reader : List Nat) (n : Nat) (h : n < reader.length) :
    readWord (reader.drop n) = .ok (reader.getD n 0, reader.drop (n + 1)) := by
  rw [List.drop_eq_getElem_cons h, readWord, List.getD_eq_getElem?_getD,
    List.getElem?_eq_getElem h]
  rfl

theorem readWord_drop_of_le (reader : List Nat) (n : Nat) (h : reader.length ≤ n) :
    readWord (reader.drop n) = .error .readFailed := by
  rw [List.drop_eq_nil_of_le h]
  rfl

/-- A source of fewer than two words makes `load` fail with the error of the source. -/
theorem load_short (t : Target) (reader : Reader) (h : reader.length < 2) :
    load t reader = .error .readFailed := by
  unfold load
  rw [CompressedBitmap.create_of_valid_dims t 1 1 (Nat.le_refl 1) (Nat.le_refl 1)
    (one_le_maxUSize t)]
  simp only
  unfold BitmapSize.load
  match reader, h with
  | [], _ => rfl
  | [_], _ => rfl

/-- The size check of `load` fails on what the constructor of BitmapSize rejects. -/
theorem load_size_error (t : Target) (w h : Nat) (rest : Reader) (err : Error)
    (hs : BitmapSize.create t w h = .error err) : load t (w :: h :: rest) = .error err := by
  unfold load
  rw [CompressedBitmap.create_of_valid_dims t 1 1 (Nat.le_refl 1) (Nat.le_refl 1)
    (one_le_maxUSize t)]
  simp only
  unfold BitmapSize.load
  simp only [readWord]
  rw [hs]

/-- The function `load` on a source that starts with a valid size: it reads
`align(height, W) / W` lookup words, one word `N` and `N` pixel-data words. -/
theorem load_of_valid_size (t : Target) (w h : Nat) (rest : Reader) (hw : 1 ≤ w) (hh : 1 ≤ h)
    (hwh : w * h ≤ maxUSize t) :
    (rest.length < align t h (bitsPerWord t) / bitsPerWord t + 1 →
      load t (w :: h :: rest) = .error .readFailed) ∧
    (align t h (bitsPerWord t) / bitsPerWord t + 1 ≤ rest.length →
      rest.length < align t h (bitsPerWord t) / bitsPerWord t + 1 +
        rest.getD (align t h (bitsPerWord t) / bitsPerWord t) 0 →
      load t (w :: h :: rest) = .error .readFailed) ∧
    (align t h (bitsPerWord t) / bitsPerWord t + 1 +
        rest.getD (align t h (bitsPerWord t) / bitsPerWord t) 0 ≤ rest.length →
      load t (w :: h :: rest) =
        .ok (⟨⟨w, h⟩, ⟨rest.take (align t h (bitsPerWord t) / bitsPerWord t)⟩,
            ⟨(rest.drop (align t h (bitsPerWord t) / bitsPerWord t + 1)).take
              (rest.getD (align t h (bitsPerWord t) / bitsPerWord t) 0)⟩⟩,
          rest.drop (align t h (bitsPerWord t) / bitsPerWord t + 1 +
            rest.getD (align t h (bitsPerWord t) / bitsPerWord t) 0))) := by
  generalize hL : align t h (bitsPerWord t) / bitsPerWord t = L
  have hload : load t (w :: h :: rest) =
      match BitSet.load rest ⟨resizeWords (BitSet.create t 1).words L⟩ with
      | .error err => .error err
      | .ok (rowLookupTable, reader2) =>
        match readWord reader2 with
        | .error err => .error err
        | .ok (numDataWords, reader3) =>
          match BitSet.load reader3 ⟨resizeWords [] numDataWords⟩ with
          | .error err => .error err
          | .ok (pixelData, reader4) => .ok (⟨⟨w, h⟩, rowLookupTable, pixelData⟩, reader4) := by
    unfold load
    rw [CompressedBitmap.create_of_valid_dims t 1 1 (Nat.le_refl 1) (Nat.le_refl 1)
      (one_le_maxUSize t)]
    simp only
    unfold BitmapSize.load
    simp only [readWord]
    rw [BitmapSize.create_of_valid_size t w h hw hh hwh]
    simp only
    rw [hL]
    rfl
  rw [hload]
  unfold BitSet.load
  refine ⟨?_, ?_, ?_⟩
  · intro hshort
    by_cases hl : L ≤ rest.length
    · rw [readSpan_of_le rest _ (by rw [length_resizeWords]; exact hl)]
      simp only
      rw [length_resizeWords, readWord_drop_of_le rest L (by omega)]
    · rw [readSpan_short _ _ (by rw [length_resizeWords]; omega)]
  · intro h1 h2
    rw [readSpan_of_le rest _ (by rw [length_resizeWords]; omega)]
    simp only
    rw [length_resizeWords, readWord_drop rest L (by omega)]
    simp only
    rw [readSpan_short _ _ (by rw [length_resizeWords, List.length_drop]; omega)]
  · intro h1
    rw [readSpan_of_le rest _ (by rw [length_resizeWords]; omega)]
    simp only
    rw [length_resizeWords, readWord_drop rest L (by omega)]
    simp only
    rw [readSpan_of_le _ _ (by rw [length_resizeWords, List.length_drop]; omega)]
    simp only
    rw [length_resizeWords, List.drop_drop]

theorem load_tall_empty :
    load target32 [1, 4294967295, 0] = .ok (⟨⟨1, 4294967295⟩, ⟨[]⟩, ⟨[]⟩⟩, []) := by
  have h := (load_of_valid_size target32 1 4294967295 [0] (by decide) (by decide)
    (by decide)).2.2
  rw [show align target32 4294967295 (bitsPerWord target32) / bitsPerWord target32 = 0
    from by decide] at h
  exact h (by decide)

/-- C27: `load` fails with the error of the source on fewer than two words; it fails with
`InvalidSize`, `TooSmall` when one of the first two words is 0 and `TooLarge` when their
product overflows, whatever follows them. For a valid size with `height + W - 1` inside
the machine word it reads `L = ⌈height / W⌉` lookup words, one word `N` and `N`
pixel-data words: it fails with the error of the source exactly when the source has
fewer than `3 + L + N` words, and otherwise succeeds, `N = 0` included, leaving what
follows these words. For the larger heights the rounding wraps and `load` reads no
lookup word: on the 32-bit target it succeeds on the three words `1, 4294967295, 0`,
where `⌈height / W⌉` is 134217728. -/
theorem load_lookup_count_overflow :
    (∀ (t : Target) (reader : Reader), reader.length < 2 →
      load t reader = .error .readFailed) ∧
    (∀ (t : Target) (w h : Nat) (rest : Reader), w = 0 ∨ h = 0 →
      load t (w :: h :: rest) = .error (.invalidSize w h .TooSmall)) ∧
    (∀ (t : Target) (w h : Nat) (rest : Reader), ¬ (w = 0 ∨ h = 0) → maxUSize t < w * h →
      load t (w :: h :: rest) = .error (.invalidSize w h .TooLarge)) ∧
    (∀ (t : Target) (w h : Nat) (rest : Reader), 1 ≤ w → 1 ≤ h → w * h ≤ maxUSize t →
      h + (bitsPerWord t - 1) < wordModulus t →
      (rest.length < Spec.lookupWordCount t h + 1 →
        load t (w :: h :: rest) = .error .readFailed) ∧
      (Spec.lookupWordCount t h + 1 ≤ rest.length →
        rest.length < Spec.lookupWordCount t h + 1 +
          rest.getD (Spec.lookupWordCount t h) 0 →
        load t (w :: h :: rest) = .error .readFailed) ∧
      (Spec.lookupWordCount t h + 1 + rest.getD (Spec.lookupWordCount t h) 0 ≤
          rest.length →
        load t (w :: h :: rest) =
          .ok (⟨⟨w, h⟩, ⟨rest.take (Spec.lookupWordCount t h)⟩,
              ⟨(rest.drop (Spec.lookupWordCount t h + 1)).take
                (rest.getD (Spec.lookupWordCount t h) 0)⟩⟩,
            rest.drop (Spec.lookupWordCount t h + 1 +
              rest.getD (Spec.lookupWordCount t h) 0)))) ∧
    (1 * 4294967295 ≤ maxUSize target32 ∧
      Spec.lookupWordCount target32 4294967295 = 134217728 ∧
      load target32 [1, 4294967295, 0] = .ok (⟨⟨1, 4294967295⟩, ⟨[]⟩, ⟨[]⟩⟩, [])) := by
  refine ⟨load_short, ?_, ?_, ?_, by decide, by decide, load_tall_empty⟩
  · intro t w h rest hz
    apply load_size_error
    unfold BitmapSize.create
    rw [if_pos hz]
  · intro t w h rest hz hl
    apply load_size_error
    unfold BitmapSize.create
    rw [if_neg hz, if_pos ((div_lt_iff_max_lt_mul t w h (by omega)).2 hl)]
  · intro t w h rest hw hh hwh hfit
    have := load_of_valid_size t w h rest hw hh hwh
    rw [align_div t h hfit] at this
    exact this

/-! ### Pixel blocks: `combine` after `split` -/

/-- C34: for every 32-bit block `b`, `combine` of the four pixels of `split(b)` is `b`,
for the little-endian pair and for the big-endian pair; the four pixels are 8-bit values,
and they are the only four pixels that `combine` maps to `b`, so that `combine` is a
bijection between the 4-tuples of pixels and the 32-bit blocks, with inverse `split`. -/
theorem combine_split_both (b : Nat) (hb : b < 2 ^ 32) :
    combineLittleEndian (splitLittleEndian b).1 (splitLittleEndian b).2.1
      (splitLittleEndian b).2.2.1 (splitLittleEndian b).2.2.2 = b ∧
    combineBigEndian (splitBigEndian b).1 (splitBigEndian b).2.1
      (splitBigEndian b).2.2.1 (splitBigEndian b).2.2.2 = b ∧
    ((splitLittleEndian b).1 < 256 ∧ (splitLittleEndian b).2.1 < 256 ∧
      (splitLittleEndian b).2.2.1 < 256 ∧ (splitLittleEndian b).2.2.2 < 256) ∧
    ((splitBigEndian b).1 < 256 ∧ (splitBigEndian b).2.1 < 256 ∧
      (splitBigEndian b).2.2.1 < 256 ∧ (splitBigEndian b).2.2.2 < 256) ∧
    (∀ p0 p1 p2 p3 : Nat, p0 < 256 → p1 < 256 → p2 < 256 → p3 < 256 →
      combineLittleEndian p0 p1 p2 p3 = b → splitLittleEndian b = (p0, p1, p2, p3)) ∧
    (∀ p0 p1 p2 p3 : Nat, p0 < 256 → p1 < 256 → p2 < 256 → p3 < 256 →
      combineBigEndian p0 p1 p2 p3 = b → splitBigEndian b = (p0, p1, p2, p3)) := by
  have hl : (splitLittleEndian b).1 < 256 ∧ (splitLittleEndian b).2.1 < 256 ∧
      (splitLittleEndian b).2.2.1 < 256 ∧ (splitLittleEndian b).2.2.2 < 256 := by
    simp only [splitLittleEndian, toPixel]
    omega
  have hg : (splitBigEndian b).1 < 256 ∧ (splitBigEndian b).2.1 < 256 ∧
      (splitBigEndian b).2.2.1 < 256 ∧ (splitBigEndian b).2.2.2 < 256 := by
    simp only [splitBigEndian, toPixel]
    omega
  refine ⟨?_, ?_, hl, hg, ?_, ?_⟩
  · rw [combineLittleEndian_eq _ _ _ _ hl.1 hl.2.1 hl.2.2.1 hl.2.2.2]
    simp only [splitLittleEndian, toPixel, Nat.shiftRight_eq_div_pow]
    omega
  · rw [combineBigEndian_eq _ _ _ _ hg.1 hg.2.1 hg.2.2.1 hg.2.2.2]
    simp only [splitBigEndian, toPixel, Nat.shiftRight_eq_div_pow]
    omega
  · intro p0 p1 p2 p3 h0 h1 h2 h3 hc
    rw [← hc]
    simp only [combineLittleEndian_eq p0 p1 p2 p3 h0 h1 h2 h3, splitLittleEndian, toPixel,
      Nat.shiftRight_eq_div_pow, Prod.mk.injEq]
    omega
  · intro p0 p1 p2 p3 h0 h1 h2 h3 hc
    rw [← hc]
    simp only [combineBigEndian_eq p0 p1 p2 p3 h0 h1 h2 h3, splitBigEndian, toPixel,
      Nat.shiftRight_eq_div_pow, Prod.mk.injEq]
    omega

/-- The block `DEADBEEF` is the combination of its four pixels under both byte orders. -/
theorem combine_split_both_witness :
    combineLittleEndian (splitLittleEndian 0xDEADBEEF).1 (splitLittleEndian 0xDEADBEEF).2.1
      (splitLittleEndian 0xDEADBEEF).2.2.1 (splitLittleEndian 0xDEADBEEF).2.2.2 =
        0xDEADBEEF ∧
    combineBigEndian (splitBigEndian 0xDEADBEEF).1 (splitBigEndian 0xDEADBEEF).2.1
      (splitBigEndian 0xDEADBEEF).2.2.1 (splitBigEndian 0xDEADBEEF).2.2.2 = 0xDEADBEEF :=
  ⟨(combine_split_both 0xDEADBEEF (by decide)).1,
    (combine_split_both 0xDEADBEEF (by decide)).2.1⟩

/-! ### The frame of `clear` -/

theorem BitSet.length_clear (t : Target) (b : BitSet) (i : Nat) :
    (b.clear t i).words.length = b.words.length := by
  unfold BitSet.clear
  simp only
  split
  · rfl
  · rw [List.length_set]

/-- C36: `clear(i)` never changes the word count and leaves `test(j)` as it was for every
`j` different from `i`: every word other than word `i / W` keeps its value, and in that
word every bit other than bit `i` does. -/
theorem BitSet.clear_frame (t : Target) (b : BitSet) (i : Nat) :
    (b.clear t i).wordCount = b.wordCount ∧
    (∀ j, j ≠ i → (b.clear t i).test t j = b.test t j) ∧
    (∀ k, k ≠ i / bitsPerWord t → (b.clear t i).words.getD k 0 = b.words.getD k 0) ∧
    (∀ p, p < bitsPerWord t → p ≠ bitPos t i →
      ((b.clear t i).words.getD (i / bitsPerWord t) 0).testBit p =
        (b.words.getD (i / bitsPerWord t) 0).testBit p) := by
  refine ⟨BitSet.length_clear t b i, ?_, ?_, ?_⟩
  · intro j hj
    rw [BitSet.test_clear]
    have : ¬ i = j := fun h => hj h.symm
    simp [this]
  · intro k hk
    rw [BitSet.getD_clear_words, if_neg hk]
  · intro p hp hne
    rw [BitSet.getD_clear_words, if_pos rfl]
    unfold wordNot maxUSize wordModulus
    rw [Nat.testBit_and, Nat.testBit_xor, Nat.testBit_two_pow, Nat.testBit_two_pow_sub_one]
    have : ¬ bitPos t i = p := fun h => hne h.symm
    simp [this, hp]

/-! ### The length of the code -/

theorem Spec.length_blocksCode_bounds (t : Target) (bs : List Nat) :
    bs.length ≤ (Spec.blocksCode t bs).length ∧
      (Spec.blocksCode t bs).length ≤ 34 * bs.length := by
  induction bs with
  | nil => exact ⟨Nat.le_refl _, Nat.le_refl _⟩
  | cons x xs ih =>
    rw [Spec.blocksCode, List.length_append, List.length_cons]
    have := Spec.length_blockCode t x
    omega

/-- The code of `n` pixels has between `⌈n / 4⌉` and `34 * ⌈n / 4⌉` bits. -/
theorem Spec.length_encodeBits_bounds (t : Target) (s : List Nat) :
    (s.length + 3) / 4 ≤ (Spec.encodeBits t s).length ∧
      (Spec.encodeBits t s).length ≤ 34 * ((s.length + 3) / 4) := by
  unfold Spec.encodeBits
  rw [← Spec.length_blocks t s]
  exact Spec.length_blocksCode_bounds t _

theorem Spec.length_rowsCode_le (t : Target) (w : Nat) (rows : List (List Nat))
    (h : ∀ r ∈ rows, r.length = w) :
    (Spec.rowsCode t rows).length ≤ 34 * ((w + 3) / 4) * rows.length := by
  induction rows with
  | nil => exact Nat.le_refl _
  | cons r rs ih =>
    rw [Spec.rowsCode, List.length_append, List.length_cons, Nat.mul_succ]
    have h1 := (Spec.length_encodeBits_bounds t r).2
    rw [h r (List.mem_cons_self _ _)] at h1
    have h2 := ih (fun x hx => h x (List.mem_cons_of_mem _ hx))
    omega

theorem Spec.length_of_mem_nonEmptyRows {t : Target} {b : Bitmap} (hb : b.Valid t) :
    ∀ (n y : Nat), y + n ≤ b.height → ∀ r ∈ Spec.nonEmptyRows b y n, r.length = b.width := by
  intro n
  induction n with
  | zero =>
    intro y _ r hr
    rw [Spec.nonEmptyRows] at hr
    cases hr
  | succ n ih =>
    intro y hy r hr
    rw [Spec.nonEmptyRows] at hr
    split at hr
    · exact ih (y + 1) (by omega) r hr
    · rcases List.mem_cons.1 hr with h | h
      · rw [h]; exact Bitmap.length_rowPixels hb (by omega)
      · exact ih (y + 1) (by omega) r h

/-- C35: `encode` of `n` pixels makes `len` increments of the cursor, where `len`, the
length of the code, lies between `⌈n / 4⌉` and `34 * ⌈n / 4⌉` (the cursor ends at
`c + len` when this is below `2 ^ W`); the pixel data of `compress(B)` is written by
`len` increments from cursor 0 where `len`, the sum over the rows that are not empty,
is at most `34 * ⌈w / 4⌉` times their number. -/
theorem Encoder.encode_length_bounds :
    (∀ (t : Target) (e : Encoder) (s : List Nat),
      (e.encode t s).index = advance t e.index (Spec.encodeBits t s).length ∧
      (s.length + 3) / 4 ≤ (Spec.encodeBits t s).length ∧
      (Spec.encodeBits t s).length ≤ 34 * ((s.length + 3) / 4)) ∧
    (∀ (t : Target) (e : Encoder) (s : List Nat),
      e.index + (Spec.encodeBits t s).length < wordModulus t →
      (e.encode t s).index = e.index + (Spec.encodeBits t s).length) ∧
    (∀ (t : Target) (b : Bitmap), Bitmap.Valid t b →
      ∃ c log, compress t b = .ok (c, log) ∧
        c.pixelData =
          ((Spec.nonEmptyRows b 0 b.height).foldl (Encoder.encode t) ⟨⟨[]⟩, 0⟩).output ∧
        ((Spec.nonEmptyRows b 0 b.height).foldl (Encoder.encode t) ⟨⟨[]⟩, 0⟩).index =
          advance t 0 (Spec.rowsCode t (Spec.nonEmptyRows b 0 b.height)).length ∧
        (Spec.rowsCode t (Spec.nonEmptyRows b 0 b.height)).length ≤
          34 * ((b.width + 3) / 4) * (Spec.nonEmptyRows b 0 b.height).length) := by
  refine ⟨?_, ?_, ?_⟩
  · intro t e s
    exact ⟨(Encoder.encode_spec t e s).2, Spec.length_encodeBits_bounds t s⟩
  · intro t e s h
    rw [(Encoder.encode_spec t e s).2, advance_of_lt t _ _ h]
  · intro t b hb
    obtain ⟨lookup, hc, -⟩ := compress_spec t b hb
    refine ⟨_, _, hc, rfl, (Encoder.encodeRows_spec t _ ⟨⟨[]⟩, 0⟩).2, ?_⟩
    exact Spec.length_rowsCode_le t b.width _
      (Spec.length_of_mem_nonEmptyRows hb b.height 0 (by omega))

/-! ### Decoding where every bit read is 0 -/

theorem Decoder.read_zero (t : Target) (b : BitSet) (c : Nat) (h : b.test t c = false) :
    Decoder.read t ⟨b, c⟩ = (WhiteBlock t, ⟨b, advance t c 1⟩) := by
  rw [Decoder.read_eq]
  have h0 : Decoder.stream t ⟨b, c⟩ 0 = false := h
  rw [h0]
  rfl

/-- A decoder that reads a 0 bit at each of the `⌈n / 4⌉` positions it visits fills the
span with White and is advanced by `⌈n / 4⌉` increments. -/
theorem Decoder.decode_zeros (t : Target) (b : BitSet) (span : List Nat) :
    ∀ c : Nat, (∀ k, k < (span.length + 3) / 4 → b.test t (advance t c k) = false) →
      Decoder.decode t ⟨b, c⟩ span =
        (List.replicate span.length White, ⟨b, advance t c ((span.length + 3) / 4)⟩) := by
  induction span using Spec.blocks.induct t with
  | case1 p0 p1 p2 p3 rest ih =>
    intro c hz
    have h0 := hz 0 (by simp only [List.length_cons]; omega)
    rw [Decoder.decode, Decoder.read_zero t b c h0]
    simp only
    rw [split_WhiteBlock, ih (advance t c 1) (by
      intro k hk
      rw [← advance_add]
      exact hz (1 + k) (by simp only [List.length_cons]; omega))]
    simp only [List.length_cons, List.replicate_succ]
    rw [← advance_add, show 1 + (rest.length + 3) / 4 = (rest.length + 1 + 1 + 1 + 1 + 3) / 4
      from by omega]
  | case2 p0 p1 p2 =>
    intro c hz
    have e : ([p0, p1, p2].length + 3) / 4 = 1 := by simp
    rw [e] at hz ⊢
    rw [Decoder.decode, Decoder.read_zero t b c (hz 0 (by decide))]
    simp only
    rw [split_WhiteBlock]
    rfl
  | case3 p0 p1 =>
    intro c hz
    have e : ([p0, p1].length + 3) / 4 = 1 := by simp
    rw [e] at hz ⊢
    rw [Decoder.decode, Decoder.read_zero t b c (hz 0 (by decide))]
    simp only
    rw [split_WhiteBlock]
    rfl
  | case4 p0 =>
    intro c hz
    have e : ([p0].length + 3) / 4 = 1 := by simp
    rw [e] at hz ⊢
    rw [Decoder.decode, Decoder.read_zero t b c (hz 0 (by decide))]
    simp only
    rw [split_WhiteBlock]
    rfl
  | case5 =>
    intro c _
    rfl

/-- Decoding from a cursor behind which all bits are 0, when the cursor stays below
`2 ^ W` until the last bit is read. -/
theorem Decoder.decode_zeros_of_le (t : Target) (b : BitSet) (c : Nat) (span : List Nat)
    (hcw : c < wordModulus t) (hc : c + (span.length + 3) / 4 ≤ wordModulus t)
    (hz : ∀ j, c ≤ j → b.test t j = false) :
    Decoder.decode t ⟨b, c⟩ span =
      (List.replicate span.length White, ⟨b, wrapWord t (c + (span.length + 3) / 4)⟩) := by
  rw [Decoder.decode_zeros t b span c (by
    intro k hk
    rw [advance_of_lt t c k (by omega)]
    exact hz _ (by omega)), advance_eq_wrapWord t c _ hcw]

/-- One-pixel decodes over 0 bits move the cursor by one position each. -/
theorem Decoder.afterSinglePixels_zeros (t : Target) (b : BitSet) :
    ∀ (k c : Nat), c + k < wordModulus t → (∀ j, c ≤ j → j < c + k → b.test t j = false) →
      Decoder.afterSinglePixels t ⟨b, c⟩ k = ⟨b, c + k⟩ := by
  intro k
  induction k with
  | zero => intro c _ _; rfl
  | succ k ih =>
    intro c hc hz
    unfold Decoder.afterSinglePixels
    rw [Function.iterate_succ_apply]
    have hstep : (Decoder.decode t ⟨b, c⟩ [0]).2 = ⟨b, c + 1⟩ := by
      rw [Decoder.decode_zeros t b [0] c (by
        intro j hj
        have hj0 : j = 0 := by
          simp only [List.length_singleton] at hj
          omega
        rw [hj0]
        exact hz c (Nat.le_refl c) (by omega))]
      show (⟨b, advance t c 1⟩ : Decoder) = _
      rw [advance_of_lt t c 1 (by omega)]
    rw [hstep]
    have := ih (c + 1) (by omega) (fun j h1 h2 => hz j (by omega) (by omega))
    unfold Decoder.afterSinglePixels at this
    rw [this, Nat.add_assoc, Nat.add_comm 1 k]

theorem firstBitOnly_test (j : Nat) : firstBitOnly.test target32 j = decide (j = 0) :=
  BitSet.test_msb_word target32 j

theorem decode_firstBitOnly_start :
    Decoder.decode target32 ⟨firstBitOnly, 0⟩ [0] = ([Black], ⟨firstBitOnly, 2⟩) := by
  rfl

set_option maxRecDepth 100000 in
theorem decode_firstBitOnly_wrapped :
    Decoder.decode target32 ⟨firstBitOnly, 4294967295⟩ [0, 0, 0, 0, 0, 0, 0, 0] =
      ([White, White, White, White, Black, Black, Black, Black], ⟨firstBitOnly, 2⟩) := by
  rfl

/-- C31: a decoder that reads a 0 bit at each position it visits fills the span of `n`
pixels with White and is advanced by `⌈n / 4⌉` increments; the result of `decode` always
has the `n` pixels of the span. This covers every cursor `c` behind which all bits are 0
as long as `c + ⌈n / 4⌉` stays within `2 ^ W`. Past that the cursor wraps to positions
below `c`: on the 32-bit target, over the BitSet whose only 1 bit is bit 0, a decoder
that has decoded one pixel (the code `1 0`) and then 4294967293 more single pixels stands
at cursor 4294967295, behind which all bits are 0, and decoding 8 pixels there gives
four White and four Black pixels and leaves the cursor at 2. -/
theorem Decoder.decode_zeros_wraps :
    (∀ (t : Target) (b : BitSet) (c : Nat) (span : List Nat),
      (∀ k, k < (span.length + 3) / 4 → b.test t (advance t c k) = false) →
      Decoder.decode t ⟨b, c⟩ span =
        (List.replicate span.length White, ⟨b, advance t c ((span.length + 3) / 4)⟩)) ∧
    (∀ (t : Target) (b : BitSet) (c : Nat) (span : List Nat),
      c < wordModulus t → c + (span.length + 3) / 4 ≤ wordModulus t →
      (∀ j, c ≤ j → b.test t j = false) →
      Decoder.decode t ⟨b, c⟩ span =
        (List.replicate span.length White, ⟨b, wrapWord t (c + (span.length + 3) / 4)⟩)) ∧
    (∀ (t : Target) (d : Decoder) (span : List Nat),
      (d.decode t span).1.length = span.length) ∧
    (Decoder.decode target32 ⟨firstBitOnly, 0⟩ [0] = ([Black], ⟨firstBitOnly, 2⟩) ∧
      Decoder.afterSinglePixels target32 ⟨firstBitOnly, 2⟩ 4294967293 =
        ⟨firstBitOnly, 4294967295⟩ ∧
      (∀ j, 4294967295 ≤ j → firstBitOnly.test target32 j = false) ∧
      Decoder.decode target32 ⟨firstBitOnly, 4294967295⟩ [0, 0, 0, 0, 0, 0, 0, 0] =
        ([White, White, White, White, Black, Black, Black, Black], ⟨firstBitOnly, 2⟩)) := by
  refine ⟨fun t b c span => Decoder.decode_zeros t b span c, Decoder.decode_zeros_of_le,
    Decoder.length_decode, decode_firstBitOnly_start, ?_, ?_, decode_firstBitOnly_wrapped⟩
  · exact Decoder.afterSinglePixels_zeros target32 firstBitOnly 4294967293 2 (by decide)
      (fun j h1 _ => by
        rw [firstBitOnly_test]
        have : j ≠ 0 := by omega
        simp [this])
  · intro j hj
    rw [firstBitOnly_test]
    have : j ≠ 0 := by omega
    simp [this]

/-! ### The words allocated by the encoder -/

theorem Encoder.writeLoop_eq_foldl (t : Target) (block : Nat) (k fuel : Nat) (e : Encoder)
    (hf : k + 1 ≤ fuel) :
    Encoder.writeLoop t block fuel (2 ^ k) e =
      (Spec.bitsDown block (k + 1)).foldl (Encoder.writeBit t) e := by
  induction k generalizing fuel e with
  | zero =>
    obtain ⟨fuel, rfl⟩ : ∃ f, fuel = f + 1 := ⟨fuel - 1, by omega⟩
    simp only [Encoder.writeLoop, Nat.pow_zero, Nat.one_ne_zero, if_false]
    have h1 : (1 : Nat) >>> 1 = 0 := by decide
    rw [h1]
    have h2 : ∀ e', Encoder.writeLoop t block fuel 0 e' = e' := by
      intro e'; cases fuel <;> simp [Encoder.writeLoop]
    rw [h2]
    have h3 : (block &&& 1 ≠ 0) ↔ block.testBit 0 = true := by
      have := and_two_pow_ne_zero block 0
      simp only [Nat.pow_zero] at this
      rw [← this]; simp
    simp only [Spec.bitsDown, List.foldl_cons, List.foldl_nil, Encoder.writeBit]
    by_cases hb : block.testBit 0 = true
    · rw [if_pos (h3.2 hb), if_pos hb]
    · rw [if_neg (fun h => hb (h3.1 h)), if_neg hb]
  | succ k ih =>
    obtain ⟨fuel, rfl⟩ : ∃ f, fuel = f + 1 := ⟨fuel - 1, by omega⟩
    have hne : (2 : Nat) ^ (k + 1) ≠ 0 := by positivity
    have hs : (2 : Nat) ^ (k + 1) >>> 1 = 2 ^ k := by
      rw [Nat.shiftRight_eq_div_pow, Nat.pow_succ]; simp
    simp only [Encoder.writeLoop, hne, if_false, hs]
    have h3 : (block &&& 2 ^ (k + 1) ≠ 0) ↔ block.testBit (k + 1) = true := by
      rw [← and_two_pow_ne_zero block (k + 1)]; simp
    rw [Spec.bitsDown, List.foldl_cons, ih fuel _ (by omega)]
    congr 1
    unfold Encoder.writeBit
    by_cases hb : block.testBit (k + 1) = true
    · rw [if_pos (h3.2 hb), if_pos hb]
    · rw [if_neg (fun h => hb (h3.1 h)), if_neg hb]

/-- The method `write` emits the bits of the code of the block, one by one. -/
theorem Encoder.write_eq_foldl (t : Target) (e : Encoder) (block : Nat) :
    e.write t block = (Spec.blockCode t block).foldl (Encoder.writeBit t) e := by
  unfold Encoder.write Spec.blockCode
  by_cases hw : block = WhiteBlock t
  · rw [if_pos hw, if_pos hw]
    rfl
  · rw [if_neg hw, if_neg hw]
    by_cases hb : block = BlackBlock t
    · rw [if_pos hb, if_pos hb]
      rfl
    · rw [if_neg hb, if_neg hb]
      have e31 : (0x80000000 : Nat) = 2 ^ 31 := by norm_num
      rw [e31, Encoder.writeLoop_eq_foldl t block 31 33 _ (by omega)]
      rfl

theorem Encoder.foldl_write_eq_foldl (t : Target) (bs : List Nat) :
    ∀ e : Encoder, bs.foldl (Encoder.write t) e =
      (Spec.blocksCode t bs).foldl (Encoder.writeBit t) e := by
  induction bs with
  | nil => intro e; rfl
  | cons x xs ih =>
    intro e
    rw [List.foldl_cons, Spec.blocksCode, List.foldl_append, ih, Encoder.write_eq_foldl]

/-- The method `encode` emits the bits of the code of the sequence, one by one. -/
theorem Encoder.encode_eq_foldl_writeBit (t : Target) (e : Encoder) (s : List Nat) :
    e.encode t s = (Spec.encodeBits t s).foldl (Encoder.writeBit t) e := by
  rw [Encoder.encode_eq_foldl_write, Encoder.foldl_write_eq_foldl]
  rfl

theorem Encoder.encodeRows_eq_foldl_writeBit (t : Target) (rows : List (List Nat)) :
    ∀ e : Encoder, rows.foldl (Encoder.encode t) e =
      (Spec.rowsCode t rows).foldl (Encoder.writeBit t) e := by
  induction rows with
  | nil => intro e; rfl
  | cons r rs ih =>
    intro e
    rw [List.foldl_cons, Spec.rowsCode, List.foldl_append, ih, Encoder.encode_eq_foldl_writeBit]

/-- The word count of the BitSet behind an encoder after it emitted the bits `code`. -/
theorem Encoder.wordCount_foldl_writeBit (t : Target) (code : List Bool) :
    ∀ e : Encoder, (code.foldl (Encoder.writeBit t) e).output.wordCount =
      Spec.storeCount t e.output.wordCount e.index code := by
  induction code with
  | nil => intro e; rfl
  | cons v vs ih =>
    intro e
    rw [List.foldl_cons, ih, Spec.storeCount]
    cases v with
    | true =>
      show Spec.storeCount t (e.write1 t).output.wordCount (e.write1 t).index vs = _
      rw [Encoder.index_write1]
      congr 1
      exact BitSet.length_set t e.output e.index
    | false =>
      show Spec.storeCount t (e.write0 t).output.wordCount (e.write0 t).index vs = _
      rw [Encoder.index_write0]
      congr 1
      exact BitSet.length_clear t e.output e.index

theorem Spec.storeCount_append (t : Target) (a b : List Bool) :
    ∀ (n c : Nat), Spec.storeCount t n c (a ++ b) =
      Spec.storeCount t (Spec.storeCount t n c a) (advance t c a.length) b := by
  induction a with
  | nil => intro n c; rfl
  | cons v vs ih =>
    intro n c
    rw [List.cons_append, Spec.storeCount, Spec.storeCount, ih, List.length_cons, advance]

theorem Spec.wordsFor_cons (t : Target) (c : Nat) (v : Bool) (vs : List Bool) :
    Spec.wordsFor t c (v :: vs) =
      if Spec.lastOne vs = none then (if v then c / bitsPerWord t + 1 else 0)
      else Spec.wordsFor t (c + 1) vs := by
  unfold Spec.wordsFor
  rw [Spec.lastOne]
  cases h : Spec.lastOne vs with
  | none =>
    cases v <;> simp
  | some p =>
    simp only [if_false, reduceCtorEq]
    rw [Nat.add_assoc, Nat.add_comm 1 p]

/-- Without wrap-around the word count is decided by the last 1 bit. -/
theorem Spec.storeCount_eq_max (t : Target) (code : List Bool) :
    ∀ (n c : Nat), c + code.length ≤ wordModulus t →
      Spec.storeCount t n c code = max n (Spec.wordsFor t c code) := by
  induction code with
  | nil =>
    intro n c _
    show n = max n 0
    omega
  | cons v vs ih =>
    intro n c hc
    rw [Spec.storeCount, Spec.wordsFor_cons]
    cases vs with
    | nil =>
      rw [Spec.storeCount, show Spec.lastOne ([] : List Bool) = none from rfl, if_pos rfl]
      cases v <;> simp
    | cons u us =>
      have hlen : c + 1 + (u :: us).length ≤ wordModulus t := by
        simp only [List.length_cons] at hc ⊢
        omega
      have hlt : c + 1 < wordModulus t := by
        simp only [List.length_cons] at hc
        omega
      rw [wrapWord_of_lt t _ hlt, ih _ (c + 1) hlen]
      by_cases hl : Spec.lastOne (u :: us) = none
      · rw [if_pos hl]
        have : Spec.wordsFor t (c + 1) (u :: us) = 0 := by
          unfold Spec.wordsFor; rw [hl]
        rw [this]
        cases v
        · simp
        · simp
      · rw [if_neg hl]
        have hge : c / bitsPerWord t + 1 ≤ Spec.wordsFor t (c + 1) (u :: us) := by
          unfold Spec.wordsFor
          cases h : Spec.lastOne (u :: us) with
          | none => exact absurd h hl
          | some p =>
            simp only
            have := Nat.div_le_div_right (c := bitsPerWord t) (show c ≤ c + 1 + p by omega)
            omega
        cases v
        · simp
        · simp only [if_true]
          omega

theorem Spec.lastOne_getD (code : List Bool) :
    ∀ p, Spec.lastOne code = some p → code.getD p false = true ∧ p < code.length := by
  induction code with
  | nil => intro p h; cases h
  | cons v vs ih =>
    intro p h
    rw [Spec.lastOne] at h
    cases hl : Spec.lastOne vs with
    | some q =>
      rw [hl] at h
      simp only [Option.some.injEq] at h
      subst h
      have := ih q hl
      exact ⟨by simpa using this.1, by simp only [List.length_cons]; omega⟩
    | none =>
      rw [hl] at h
      simp only at h
      cases v with
      | false => simp at h
      | true =>
        simp only [if_true, Option.some.injEq] at h
        subst h
        exact ⟨rfl, by simp⟩

theorem Spec.lastOne_append_of_some (a b : List Bool) (q : Nat) (h : Spec.lastOne b = some q) :
    Spec.lastOne (a ++ b) = some (a.length + q) := by
  induction a with
  | nil => rw [List.nil_append, h, List.length_nil, Nat.zero_add]
  | cons v vs ih =>
    rw [List.cons_append, Spec.lastOne, ih, List.length_cons]
    simp only [Option.some.injEq]
    omega

/-- The word count of the pixel data after a fresh encoder encoded `rows`, when their
code has at most `2 ^ W` bits. -/
theorem Encoder.wordCount_encodeRows (t : Target) (rows : List (List Nat))
    (h : (Spec.rowsCode t rows).length ≤ wordModulus t) :
    (rows.foldl (Encoder.encode t) ⟨⟨[]⟩, 0⟩).output.wordCount =
      Spec.wordsFor t 0 (Spec.rowsCode t rows) := by
  rw [Encoder.encodeRows_eq_foldl_writeBit, Encoder.wordCount_foldl_writeBit,
    Spec.storeCount_eq_max t _ _ _ (by rw [Nat.zero_add]; exact h)]
  exact Nat.zero_max _

/-- The last 1 bit decides the word count and lies in the last word. -/
theorem Encoder.wordCount_of_lastOne (t : Target) (rows : List (List Nat))
    (h : (Spec.rowsCode t rows).length ≤ wordModulus t) :
    (Spec.lastOne (Spec.rowsCode t rows) = none →
      (rows.foldl (Encoder.encode t) ⟨⟨[]⟩, 0⟩).output.wordCount = 0) ∧
    (∀ p, Spec.lastOne (Spec.rowsCode t rows) = some p →
      (rows.foldl (Encoder.encode t) ⟨⟨[]⟩, 0⟩).output.wordCount = p / bitsPerWord t + 1 ∧
      (rows.foldl (Encoder.encode t) ⟨⟨[]⟩, 0⟩).output.words.getD (p / bitsPerWord t) 0 ≠ 0) := by
  have hc := Encoder.wordCount_encodeRows t rows h
  constructor
  · intro hl
    rw [hc]
    unfold Spec.wordsFor
    rw [hl]
  · intro p hl
    constructor
    · rw [hc]
      unfold Spec.wordsFor
      rw [hl]
      simp only
      rw [Nat.zero_add]
    · have htest := Encoder.encodeRows_test t rows h p
      rw [(Spec.lastOne_getD _ p hl).1, BitSet.test_eq] at htest
      intro h0
      rw [h0, Nat.zero_testBit] at htest
      cases htest

theorem lastOne_blockCode_ones : Spec.lastOne (Spec.blockCode target32 16843009) = some 33 := by
  rw [blockCode_ones]
  rfl

theorem lastOne_encodeBits_longPixels :
    Spec.lastOne (Spec.encodeBits target32 longPixels) = some 4294967311 := by
  rw [encodeBits_longPixels, Spec.lastOne_append_of_some _ _ 33 lastOne_blockCode_ones,
    Spec.length_blocksCode_replicate, length_blockCode_ones]

theorem Spec.wordsFor_blocksCode_replicate_succ (t : Target) (b k q : Nat)
    (h : Spec.lastOne (Spec.blockCode t b) = some q) :
    Spec.wordsFor t 0 (Spec.blocksCode t (List.replicate (k + 1) b)) =
      (0 + (k * (Spec.blockCode t b).length + q)) / bitsPerWord t + 1 := by
  unfold Spec.wordsFor
  rw [Spec.blocksCode_replicate_succ, Spec.lastOne_append_of_some _ _ q h,
    Spec.length_blocksCode_replicate]

theorem wordsFor_longPixels_front :
    Spec.wordsFor target32 0 (Spec.blocksCode target32 (List.replicate 126322567 16843009)) =
      134217728 := by
  have h := Spec.wordsFor_blocksCode_replicate_succ target32 16843009 126322566 33
    lastOne_blockCode_ones
  rw [length_blockCode_ones] at h
  exact h.trans (by decide)

set_option maxRecDepth 100000 in
theorem storeCount_last_block :
    Spec.storeCount target32 134217728 4294967278 (Spec.blockCode target32 16843009) =
      134217728 := by
  rw [blockCode_ones]
  decide

theorem length_longPixels_front :
    (Spec.blocksCode target32 (List.replicate 126322567 16843009)).length = 4294967278 := by
  rw [Spec.length_blocksCode_replicate, length_blockCode_ones]

theorem storeCount_longPixels_front :
    Spec.storeCount target32 0 0 (Spec.blocksCode target32 (List.replicate 126322567 16843009)) =
      134217728 := by
  rw [Spec.storeCount_eq_max target32
    (Spec.blocksCode target32 (List.replicate 126322567 16843009)) 0 0
    (by rw [length_longPixels_front]; decide), wordsFor_longPixels_front]
  decide

/-- The pixel data of the 505290272 pixels `0x01` fills all `2 ^ 27` words of the 32-bit
index space. -/
theorem wordCount_encode_longPixels :
    (Encoder.encode target32 ⟨⟨[]⟩, 0⟩ longPixels).output.wordCount = 134217728 := by
  rw [Encoder.encode_eq_foldl_writeBit, Encoder.wordCount_foldl_writeBit, encodeBits_longPixels,
    Spec.storeCount_append,
    show (Encoder.mk ⟨[]⟩ 0).output.wordCount = 0 from rfl,
    show (Encoder.mk ⟨[]⟩ 0).index = 0 from rfl,
    storeCount_longPixels_front, length_longPixels_front,
    advance_of_lt target32 0 4294967278 (by decide), Nat.zero_add]
  exact storeCount_last_block

set_option maxRecDepth 100000 in
theorem encode_white_block_wordCount :
    (Encoder.encode target64 ⟨⟨[]⟩, 0⟩ [White, White, White, White]).output.wordCount = 0 ∧
      (Encoder.encode target64 ⟨⟨[]⟩, 0⟩ [White, White, White, White]).index = 1 ∧
      (Spec.encodeBits target64 [White, White, White, White]).length = 1 := by
  decide

/-- C33: after a fresh encoder on an empty BitSet encoded a sequence of pixel rows whose
code has at most `2 ^ W` bits, the BitSet has no word when the code has no 1 bit, and
otherwise `⌊p / W⌋ + 1` words for the position `p` of the last 1 bit, which lies in the
last word; four White pixels emit 1 bit and leave 0 words, fewer than `⌈1 / W⌉`. Past
`2 ^ W` bits the cursor wraps: on the 32-bit target the last 1 bit of the code of the
505290272 pixels `0x01` is emitted at position 15, and the BitSet has 134217728 words,
not `15 / 32 + 1 = 1`. -/
theorem Encoder.wordCount_last_one_wraps :
    (∀ (t : Target) (rows : List (List Nat)),
      (Spec.rowsCode t rows).length ≤ wordModulus t →
      (Spec.lastOne (Spec.rowsCode t rows) = none →
        (rows.foldl (Encoder.encode t) ⟨⟨[]⟩, 0⟩).output.wordCount = 0) ∧
      (∀ p, Spec.lastOne (Spec.rowsCode t rows) = some p →
        (rows.foldl (Encoder.encode t) ⟨⟨[]⟩, 0⟩).output.wordCount =
          p / bitsPerWord t + 1 ∧
        (rows.foldl (Encoder.encode t) ⟨⟨[]⟩, 0⟩).output.words.getD
          (p / bitsPerWord t) 0 ≠ 0)) ∧
    ((Encoder.encode target64 ⟨⟨[]⟩, 0⟩ [White, White, White, White]).output.wordCount = 0 ∧
      (Encoder.encode target64 ⟨⟨[]⟩, 0⟩ [White, White, White, White]).index = 1 ∧
      (Spec.encodeBits target64 [White, White, White, White]).length = 1) ∧
    (Spec.lastOne (Spec.encodeBits target32 longPixels) = some 4294967311 ∧
      advance target32 0 4294967311 = 15 ∧
      15 / bitsPerWord target32 + 1 = 1 ∧
      (Encoder.encode target32 ⟨⟨[]⟩, 0⟩ longPixels).output.wordCount = 134217728) := by
  refine ⟨Encoder.wordCount_of_lastOne, encode_white_block_wordCount,
    lastOne_encodeBits_longPixels, ?_, by decide, wordCount_encode_longPixels⟩
  rw [advance_eq_wrapWord target32 0 _ (by decide)]
  decide

/-! ### Rows of a bitmap after a store -/

theorem getElem?_take_append_drop (data px : List Nat) (off k : Nat)
    (h : off + px.length ≤ data.length) :
    (data.take off ++ px ++ data.drop (off + px.length))[k]? =
      if k < off then data[k]? else if k < off + px.length then px[k - off]? else data[k]? := by
  have hl : (data.take off).length = off := by rw [List.length_take]; omega
  by_cases h1 : k < off
  · rw [if_pos h1, List.append_assoc, List.getElem?_append_left (by omega),
      List.getElem?_take, if_pos h1]
  · rw [if_neg h1, List.append_assoc, List.getElem?_append_right (by omega), hl]
    by_cases h2 : k < off + px.length
    · rw [if_pos h2, List.getElem?_append_left (by omega)]
    · rw [if_neg h2, List.getElem?_append_right (by omega), List.getElem?_drop]
      congr 1
      omega

theorem Bitmap.rowPixels_storeRow (t : Target) (b : Bitmap) (y j : Nat) (px : List Nat)
    (hoff : wrapWord t (y * b.width) = y * b.width) (hpx : px.length = b.width)
    (hy : y * b.width + b.width ≤ b.data.length) :
    (b.storeRow t y px).rowPixels j = if j = y then px else b.rowPixels j := by
  unfold Bitmap.storeRow Bitmap.rowPixels
  simp only
  rw [hoff, show (Bitmap.mk b.size (List.take (y * b.width) b.data ++ px ++
    List.drop (y * b.width + px.length) b.data)).width = b.width from rfl]
  apply List.ext_getElem?
  intro i
  rw [List.getElem?_take, List.getElem?_drop,
    getElem?_take_append_drop _ _ _ _ (by rw [hpx]; exact hy), hpx]
  by_cases hj : j = y
  · rw [if_pos hj, hj]
    by_cases hi : i < b.width
    · rw [if_pos hi, if_neg (by omega), if_pos (by omega)]
      congr 1
      omega
    · rw [if_neg hi, List.getElem?_eq_none (by omega)]
  · rw [if_neg hj, List.getElem?_take, List.getElem?_drop]
    by_cases hi : i < b.width
    · rw [if_pos hi, if_pos hi]
      rcases Nat.lt_or_gt_of_ne hj with hlt | hgt
      · have : (j + 1) * b.width ≤ y * b.width := Nat.mul_le_mul_right _ hlt
        rw [Nat.add_mul, Nat.one_mul] at this
        rw [if_pos (by omega)]
      · have : (y + 1) * b.width ≤ j * b.width := Nat.mul_le_mul_right _ hgt
        rw [Nat.add_mul, Nat.one_mul] at this
        rw [if_neg (by omega), if_neg (by omega)]
    · rw [if_neg hi, if_neg hi]

theorem Decoder.decode_congr_length (t : Target) (d : Decoder) (a b : List Nat)
    (h : a.length = b.length) : d.decode t a = d.decode t b := by
  rw [Decoder.decode_spec, Decoder.decode_spec, h]

theorem Bitmap.rowPixels_white (w h j : Nat) (hj : j < h) :
    Bitmap.rowPixels ⟨⟨w, h⟩, List.replicate (w * h) White⟩ j = List.replicate w White := by
  have hrow : j * w + w ≤ w * h := by
    have : (j + 1) * w ≤ h * w := Nat.mul_le_mul_right _ hj
    rw [Nat.add_mul, Nat.one_mul, Nat.mul_comm h] at this
    exact this
  unfold Bitmap.rowPixels
  show ((List.replicate (w * h) White).drop (j * w)).take w = _
  rw [List.drop_replicate, List.take_replicate]
  congr 1
  omega

theorem Spec.flaggedRows_succ (t : Target) (c : CompressedBitmap) (y n : Nat) :
    Spec.flaggedRows t c y (n + 1) =
      if c.rowLookupTable.test t y = true then y :: Spec.flaggedRows t c (y + 1) n
      else Spec.flaggedRows t c (y + 1) n := by
  unfold Spec.flaggedRows
  rw [List.range'_succ, List.filter_cons]

/-- The loop of `uncompress` on any compressed bitmap of a valid size: the rows whose
lookup bit is 0 stay as they were, the rows whose lookup bit is 1 receive the successive
decodes of `width` pixels by the one decoder. -/
theorem uncompressLoop_rows (t : Target) (c : CompressedBitmap)
    (hwh : c.width * c.height ≤ maxUSize t) :
    ∀ (n y : Nat) (s : UncompressState), y + n ≤ c.height →
      s.result.size = c.size → s.result.data.length = c.width * c.height →
      ∃ s', uncompressLoop t c n y s = .ok s' ∧
        s'.result.size = c.size ∧ s'.result.data.length = c.width * c.height ∧
        (∀ j, ¬ (y ≤ j ∧ j < y + n ∧ c.rowLookupTable.test t j = true) →
          s'.result.rowPixels j = s.result.rowPixels j) ∧
        (Spec.flaggedRows t c y n).map s'.result.rowPixels =
          (Spec.decodeAll t s.rowDecoder (Spec.flaggedSpans t c y n)).1 ∧
        s'.rowDecoder = (Spec.decodeAll t s.rowDecoder (Spec.flaggedSpans t c y n)).2 := by
  intro n
  induction n with
  | zero =>
    intro y s _ hsize hlen
    exact ⟨s, by rw [uncompressLoop], hsize, hlen, fun _ _ => rfl, rfl, rfl⟩
  | succ n ih =>
    intro y s hy hsize hlen
    have hw : s.result.width = c.width := congrArg BitmapSize.width hsize
    have hh : s.result.height = c.height := congrArg BitmapSize.height hsize
    have hrow : y * c.width + c.width ≤ c.width * c.height := by
      have : (y + 1) * c.width ≤ c.height * c.width := Nat.mul_le_mul_right _ (by omega)
      rw [Nat.add_mul, Nat.one_mul, Nat.mul_comm c.height] at this
      exact this
    have hoff : wrapWord t (y * c.width) = y * c.width :=
      wrapWord_of_le_max t (y * c.width) (by omega)
    rw [uncompressLoop]
    simp only
    unfold Spec.flaggedSpans
    rw [Spec.flaggedRows_succ]
    by_cases htest : c.rowLookupTable.test t y = true
    · rw [if_pos htest, if_pos htest]
      unfold Bitmap.rowAt
      rw [if_neg (by rw [hh]; omega)]
      simp only
      rw [hw, hoff]
      have hspan : ((s.result.data.drop (y * c.width)).take c.width).length = c.width := by
        rw [List.length_take, List.length_drop, hlen]
        omega
      have hcongr := Decoder.decode_congr_length t s.rowDecoder
        ((s.result.data.drop (y * c.width)).take c.width) (List.replicate c.width White)
        (by rw [hspan, List.length_replicate])
      rw [hcongr]
      have hdec : (s.rowDecoder.decode t (List.replicate c.width White)).1.length = c.width := by
        rw [Decoder.length_decode, List.length_replicate]
      have hstore := fun j => Bitmap.rowPixels_storeRow t s.result y j
        (s.rowDecoder.decode t (List.replicate c.width White)).1
        (by rw [hw]; exact hoff) (by rw [hw]; exact hdec) (by rw [hw, hlen]; exact hrow)
      obtain ⟨s', h1, h2, h3, h4, h5, h6⟩ := ih (y + 1)
        ⟨s.result.storeRow t y (s.rowDecoder.decode t (List.replicate c.width White)).1,
          (s.rowDecoder.decode t (List.replicate c.width White)).2,
          s.progress ++ [(y, c.height)]⟩ (by omega) hsize
        (by
          unfold Bitmap.storeRow
          simp only
          rw [hw, hoff, length_take_append_drop _ _ _ (by rw [hdec, hlen]; exact hrow), hlen])
      refine ⟨s', h1, h2, h3, ?_, ?_, ?_⟩
      · intro j hj
        have hne : j ≠ y := by
          intro he
          apply hj
          rw [he]
          exact ⟨Nat.le_refl y, by omega, htest⟩
        rw [h4 j (fun hc => hj ⟨by omega, by omega, hc.2.2⟩)]
        show (s.result.storeRow t y _).rowPixels j = _
        rw [hstore j, if_neg hne]
      · rw [List.map_cons, List.map_cons, Spec.decodeAll]
        simp only
        unfold Spec.flaggedSpans at h5
        rw [← h5, h4 y (fun hc => by omega)]
        show (s.result.storeRow t y _).rowPixels y :: _ = _
        rw [hstore y, if_pos rfl]
      · rw [List.map_cons, Spec.decodeAll]
        simp only
        unfold Spec.flaggedSpans at h6
        exact h6
    · rw [if_neg htest, if_neg htest]
      obtain ⟨s', h1, h2, h3, h4, h5, h6⟩ := ih (y + 1)
        ⟨s.result, s.rowDecoder, s.progress ++ [(y, c.height)]⟩ (by omega) hsize hlen
      refine ⟨s', h1, h2, h3, ?_, h5, h6⟩
      intro j hj
      exact h4 j (fun hc => hj ⟨by omega, by omega, hc.2.2⟩)

/-! ### `uncompress` on arbitrary tables -/

/-- With an allocator that never fails `uncompressWith` is `uncompress`. -/
theorem uncompressWith_always (t : Target) (c : CompressedBitmap) :
    uncompressWith (fun _ => true) t c = uncompress t c := rfl

/-- When the output bitmap cannot be allocated `uncompress` fails with `InvalidSize`. -/
theorem uncompressWith_of_refuses (allocates : Nat → Bool) (t : Target) (c : CompressedBitmap)
    (hw : 1 ≤ c.width) (hh : 1 ≤ c.height) (hwh : c.width * c.height ≤ maxUSize t)
    (ha : allocates (c.width * c.height) = false) :
    uncompressWith allocates t c = .error (.invalidSize c.width c.height .TooLarge) := by
  unfold uncompressWith
  simp only
  rw [Bitmap.createWith_of_refuses allocates t c.width c.height White hw hh hwh ha]

/-- When the output bitmap can be allocated `uncompress` returns: the rows whose lookup
bit is 0 are White, the other rows are the successive decodes by one decoder. -/
theorem uncompressWith_of_allocates (allocates : Nat → Bool) (t : Target)
    (c : CompressedBitmap) (hw : 1 ≤ c.width) (hh : 1 ≤ c.height)
    (hwh : c.width * c.height ≤ maxUSize t) (ha : allocates (c.width * c.height) = true) :
    ∃ b log, uncompressWith allocates t c = .ok (b, log) ∧
      b.width = c.width ∧ b.height = c.height ∧
      b.data.length = c.width * c.height ∧
      (∀ y, y < c.height → b.rowAt t y = .ok (b.rowPixels y)) ∧
      (∀ y, y < c.height → c.rowLookupTable.test t y = false →
        b.rowPixels y = List.replicate c.width White) ∧
      (Spec.flaggedRows t c 0 c.height).map b.rowPixels =
        (Spec.decodeAll t ⟨c.pixelData, 0⟩ (Spec.flaggedSpans t c 0 c.height)).1 := by
  obtain ⟨s', h1, h2, h3, h4, h5, -⟩ := uncompressLoop_rows t c hwh c.height 0
    ⟨⟨c.size, List.replicate (c.width * c.height) White⟩, ⟨c.pixelData, 0⟩, []⟩
    (by omega) rfl (List.length_replicate _ _)
  have hbw : s'.result.width = c.width := congrArg BitmapSize.width h2
  have hbh : s'.result.height = c.height := congrArg BitmapSize.height h2
  refine ⟨s'.result, s'.progress ++ [(c.height, c.height)], ?_, hbw, hbh, h3, ?_, ?_, h5⟩
  · unfold uncompressWith
    simp only
    rw [Bitmap.createWith_of_allocates allocates t c.width c.height White hw hh hwh ha]
    simp only
    rw [show (⟨c.width, c.height⟩ : BitmapSize) = c.size from rfl, h1]
  · intro y hy
    have hrow : y * c.width + c.width ≤ c.width * c.height := by
      have : (y + 1) * c.width ≤ c.height * c.width := Nat.mul_le_mul_right _ hy
      rw [Nat.add_mul, Nat.one_mul, Nat.mul_comm c.height] at this
      exact this
    unfold Bitmap.rowAt Bitmap.rowPixels
    rw [if_neg (by rw [hbh]; omega), hbw, wrapWord_of_le_max t (y * c.width) (by omega)]
  · intro y hy htest
    rw [h4 y (fun hc => by rw [htest] at hc; exact absurd hc.2.2 (by decide))]
    exact Bitmap.rowPixels_white c.width c.height y hy

/-- C32, amended: for a compressed bitmap `C` of a valid size, with any lookup table and
any pixel data, `uncompress(C)` fails with `InvalidSize` and `TooLarge` when the
`width * height` pixels of its result cannot be allocated; otherwise it returns a bitmap
of the width and height of `C` in which every row whose lookup bit is 0 is White and the
rows whose lookup bit is 1 are, in increasing `y`, the successive decodes of `width`
pixels from the pixel data by one decoder started at cursor 0. -/
theorem uncompressWith_spec (allocates : Nat → Bool) (t : Target) (c : CompressedBitmap)
    (hw : 1 ≤ c.width) (hh : 1 ≤ c.height) (hwh : c.width * c.height ≤ maxUSize t) :
    (allocates (c.width * c.height) = true →
      ∃ b log, uncompressWith allocates t c = .ok (b, log) ∧
        b.width = c.width ∧ b.height = c.height ∧
        b.data.length = c.width * c.height ∧
        (∀ y, y < c.height → b.rowAt t y = .ok (b.rowPixels y)) ∧
        (∀ y, y < c.height → c.rowLookupTable.test t y = false →
          b.rowPixels y = List.replicate c.width White) ∧
        (Spec.flaggedRows t c 0 c.height).map b.rowPixels =
          (Spec.decodeAll t ⟨c.pixelData, 0⟩ (Spec.flaggedSpans t c 0 c.height)).1) ∧
    (allocates (c.width * c.height) = false →
      uncompressWith allocates t c = .error (.invalidSize c.width c.height .TooLarge)) :=
  ⟨uncompressWith_of_allocates allocates t c hw hh hwh,
    uncompressWith_of_refuses allocates t c hw hh hwh⟩

/-- A compressed 4x3 bitmap that flags the rows 0 and 2 and has no pixel data is
uncompressed to a 4x3 bitmap; its row 1 is White, and so are the two decoded rows, read
from bits past the end of the pixel data. -/
theorem uncompressWith_spec_witness :
    ∃ b log, uncompressWith (fun _ => true) target64 truncatedCompressed = .ok (b, log) ∧
      b.width = 4 ∧ b.height = 3 ∧ b.rowPixels 1 = [White, White, White, White] ∧
      [b.rowPixels 0, b.rowPixels 2] =
        [[White, White, White, White], [White, White, White, White]] := by
  obtain ⟨b, log, h1, h2, h3, -, -, h6, h7⟩ :=
    (uncompressWith_spec (fun _ => true) target64 truncatedCompressed (by decide) (by decide)
      (by decide)).1 rfl
  refine ⟨b, log, h1, h2, h3, h6 1 (by decide) (by decide), ?_⟩
  have hf : Spec.flaggedRows target64 truncatedCompressed 0 truncatedCompressed.height =
      [0, 2] := by decide
  have hs : (Spec.decodeAll target64 ⟨truncatedCompressed.pixelData, 0⟩
      (Spec.flaggedSpans target64 truncatedCompressed 0 truncatedCompressed.height)).1 =
      [[White, White, White, White], [White, White, White, White]] := by decide
  rw [hf, hs] at h7
  exact h7

theorem create_hugeCompressed :
    CompressedBitmap.create target64 (maxUSize target64 / 2) 2 = .ok hugeCompressed := by
  rw [CompressedBitmap.create_of_valid_dims target64 _ 2 (by decide) (by decide) (by decide)]
  rfl

/-- C32, counterexample: `CompressedBitmap(MAX_USIZE / 2, 2)` has a valid size, and on a
host that allocates no object above `MAX_USIZE / 2` bytes `uncompress` does not return a
bitmap for it: it fails with `InvalidSize` and `TooLarge`. -/
theorem uncompressWith_huge_fails :
    CompressedBitmap.create target64 (maxUSize target64 / 2) 2 = .ok hugeCompressed ∧
    1 ≤ hugeCompressed.width ∧ 1 ≤ hugeCompressed.height ∧
    hugeCompressed.width * hugeCompressed.height ≤ maxUSize target64 ∧
    uncompressWith (ptrdiffAllocator target64) target64 hugeCompressed =
      .error (.invalidSize (maxUSize target64 / 2) 2 .TooLarge) ∧
    ¬ ∃ b log, uncompressWith (ptrdiffAllocator target64) target64 hugeCompressed =
      .ok (b, log) := by
  have hfail := uncompressWith_of_refuses (ptrdiffAllocator target64) target64 hugeCompressed
    (by decide) (by decide) (by decide) (by decide)
  refine ⟨create_hugeCompressed, by decide, by decide, by decide, hfail, ?_⟩
  rintro ⟨b, log, hb⟩
  rw [hfail] at hb
  cases hb

/-! ### The progress calls of `uncompress` and the allocation of its result -/

/-- A size that `BitmapSize` accepts has both dimensions at least 1 and a pixel count that
fits a machine word. -/
theorem BitmapSize.create_ok (t : Target) (w h : Nat) (s : BitmapSize)
    (hs : BitmapSize.create t w h = .ok s) :
    1 ≤ w ∧ 1 ≤ h ∧ w * h ≤ maxUSize t ∧ s = ⟨w, h⟩ := by
  unfold BitmapSize.create at hs
  by_cases h0 : w = 0 ∨ h = 0
  · rw [if_pos h0] at hs
    cases hs
  · rw [if_neg h0] at hs
    by_cases h1 : h > maxUSize t / w
    · rw [if_pos h1] at hs
      cases hs
    · rw [if_neg h1] at hs
      have hw : 1 ≤ w := by omega
      rw [not_lt, Nat.le_div_iff_mul_le (by omega), Nat.mul_comm] at h1
      exact ⟨hw, by omega, h1, (Except.ok.inj hs).symm⟩

/-- A bitmap that the constructor returned has a valid size, and the allocator served the
request for its `width * height` pixels. -/
theorem Bitmap.createWith_ok (allocates : Nat → Bool) (t : Target) (w h bg : Nat) (b : Bitmap)
    (hb : Bitmap.createWith allocates t w h bg = .ok b) :
    1 ≤ w ∧ 1 ≤ h ∧ w * h ≤ maxUSize t ∧ allocates (w * h) = true ∧
      b = ⟨⟨w, h⟩, List.replicate (w * h) bg⟩ := by
  unfold Bitmap.createWith at hb
  cases hs : BitmapSize.create t w h with
  | error e =>
    rw [hs] at hb
    cases hb
  | ok s =>
    obtain ⟨hw, hh, hwh, rfl⟩ := BitmapSize.create_ok t w h s hs
    rw [hs] at hb
    simp only at hb
    rw [wrapWord_of_le_max t _ hwh] at hb
    by_cases ha : allocates (w * h) = true
    · rw [if_pos ha] at hb
      exact ⟨hw, hh, hwh, ha, (Except.ok.inj hb).symm⟩
    · rw [if_neg ha] at hb
      cases hb

/-- The height of a bitmap that a host holds leaves room for the rounding
`height + W - 1`, when the allocator serves no request above `MAX_USIZE - W + 1` bytes. -/
theorem Bitmap.height_of_createWith (allocates : Nat → Bool) (t : Target)
    (hlim : ∀ n, allocates n = true → n + (bitsPerWord t - 1) < wordModulus t)
    (w h bg : Nat) (b : Bitmap) (hb : Bitmap.createWith allocates t w h bg = .ok b) :
    b.height + (bitsPerWord t - 1) < wordModulus t := by
  obtain ⟨hw, -, -, ha, rfl⟩ := Bitmap.createWith_ok allocates t w h bg b hb
  have := hlim _ ha
  have hle : h ≤ w * h := Nat.le_mul_of_pos_left h hw
  show h + (bitsPerWord t - 1) < wordModulus t
  omega

/-- The allocator `ptrdiffAllocator` serves no request above `MAX_USIZE - W + 1` bytes. -/
theorem ptrdiffAllocator_limit (t : Target) (n : Nat) (h : ptrdiffAllocator t n = true) :
    n + (bitsPerWord t - 1) < wordModulus t := by
  unfold ptrdiffAllocator at h
  have hn : n ≤ maxUSize t / 2 := of_decide_eq_true h
  revert hn
  unfold maxUSize wordModulus bitsPerWord
  cases t.wordSize <;> simp only [WordSize.bits] <;> omega

/-- C3: `load` on the words that `save(C)` wrote succeeds, consumes them all and returns
`C` itself (the same width, height, lookup-table words and pixel-data words), for every
`C` that the constructor returns and for every `C` that `compress` returns for a bitmap
that a host holds. The bitmaps of a host have the size of a bitmap that `Bitmap::Bitmap`
allocated, and its allocator serves no request above `MAX_USIZE - W + 1` bytes, as an
address space of `2 ^ W` bytes also holds the program; the allocator that serves the
requests up to `MAX_USIZE / 2` bytes is one. In terms of the bitmap alone, the round trip
holds for every valid bitmap with `height + W - 1 <= MAX_USIZE`. For the 4x3 bitmap of
the tests on a 64-bit target the five saved words are read back. -/
theorem load_save_round_trip :
    (∀ (t : Target) (w h : Nat), 1 ≤ w → 1 ≤ h → w * h ≤ maxUSize t →
      ∃ c, CompressedBitmap.create t w h = .ok c ∧ load t (save [] c) = .ok (c, [])) ∧
    (∀ (allocates : Nat → Bool) (t : Target),
      (∀ n, allocates n = true → n + (bitsPerWord t - 1) < wordModulus t) →
      ∀ (w h bg : Nat) (b0 : Bitmap), Bitmap.createWith allocates t w h bg = .ok b0 →
      ∀ b : Bitmap, Bitmap.Valid t b → b.size = b0.size →
      ∃ c log, compress t b = .ok (c, log) ∧ load t (save [] c) = .ok (c, [])) ∧
    (∀ (t : Target) (n : Nat), ptrdiffAllocator t n = true →
      n + (bitsPerWord t - 1) < wordModulus t) ∧
    (∀ (t : Target) (b : Bitmap), Bitmap.Valid t b →
      b.height + (bitsPerWord t - 1) < wordModulus t →
      ∃ c log, compress t b = .ok (c, log) ∧ load t (save [] c) = .ok (c, [])) ∧
    (Bitmap.createWith (ptrdiffAllocator target64) target64 4 3 White =
        .ok ⟨sampleBitmap.size, List.replicate 12 White⟩ ∧
      Bitmap.Valid target64 sampleBitmap ∧
      ∃ c log, compress target64 sampleBitmap = .ok (c, log) ∧
        save [] c = [0x4, 0x3, 0xA000000000000000, 0x1, 0xBDEADBEEF0000000] ∧
        load target64 [0x4, 0x3, 0xA000000000000000, 0x1, 0xBDEADBEEF0000000] =
          .ok (c, [])) := by
  refine ⟨load_save_create, ?_, ptrdiffAllocator_limit, load_save_compress, ?_⟩
  · intro allocates t hlim w h bg b0 hb0 b hb hsize
    apply load_save_compress t b hb
    have := Bitmap.height_of_createWith allocates t hlim w h bg b0 hb0
    unfold Bitmap.height at this ⊢
    rw [hsize]
    exact this
  · refine ⟨?_, by decide, ?_⟩
    · exact Bitmap.createWith_of_allocates (ptrdiffAllocator target64) target64 4 3 White
        (by decide) (by decide) (by decide) (by decide)
    · obtain ⟨c, log, hc, hl⟩ := load_save_compress target64 sampleBitmap (by decide)
        (by decide)
      have hc2 := compress_sampleBitmap
      rw [hc] at hc2
      have hce : c = ⟨⟨4, 3⟩, ⟨[0xA000000000000000]⟩, ⟨[0xBDEADBEEF0000000]⟩⟩ :=
        congrArg Prod.fst (Except.ok.inj hc2)
      subst hce
      exact ⟨_, log, hc, by decide, hl⟩

end BarchLib
